import Mathlib

/-!
Sailfish / Salmon streaming quantification core

A shallow embedding of `src/src/SalmonQuantify.cpp`: the k-mer vote
clustering of `TranscriptHitList::computeBestHit`, the read scan, the pair
scoring block, the ambiguity gate and the forgetting schedule of `add_sizes`,
and the mini-batch EM step `processMiniBatch`.

Conventions of the embedding.

* `uint32_t` values are natural numbers; every operation that can leave the
  32-bit range is reduced with `u32` (remainder modulo `2 ^ 32`).
* The two `double` cutoffs `0.80 * readLength` of the scoring block are
  computed as binary64 does (`roundToDouble`).
* The log-space `double` values of the EM step are idealised to exact
  arithmetic in a linearly ordered semifield `K` (the rationals when the
  definitions are evaluated).  A log-space `double` is a `LogVal K`: the value
  `x` is stored as `exp x`, so `LOG_0 = -∞` is stored as `0` and `LOG_1 = 0` as
  `1`.
* `std::vector<Transcript>` is a function from transcript id to transcript
  state; indexing outside the vector is undefined in the source and the
  claims about the table are read for ids inside it.
* The 64-bit per-transcript counters are natural numbers.
* The forgetting schedule takes logarithms and powers: there the `double` is
  kept as the logarithm itself, in any field `D`, with `std::log` and
  `std::pow` as parameters (the real `log` and power where signs matter).
* An access `v[i]` of the read scan to an index table is `v[i]?`: the scan
  returns `none` as soon as a table is indexed outside its bounds.
* What the source takes from jellyfish (`mer_dna::code`, the k-mer
  operations) and from headers that are not among the sources (the perfect
  hash, the cluster forest) enters as parameters.
-/

set_option linter.unusedSectionVars false

namespace Sailfish

/-! ## 32-bit unsigned arithmetic -/

/-- Wrap-around of `uint32_t` arithmetic. -/
def u32 (n : Nat) : Nat := n % 2 ^ 32

/-- The `uint32_t` difference `a - b` of two 32-bit values. -/
def u32sub (a b : Nat) : Nat := u32 (a + 2 ^ 32 - b)

/-! ## Votes and hit lists (`KmerVote`, `TranscriptHitList`) -/

/-- A vote `(votePos, readPos)`: class `KmerVote`. -/
structure KmerVote where
  votePos : Nat
  readPos : Nat
deriving DecidableEq, Repr

/-- The comparator handed to `std::sort` in `computeBestHit`. -/
def voteLess (v1 v2 : KmerVote) : Bool :=
  if v1.votePos = v2.votePos then decide (v1.readPos < v2.readPos)
  else decide (v1.votePos < v2.votePos)

/-- Non-strict order of the comparator: `v2` does not come before `v1`. -/
def voteLE (v1 v2 : KmerVote) : Prop := voteLess v2 v1 = false

instance voteLE_decidable : DecidableRel voteLE := fun a b =>
  inferInstanceAs (Decidable (voteLess b a = false))

instance voteLE_total : IsTotal KmerVote voteLE :=
  ⟨fun a b => by
    simp only [voteLE, voteLess]
    split_ifs <;> simp only [decide_eq_false_iff_not] <;> omega⟩

instance voteLE_trans : IsTrans KmerVote voteLE :=
  ⟨fun a b c => by
    simp only [voteLE, voteLess]
    split_ifs <;> simp only [decide_eq_false_iff_not] <;> omega⟩

/-- The `std::sort` call of `computeBestHit`: the votes in ascending
`(votePos, readPos)` order.  Votes that compare equal are identical, so the
sorted sequence does not depend on the sorting algorithm. -/
def sortVotes (votes : List KmerVote) : List KmerVote :=
  votes.insertionSort voteLE

/-- The local `struct VoteInfo` of `computeBestHit`. -/
structure VoteInfo where
  coverage : Nat
  rightmostBase : Nat
deriving DecidableEq, Repr

/-- Class `TranscriptHitList`. -/
structure TranscriptHitList where
  bestHitPos : Nat
  bestHitScore : Nat
  votes : List KmerVote
deriving DecidableEq, Repr

/-- A freshly constructed `TranscriptHitList` (all members `0` / empty). -/
def TranscriptHitList.empty : TranscriptHitList := ⟨0, 0, []⟩

/-- `TranscriptHitList::addVote`. -/
def TranscriptHitList.addVote (h : TranscriptHitList) (tpos readPos : Nat) :
    TranscriptHitList :=
  let transcriptPos := if readPos > tpos then 0 else tpos - readPos
  { h with votes := h.votes ++ [⟨transcriptPos, readPos⟩] }

/-- `TranscriptHitList::addVoteRC`. -/
def TranscriptHitList.addVoteRC (h : TranscriptHitList) (tpos readPos : Nat) :
    TranscriptHitList :=
  let transcriptPos := if readPos > tpos then 0 else u32 (tpos + readPos)
  { h with votes := h.votes ++ [⟨transcriptPos, readPos⟩] }

/-- The hard-coded `uint32_t klen{20}` of `computeBestHit`. -/
def klen : Nat := 20

/-- The loop state of `computeBestHit`: the `flat_map` from cluster start to
`VoteInfo` (an absent key reads as the value-initialised entry), the current
cluster `currClust`, and the running maximum. -/
structure ClusterLoop where
  hitMap : Nat → VoteInfo
  currClust : Nat
  maxClusterPos : Nat
  maxClusterCount : Nat

/-- The two statements
`hmEntry.coverage += std::min(klen, (readPos + klen) - hmEntry.rightmostBase);`
`hmEntry.rightmostBase = readPos + klen;` on the entry `hitMap[currClust]`. -/
def absorbVote (hitMap : Nat → VoteInfo) (currClust readPos : Nat) : Nat → VoteInfo :=
  let hmEntry := hitMap currClust
  Function.update hitMap currClust
    { coverage := u32 (hmEntry.coverage
        + min klen (u32sub (u32 (readPos + klen)) hmEntry.rightmostBase)),
      rightmostBase := u32 (readPos + klen) }

/-- One iteration of the `for` loop of `computeBestHit`. -/
def voteStep (st : ClusterLoop) (v : KmerVote) : ClusterLoop :=
  let votePos := v.votePos
  let readPos := v.readPos
  let st1 : ClusterLoop :=
    if votePos ≥ st.currClust then
      let currClust := if votePos - st.currClust > 10 then votePos else st.currClust
      { st with currClust := currClust, hitMap := absorbVote st.hitMap currClust readPos }
    else
      -- the branch that prints "CHA?!?"
      let currClust := if st.currClust - votePos > 10 then votePos else st.currClust
      { st with currClust := currClust, hitMap := absorbVote st.hitMap currClust readPos }
  if (st1.hitMap st1.currClust).coverage > st1.maxClusterCount then
    { st1 with maxClusterCount := (st1.hitMap st1.currClust).coverage,
               maxClusterPos := st1.currClust }
  else st1

/-- The state before the first iteration: empty `hitMap`,
`currClust = votes.front().votePos`, maxima `0`.  (`front()` of an empty
vector is undefined in the source; the embedding reads `0` there.) -/
def initLoop (sorted : List KmerVote) : ClusterLoop :=
  { hitMap := fun _ => ⟨0, 0⟩,
    currClust := match sorted with
      | [] => 0
      | v :: _ => v.votePos,
    maxClusterPos := 0,
    maxClusterCount := 0 }

/-- `TranscriptHitList::computeBestHit`. -/
def computeBestHit (h : TranscriptHitList) : TranscriptHitList :=
  let votes := sortVotes h.votes
  let st := votes.foldl voteStep (initLoop votes)
  { bestHitPos := st.maxClusterPos, bestHitScore := st.maxClusterCount, votes := votes }

/-! ## The clustering as the specification words it -/

/-- A vote is "within 10 bases" of a cluster start. -/
def within10 (votePos start : Nat) : Bool :=
  decide (votePos ≤ start + 10) && decide (start ≤ votePos + 10)

/-- The greedy single pass: `cur` is the cluster being filled (started at
`start`); a vote within 10 of `start` is absorbed, any other vote closes the
cluster and starts a new one at its own `votePos`. -/
def greedyClustersFrom (start : Nat) (cur : List KmerVote) :
    List KmerVote → List (List KmerVote)
  | [] => [cur]
  | v :: vs =>
    if within10 v.votePos start then greedyClustersFrom start (cur ++ [v]) vs
    else cur :: greedyClustersFrom v.votePos [v] vs

/-- The clusters of a sorted vote list; the first cluster starts at the first
`votePos`. -/
def greedyClusters : List KmerVote → List (List KmerVote)
  | [] => []
  | v :: vs => greedyClustersFrom v.votePos [] (v :: vs)

/-- One absorbed vote: the coverage grows by
`min(k, (read_pos + k) − right_edge)` and `right_edge` becomes `read_pos + k`
(in 32-bit unsigned arithmetic).  The pair is `(coverage, right_edge)`. -/
def coverStep (k : Nat) (acc : Nat × Nat) (v : KmerVote) : Nat × Nat :=
  (u32 (acc.1 + min k (u32sub (u32 (v.readPos + k)) acc.2)), u32 (v.readPos + k))

/-- The coverage of one cluster, for k-mer length `k`. -/
def clusterCoverage (k : Nat) (cluster : List KmerVote) : Nat :=
  (cluster.foldl (coverStep k) (0, 0)).1

/-- The `best_score` of the specification for k-mer length `k`: the largest
cluster coverage of the greedy pass over the sorted votes. -/
def specBestScore (k : Nat) (votes : List KmerVote) : Nat :=
  ((greedyClusters (sortVotes votes)).map (clusterCoverage k)).foldl max 0

/-- The largest coverage the greedy pass still reaches from the middle of a
cluster: `acc` is the `(coverage, right_edge)` of the cluster started at
`start`, `vs` the votes not yet visited. -/
def bestFrom (k : Nat) (start : Nat) (acc : Nat × Nat) : List KmerVote → Nat
  | [] => acc.1
  | v :: vs =>
    if within10 v.votePos start then bestFrom k start (coverStep k acc v) vs
    else max acc.1 (bestFrom k v.votePos (coverStep k (0, 0) v) vs)

/-! ## Log-space arithmetic (`sailfish::math`) -/

/-- A log-space `double`, stored by its exponential: `x` is kept as `exp x`. -/
structure LogVal (K : Type) where
  exp : K
deriving DecidableEq, Repr

section LogMath
variable {K : Type} [LinearOrderedSemifield K]

/-- `sailfish::math::LOG_0`, the logarithm of `0` (`-∞`). -/
def LOG_0 : LogVal K := ⟨0⟩

/-- `sailfish::math::LOG_1`, the logarithm of `1`. -/
def LOG_1 : LogVal K := ⟨1⟩

/-- `std::log` of a non-negative plain value. -/
def LogVal.log (x : K) : LogVal K := ⟨x⟩

/-- Sum of two log-space values, `a + b` on `double`: the product of the
exponentials. -/
instance LogVal.instAdd : Add (LogVal K) := ⟨fun a b => ⟨a.exp * b.exp⟩⟩

/-- Difference of two log-space values, `a - b` on `double` with `b` finite:
the quotient of the exponentials. -/
instance LogVal.instSub : Sub (LogVal K) := ⟨fun a b => ⟨a.exp / b.exp⟩⟩

/-- Modelled from the spec: `sailfish::math::logAdd` (SailfishMath.hpp is not
among the sources).  "If either is `LOG_0`, return the other; else
`max + log1p(exp(min − max))`." -/
def logAdd (a b : LogVal K) : LogVal K :=
  if a = LOG_0 then b
  else if b = LOG_0 then a
  else
    let hi := if a.exp ≤ b.exp then b else a
    let lo := if a.exp ≤ b.exp then a else b
    ⟨hi.exp * (1 + (lo - hi).exp)⟩

end LogMath

/-! ## Transcripts and alignments -/

/-- Modelled from the spec: class `Transcript` (Transcript.hpp is not among the
sources) with the members `processMiniBatch` and `add_sizes` use: the
immutable `RefLength` and the mutable `log_mass`, `shared_count`,
`unique_count` and `total_count`. -/
@[ext]
structure Transcript (K : Type) where
  RefLength : Nat
  mass : LogVal K
  sharedCount : K
  uniqueCount : Nat
  totalCount : Nat
deriving DecidableEq

/-- Class `Alignment`. -/
structure Alignment (K : Type) where
  transcriptID : Nat
  kmerCount : Nat
  logProb : LogVal K
deriving DecidableEq

section Tables
variable {K : Type} [LinearOrderedSemifield K]

/-- Modelled from the spec: `Transcript::addTotalCount`. -/
def Transcript.addTotalCount (t : Transcript K) (n : Nat) : Transcript K :=
  { t with totalCount := t.totalCount + n }

/-- Modelled from the spec: `Transcript::addUniqueCount`. -/
def Transcript.addUniqueCount (t : Transcript K) (n : Nat) : Transcript K :=
  { t with uniqueCount := t.uniqueCount + n }

/-- Modelled from the spec: `Transcript::addSharedCount`. -/
def Transcript.addSharedCount (t : Transcript K) (x : K) : Transcript K :=
  { t with sharedCount := t.sharedCount + x }

/-- Modelled from the spec: `Transcript::addMass`,
`T.log_mass = log_add(T.log_mass, update_mass)`. -/
def Transcript.addMass (t : Transcript K) (m : LogVal K) : Transcript K :=
  { t with mass := logAdd t.mass m }

/-- The constructor call `Alignment(transcriptID, kCount)`: `logProb` takes its
default `LOG_0`. -/
def Alignment.new (transcriptID kCount : Nat) : Alignment K :=
  ⟨transcriptID, kCount, LOG_0⟩

/-- The table `std::vector<Transcript>& transcripts`, by transcript id. -/
abbrev TranscriptTable (K : Type) := Nat → Transcript K

/-! ## Pair scoring and the ambiguity gate (`add_sizes`) -/

/-- The per-read-end map `std::unordered_map<uint64_t, TranscriptHitList>` in
iteration order. -/
abbrev HitMap := List (Nat × TranscriptHitList)

/-- What the read scan guarantees of a hit map: one entry per transcript, each
with at least one vote (an entry is created by `operator[]` only to receive a
vote), under a key that is a 32-bit transcript id (a value of `transcript(e)`). -/
def HitMap.WF (m : HitMap) : Prop :=
  (m.map Prod.fst).Nodup ∧ (∀ e ∈ m, e.2.votes ≠ []) ∧ ∀ e ∈ m, e.1 < 2 ^ 32

/-- The `double` literal `0.80`: the binary64 value nearest to 4/5 is
`7205759403792794 / 2 ^ 53` (`0x1.999999999999ap-1`).  This is its numerator. -/
def pointEight : Nat := 7205759403792794

/-- The position of the highest set bit of `n`, found by halving (at most
128 halvings: numerators below `2 ^ 128`). -/
def highBitAux : Nat → Nat → Nat
  | 0, _ => 0
  | fuel + 1, n => if n < 2 then 0 else highBitAux fuel (n / 2) + 1

/-- The position of the highest set bit of a numerator below `2 ^ 128`. -/
def highBit (n : Nat) : Nat := highBitAux 128 n

/-- Rounding to binary64 (53-bit significand, round to nearest, ties to even)
of a non-negative value given by its numerator `n` over `2 ^ 53`; the result
is again a numerator over `2 ^ 53`.  Only the `highBit n - 52` lowest bits of a
numerator longer than 53 bits are rounded away. -/
def roundToDouble (n : Nat) : Nat :=
  let e := 2 ^ (highBit n - 52)
  let q := n / e
  let r := n % e
  if 2 * r > e ∨ (2 * r = e ∧ q % 2 = 1) then (q + 1) * e else q * e

/-- `double cutoffLeft{0.80 * leftReadLength}` (and `cutoffRight`): the
`uint32_t` length converts to `double` exactly and the product is rounded
once.  The value is the numerator over `2 ^ 53`. -/
def cutoff (readLength : Nat) : Nat :=
  roundToDouble (pointEight * readLength)

/-- The test `bestHitScore >= cutoff` (and, negated, `bestHitScore < cutoff`):
the `uint32_t` score converts to `double` exactly and the comparison is
exact. -/
def meetsCutoff (bestHitScore readLength : Nat) : Bool :=
  decide (cutoff readLength ≤ bestHitScore * 2 ^ 53)

/-- The body of `for (auto& tHitList : rightHits)` in the scoring block:
`none` when nothing is pushed to `hitList`.  The `uint64_t` key is narrowed to
the `uint32_t` `TranscriptID` of the `Alignment` constructor. -/
def scoreRight (leftHits : HitMap) (leftReadLength rightReadLength : Nat)
    (tHitList : Nat × TranscriptHitList) : Option (Alignment K) :=
  match leftHits.lookup tHitList.1 with
  | none => none
  | some it =>
    if meetsCutoff it.bestHitScore leftReadLength then
      let right := computeBestHit tHitList.2
      if !meetsCutoff right.bestHitScore rightReadLength then none
      else
        let score := u32 (it.bestHitScore + right.bestHitScore)
        some (Alignment.new (u32 tHitList.1) score)
    else none

/-- The scoring block of `add_sizes`: every left hit list gets
`computeBestHit`, then the right hit lists are visited in turn. -/
def scoringBlock (leftFwdHits rightFwdHits : HitMap)
    (leftReadLength rightReadLength : Nat) : List (Alignment K) :=
  let leftHits : HitMap := leftFwdHits.map (fun e => (e.1, computeBestHit e.2))
  rightFwdHits.filterMap (scoreRight leftHits leftReadLength rightReadLength)

/-- The counter `readHits += score` of the scoring block. -/
def readHitsOf (hitList : List (Alignment K)) : Nat :=
  (hitList.map (fun a => a.kmerCount)).sum

/-- `if (hitList.size() > 100) { hitList.clear(); }`. -/
def ambiguityGate (hitList : List (Alignment K)) : List (Alignment K) :=
  if hitList.length > 100 then [] else hitList

/-- The loop `for (auto t : hitList) transcripts[t.transcriptID()]
.addSharedCount(t.kmerCount * invHits)` with `invHits = 1.0 / readHits`. -/
def addSharedCounts (readHits : Nat) (hitList : List (Alignment K))
    (transcripts : TranscriptTable K) : TranscriptTable K :=
  let invHits : K := 1 / (readHits : K)
  hitList.foldl (fun ts t =>
    Function.update ts t.transcriptID
      ((ts t.transcriptID).addSharedCount ((t.kmerCount : K) * invHits))) transcripts

/-- The tail of one iteration of the read loop of `add_sizes` (from the
scoring block to the end of the iteration): the list left in `hitLists[i]`
for the EM step, and the transcript table after the shared counts. -/
def mapReadPair (leftFwdHits rightFwdHits : HitMap)
    (leftReadLength rightReadLength : Nat) (transcripts : TranscriptTable K) :
    List (Alignment K) × TranscriptTable K :=
  let found : List (Alignment K) :=
    scoringBlock leftFwdHits rightFwdHits leftReadLength rightReadLength
  let readHits := readHitsOf found
  let hitList := ambiguityGate found
  (hitList, addSharedCounts readHits hitList transcripts)

end Tables

/-! ## The mini-batch EM step (`processMiniBatch`) -/

/-- Modelled from the spec: the two `ClusterForest` operations that
`processMiniBatch` calls (ClusterForest.hpp is not among the sources), over
any representation `CF` of the forest.  `updateCluster t hits logMass` is
`clusterForest.updateCluster(t, hits, logMass)`; `mergeClusters ids` is
`clusterForest.mergeClusters<Alignment>(begin, end)` on the range of
alignments whose transcript ids are `ids`. -/
structure ClusterForestOps (K : Type) (CF : Type) where
  updateCluster : CF → Nat → Nat → LogVal K → CF
  mergeClusters : CF → List Nat → CF

/-- A call made on the cluster forest. -/
inductive ForestCall (K : Type) where
  | update (transcriptID hits : Nat) (logMass : LogVal K)
  | merge (ids : List Nat)
deriving DecidableEq

/-- The forest that only records the calls made on it, latest last. -/
def callLog (K : Type) : ClusterForestOps K (List (ForestCall K)) where
  updateCluster cf t hits logMass := cf ++ [ForestCall.update t hits logMass]
  mergeClusters cf ids := cf ++ [ForestCall.merge ids]

section EM
variable {K : Type} [LinearOrderedSemifield K] {CF : Type}

/-- The variables of the loop `for (auto& aln : alnGroup)` of the E-step. -/
structure ReadLoop (K : Type) where
  transcripts : TranscriptTable K
  alns : List (Alignment K)
  sumOfAlignProbs : LogVal K
  transcriptUnique : Bool
  observedTranscripts : List Nat

/-- One iteration of `for (auto& aln : alnGroup)`; `alns` collects the
alignments visited so far with the `logProb` the iteration wrote. -/
def alnStep (firstTranscriptID : Nat) (st : ReadLoop K) (aln : Alignment K) :
    ReadLoop K :=
  let transcriptID := aln.transcriptID
  let transcript := st.transcripts transcriptID
  let transcriptUnique := st.transcriptUnique && decide (transcriptID = firstTranscriptID)
  let refLength : K := if transcript.RefLength > 0 then (transcript.RefLength : K) else 1
  let logRefLength := LogVal.log refLength
  let transcriptLogCount := transcript.mass
  if transcriptLogCount ≠ LOG_0 then
    let logProb := LogVal.log (((aln.kmerCount : K)) ^ 2) + (transcriptLogCount - logRefLength)
    let seen : Bool := decide (transcriptID ∈ st.observedTranscripts)
    { transcripts :=
        if seen then st.transcripts
        else Function.update st.transcripts transcriptID
          ((st.transcripts transcriptID).addTotalCount 1),
      alns := st.alns ++ [{ aln with logProb := logProb }],
      sumOfAlignProbs := logAdd st.sumOfAlignProbs logProb,
      transcriptUnique := transcriptUnique,
      observedTranscripts :=
        if seen then st.observedTranscripts else transcriptID :: st.observedTranscripts }
  else
    { st with
      alns := st.alns ++ [{ aln with logProb := LOG_0 }],
      transcriptUnique := transcriptUnique }

/-- The loop `for (auto& aln : alnGroup)` run over a whole read. -/
def alnLoop (transcripts : TranscriptTable K) (alnGroup : List (Alignment K)) :
    ReadLoop K :=
  match alnGroup with
  | [] => ⟨transcripts, [], LOG_0, true, []⟩
  | first :: _ =>
    alnGroup.foldl (alnStep first.transcriptID) ⟨transcripts, [], LOG_0, true, []⟩

/-- What one iteration of the E-step loop leaves behind: the table, the
forest and the read's alignments. -/
structure ReadResult (K : Type) (CF : Type) where
  transcripts : TranscriptTable K
  clusterForest : CF
  alnGroup : List (Alignment K)

/-- One iteration of `for (auto& alnGroup : batchHits)`: the E-step on one
read. -/
def eStepRead (ops : ClusterForestOps K CF) (logForgettingMass : LogVal K)
    (transcripts : TranscriptTable K) (clusterForest : CF)
    (alnGroup : List (Alignment K)) : ReadResult K CF :=
  match alnGroup with
  | [] => ⟨transcripts, clusterForest, []⟩
  | first :: _ =>
    let firstTranscriptID := first.transcriptID
    let r := alnLoop transcripts alnGroup
    -- "0 probability fragment; skipping"
    if r.sumOfAlignProbs = LOG_0 then ⟨r.transcripts, clusterForest, r.alns⟩
    else
      let normalized := r.alns.map
        (fun aln => { aln with logProb := aln.logProb - r.sumOfAlignProbs })
      if r.transcriptUnique then
        ⟨Function.update r.transcripts firstTranscriptID
            ((r.transcripts firstTranscriptID).addUniqueCount 1),
          ops.updateCluster clusterForest firstTranscriptID 1 logForgettingMass,
          normalized⟩
      else
        ⟨r.transcripts,
          ops.updateCluster
            (ops.mergeClusters clusterForest (normalized.map (fun a => a.transcriptID)))
            firstTranscriptID 1 logForgettingMass,
          normalized⟩

/-- What the E-step leaves behind: the table, the forest and the batch with
every `logProb` written. -/
structure BatchResult (K : Type) (CF : Type) where
  transcripts : TranscriptTable K
  clusterForest : CF
  batchHits : List (List (Alignment K))

/-- The E-step: `eStepRead` on every read of the batch, in order. -/
def eStep (ops : ClusterForestOps K CF) (logForgettingMass : LogVal K)
    (transcripts : TranscriptTable K) (clusterForest : CF) :
    List (List (Alignment K)) → BatchResult K CF
  | [] => ⟨transcripts, clusterForest, []⟩
  | alnGroup :: rest =>
    let r := eStepRead ops logForgettingMass transcripts clusterForest alnGroup
    let rs := eStep ops logForgettingMass r.transcripts r.clusterForest rest
    ⟨rs.transcripts, rs.clusterForest, r.alnGroup :: rs.batchHits⟩

/-- The reverse map `hitsForTranscript` (a `btree_map`, visited in ascending
key order): for every transcript id named in the batch, its alignments in batch
order.  The map holds pointers collected before the E-step and read after it;
here it is formed from the batch as the E-step leaves it. -/
def hitsForTranscript (batchHits : List (List (Alignment K))) :
    List (Nat × List (Alignment K)) :=
  let all := batchHits.flatten
  let keys := ((all.map (fun a => a.transcriptID)).dedup).insertionSort (· ≤ ·)
  keys.map (fun t => (t, all.filter (fun a => decide (a.transcriptID = t))))

/-- The `hitMass` of one transcript: `logAdd` over its alignments, from
`LOG_0`. -/
def hitMassOf (hits : List (Alignment K)) : LogVal K :=
  hits.foldl (fun hitMass aln => logAdd hitMass aln.logProb) LOG_0

/-- One iteration of the M-step loop over `hitsForTranscript`. -/
def mStepTranscript (logForgettingMass : LogVal K) (transcripts : TranscriptTable K)
    (kv : Nat × List (Alignment K)) : TranscriptTable K :=
  let transcriptID := kv.1
  let hitMass := hitMassOf kv.2
  let updateMass := logForgettingMass + hitMass
  Function.update transcripts transcriptID ((transcripts transcriptID).addMass updateMass)

/-- The M-step. -/
def mStep (logForgettingMass : LogVal K) (batchHits : List (List (Alignment K)))
    (transcripts : TranscriptTable K) : TranscriptTable K :=
  (hitsForTranscript batchHits).foldl (mStepTranscript logForgettingMass) transcripts

/-- `processMiniBatch`: the E-step followed by the M-step.  (`clustTotal`,
`individualTotal` and `totalMass` are computed by the source but never
stored or returned.) -/
def processMiniBatch (ops : ClusterForestOps K CF) (logForgettingMass : LogVal K)
    (batchHits : List (List (Alignment K))) (transcripts : TranscriptTable K)
    (clusterForest : CF) : BatchResult K CF :=
  let e := eStep ops logForgettingMass transcripts clusterForest batchHits
  ⟨mStep logForgettingMass e.batchHits e.transcripts, e.clusterForest, e.batchHits⟩

/-- The `logProb` that one iteration of the alignment loop writes for an
alignment of transcript `t`, before normalisation. -/
def logProbOf (t : Transcript K) (aln : Alignment K) : LogVal K :=
  if t.mass ≠ LOG_0 then
    LogVal.log (((aln.kmerCount : K)) ^ 2)
      + (t.mass - LogVal.log (if t.RefLength > 0 then (t.RefLength : K) else 1))
  else LOG_0

/-- The E-step sum `sumOfAlignProbs` of a read against a table. -/
def readSum (transcripts : TranscriptTable K) (alnGroup : List (Alignment K)) : LogVal K :=
  (alnLoop transcripts alnGroup).sumOfAlignProbs

/-- The read's alignments with the `logProb` the alignment loop writes
(before normalisation). -/
def rawProbs (transcripts : TranscriptTable K) (alnGroup : List (Alignment K)) :
    List (Alignment K) :=
  alnGroup.map (fun a => { a with logProb := logProbOf (transcripts a.transcriptID) a })

/-- The transcript id of the first alignment of a read (`0` for no alignment). -/
def firstID (alnGroup : List (Alignment K)) : Nat :=
  match alnGroup with
  | [] => 0
  | first :: _ => first.transcriptID

/-- All alignments of the read name the transcript of its first alignment. -/
def allSame (alnGroup : List (Alignment K)) : Bool :=
  alnGroup.all (fun a => decide (a.transcriptID = firstID alnGroup))

/-- The alignments of a read as the E-step leaves them: the loop's values
when the read is skipped, the values less the read's sum otherwise. -/
def normalizedRead (transcripts : TranscriptTable K) (alnGroup : List (Alignment K)) :
    List (Alignment K) :=
  if readSum transcripts alnGroup = LOG_0 then rawProbs transcripts alnGroup
  else (rawProbs transcripts alnGroup).map
    (fun a => { a with logProb := a.logProb - readSum transcripts alnGroup })

/-- The read makes the E-step add one to `totalCount` of transcript `i`. -/
def countsTotal (transcripts : TranscriptTable K) (i : Nat)
    (alnGroup : List (Alignment K)) : Bool :=
  decide ((∃ a ∈ alnGroup, a.transcriptID = i) ∧ (transcripts i).mass ≠ LOG_0)

/-- The read makes the E-step add one to `uniqueCount` of transcript `i`. -/
def countsUnique (transcripts : TranscriptTable K) (i : Nat)
    (alnGroup : List (Alignment K)) : Bool :=
  decide (alnGroup ≠ [] ∧ readSum transcripts alnGroup ≠ LOG_0 ∧
    allSame alnGroup = true ∧ i = firstID alnGroup)

/-- Two transcript records that differ at most in their counters. -/
def SameMass (t t' : Transcript K) : Prop :=
  t'.mass = t.mass ∧ t'.RefLength = t.RefLength ∧ t'.sharedCount = t.sharedCount

/-- A sequence of `processMiniBatch` calls, each with the forgetting mass
current at its call, as the job loop of `add_sizes` issues them. -/
def processBatches (ops : ClusterForestOps K CF) :
    List (LogVal K × List (List (Alignment K))) → TranscriptTable K → CF →
      TranscriptTable K × CF
  | [], transcripts, clusterForest => (transcripts, clusterForest)
  | (logForgettingMass, batchHits) :: rest, transcripts, clusterForest =>
    let r := processMiniBatch ops logForgettingMass batchHits transcripts clusterForest
    processBatches ops rest r.transcripts r.clusterForest

end EM

/-! ## The locals `clustTotal` and `individualTotal` of `processMiniBatch` -/

section MassTotals
variable {K : Type} [LinearOrderedSemifield K]

/-- The local `clustTotal` of `processMiniBatch`:
`std::log(batchHits.size()) + logForgettingMass`. -/
def clustTotal (logForgettingMass : LogVal K) (batchHits : List (List (Alignment K))) :
    LogVal K :=
  LogVal.log (batchHits.length : K) + logForgettingMass

/-- The `updateMass` of every transcript of `hitsForTranscript`, in the order
of the M-step loop: `logForgettingMass + hitMass`. -/
def updateMasses (logForgettingMass : LogVal K) (batchHits : List (List (Alignment K))) :
    List (LogVal K) :=
  (hitsForTranscript batchHits).map (fun kv => logForgettingMass + hitMassOf kv.2)

/-- The local `individualTotal` of `processMiniBatch` when the M-step loop
ends: from `LOG_0`, `individualTotal = logAdd(individualTotal, updateMass)`
once per transcript of `hitsForTranscript`; `batchHits` is the batch as the
E-step leaves it. -/
def individualTotal (logForgettingMass : LogVal K) (batchHits : List (List (Alignment K))) :
    LogVal K :=
  (hitsForTranscript batchHits).foldl
    (fun individualTotal kv => logAdd individualTotal (logForgettingMass + hitMassOf kv.2))
    LOG_0

end MassTotals

/-! ## The forgetting schedule (the job loop of `add_sizes`) -/

section Schedule
variable {D : Type} [Field D]

/-- `double forgettingFactor{0.65}`. -/
def forgettingFactor : D := 0.65

/-- What the job of old batch number `oldBatchNum` adds to
`logForgettingMass`:
`forgettingFactor * std::log(static_cast<double>(oldBatchNum-1)) -
std::log(std::pow(static_cast<double>(oldBatchNum), forgettingFactor) - 1)`.
`D` stands for `double`, `log` for `std::log` and `pow` for `std::pow`. -/
def forgettingIncrement (log : D → D) (pow : D → D → D) (oldBatchNum : Nat) : D :=
  forgettingFactor * log (((oldBatchNum - 1 : Nat) : D))
    - log (pow (oldBatchNum : D) forgettingFactor - 1)

/-- The two variables of `salmonQuantify` that the jobs share: the counter
`batchNum` and `logForgettingMass`.  The latter is kept here as the `double`
itself, the logarithm (`LOG_1` is `0`), since the schedule adds to it. -/
structure JobState (D : Type) where
  batchNum : Nat
  logForgettingMass : D

/-- The initial values `batchNum{0}` and `logForgettingMass{LOG_1}`. -/
def JobState.init : JobState D := ⟨0, 0⟩

/-- What one job does to the shared variables before it calls
`processMiniBatch`: `auto oldBatchNum = batchNum++;` and, if
`oldBatchNum > 1`, the addition of the increment. -/
def nextBatch (log : D → D) (pow : D → D → D) (s : JobState D) : JobState D :=
  let oldBatchNum := s.batchNum
  { batchNum := s.batchNum + 1,
    logForgettingMass :=
      if oldBatchNum > 1 then s.logForgettingMass + forgettingIncrement log pow oldBatchNum
      else s.logForgettingMass }

/-- The shared variables after `k` jobs of a single worker;
`(afterJobs log pow k).logForgettingMass` is the value the `k`-th job hands to
`processMiniBatch`. -/
def afterJobs (log : D → D) (pow : D → D → D) : Nat → JobState D
  | 0 => JobState.init
  | k + 1 => nextBatch log pow (afterJobs log pow k)

end Schedule

/-! ## The read scan of `add_sizes` -/

/-- The classes into which `jellyfish::mer_dna::code` sorts a character, as
the `switch` of the read scan tells them apart: a base code (the `default`
branch), `CODE_RESET`, `CODE_IGNORE` and `CODE_COMMENT`. -/
inductive BaseCode where
  | base (c : Nat)
  | reset
  | ignore
  | comment
deriving DecidableEq

/-- The character is coded as a base. -/
def BaseCode.isBase : BaseCode → Bool
  | BaseCode.base _ => true
  | _ => false

/-- The k-mer type `my_mer` of jellyfish (a library, not part of the
repository) by the operations the scan calls, over any representation `M` of a
k-mer: `mer_dna::code`, `mer_dna::complement`, `shift_left`, `shift_right`,
`polyA` and `get_bits(0, n)`. -/
structure MerOps (M : Type) where
  code : Char → BaseCode
  complement : BaseCode → BaseCode
  shift_left : M → BaseCode → M
  shift_right : M → BaseCode → M
  polyA : M → M
  get_bits : M → Nat → Nat

/-- Modelled from the spec: the perfect-hash index `phi`
(PerfectHashIndex.hpp is not among the sources) by what the scan uses of it:
`phi.INVALID`, `phi.kmerLength()` and `phi.index(bits)`. -/
structure PerfectHashIndex where
  INVALID : Nat
  kmerLength : Nat
  index : Nat → Nat

/-- `uint32_t transcript(uint64_t enc)`: the high 32 bits. -/
def transcript (enc : Nat) : Nat := u32 ((enc &&& 0xFFFFFFFF00000000) >>> 32)

/-- `uint32_t offset(uint64_t enc)`: the low 32 bits. -/
def offset (enc : Nat) : Nat := u32 (enc &&& 0xFFFFFFFF)

/-- `hits[key].f(...)` on the `unordered_map`: `operator[]` finds the entry of
`key` or inserts an empty hit list, and the vote `f` is applied to it. -/
def HitMap.vote (hits : HitMap) (key : Nat) (f : TranscriptHitList → TranscriptHitList) :
    HitMap :=
  match hits with
  | [] => [(key, f TranscriptHitList.empty)]
  | (k, h) :: rest =>
    if k = key then (k, f h) :: rest else (k, h) :: HitMap.vote rest key f

/-- The loop `for (size_t ei = first; ei < last; ++ei)` with `count` iterations
left: `e = kmerLocs[ei]`, then the vote for `transcript(e)`.  The result is
`none` when `kmerLocs` is indexed outside its bounds. -/
def voteLocations (kmerLocs : List Nat)
    (vote : TranscriptHitList → Nat → Nat → TranscriptHitList) (readPos : Nat) :
    Nat → Nat → HitMap → Option HitMap
  | _, 0, hits => some hits
  | ei, count + 1, hits =>
    match kmerLocs[ei]? with
    | none => none
    | some e =>
      voteLocations kmerLocs vote readPos (ei + 1) count
        (hits.vote (transcript e) (fun h => vote h (offset e) readPos))

/-- The lookup of one k-mer: `merID = phi.index(bits)` and, unless it is
`INVALID`, the reads `offsets[merID]` and `offsets[merID+1]`, the loop over
`kmerLocs` and the increment of the `uint32_t` counter `tot`.  The result is
`none` when `offsets` or `kmerLocs` is indexed outside its bounds. -/
def lookupMer (phi : PerfectHashIndex) (offsets kmerLocs : List Nat)
    (vote : TranscriptHitList → Nat → Nat → TranscriptHitList) (bits readPos : Nat)
    (hits : HitMap) (tot : Nat) : Option (HitMap × Nat) :=
  let merID := phi.index bits
  if merID ≠ phi.INVALID then
    match offsets[merID]?, offsets[merID + 1]? with
    | some first, some last =>
      match voteLocations kmerLocs vote readPos first (last - first) hits with
      | some hits' => some (hits', u32 (tot + 1))
      | none => none
    | _, _ => none
  else some (hits, tot)

/-- The k-mer variables of the scan of one read end: `kmer`, `rkmer`, `cmlen`
and `rbase`. -/
structure Codec (M : Type) where
  kmer : M
  rkmer : M
  cmlen : Nat
  rbase : Nat
deriving DecidableEq

/-- The variables of the scan of one read end: the k-mer variables, the hit
map of the end and the two counters (`totFwdLeft` and `totBwdLeft`, or
`totFwdRight` and `totBwdRight`). -/
structure ScanState (M : Type) where
  codec : Codec M
  hits : HitMap
  totFwd : Nat
  totBwd : Nat
deriving DecidableEq

section Scan
variable {M : Type}

/-- The k-mer part of one iteration of `while(start < end)`: from `++rbase` to
the test `++cmlen >= merLen`; the flag tells whether the test holds, that is,
whether the index is queried at this character.  `cmlen` never exceeds
`merLen` and `rbase` never exceeds the `uint32_t` read length, so neither
increment wraps. -/
def codecStep (ops : MerOps M) (merLen : Nat) (st : Codec M) (base : Char) :
    Codec M × Bool :=
  let rbase := st.rbase + 1
  let c := ops.code base
  let kmer := ops.shift_left st.kmer c
  let rkmer := ops.shift_right st.rkmer (ops.complement c)
  match c with
  | BaseCode.ignore => (⟨kmer, rkmer, st.cmlen, rbase⟩, false)
  | BaseCode.comment => (⟨ops.polyA kmer, ops.polyA rkmer, 0, rbase⟩, false)
  | BaseCode.reset => (⟨ops.polyA kmer, ops.polyA rkmer, 0, rbase⟩, false)
  | BaseCode.base _ =>
    if st.cmlen + 1 ≥ merLen then (⟨kmer, rkmer, merLen, rbase⟩, true)
    else (⟨kmer, rkmer, st.cmlen + 1, rbase⟩, false)

/-- One iteration of `while(start < end)`: the k-mer part and, where the index
is queried, the lookup of `kmer` with `addVote` and of `rkmer` with
`addVoteRC`, both at the read position `rbase - merLen`. -/
def scanStep (ops : MerOps M) (phi : PerfectHashIndex) (offsets kmerLocs : List Nat)
    (st : ScanState M) (base : Char) : Option (ScanState M) :=
  let merLen := phi.kmerLength
  let r := codecStep ops merLen st.codec base
  if r.2 then
    match lookupMer phi offsets kmerLocs TranscriptHitList.addVote
        (ops.get_bits r.1.kmer (2 * merLen)) (r.1.rbase - merLen) st.hits st.totFwd with
    | none => none
    | some fwd =>
      match lookupMer phi offsets kmerLocs TranscriptHitList.addVoteRC
          (ops.get_bits r.1.rkmer (2 * merLen)) (r.1.rbase - merLen) fwd.1 st.totBwd with
      | none => none
      | some bwd => some ⟨r.1, bwd.1, fwd.2, bwd.2⟩
  else some ⟨r.1, st.hits, st.totFwd, st.totBwd⟩

/-- The loop `while(start < end)` over the characters of a read end. -/
def scanLoop (ops : MerOps M) (phi : PerfectHashIndex) (offsets kmerLocs : List Nat) :
    List Char → ScanState M → Option (ScanState M)
  | [], st => some st
  | base :: rest, st =>
    match scanStep ops phi offsets kmerLocs st base with
    | none => none
    | some st' => scanLoop ops phi offsets kmerLocs rest st'

/-- The block "Left End": the scan of the first `readLen` characters of the
left sequence, `readLen` being the `uint32_t` copy of its size, from
`cmlen{0}`, `rbase{0}`, an empty hit map and the k-mers as the previous read
left them. -/
def scanLeft (ops : MerOps M) (phi : PerfectHashIndex) (offsets kmerLocs : List Nat)
    (kmer rkmer : M) (seq : List Char) : Option (ScanState M) :=
  let readLen := u32 seq.length
  scanLoop ops phi offsets kmerLocs (seq.take readLen) ⟨⟨kmer, rkmer, 0, 0⟩, [], 0, 0⟩

/-- The block "Right End": as the left one, after `kmer.polyA(); rkmer.polyA();`. -/
def scanRight (ops : MerOps M) (phi : PerfectHashIndex) (offsets kmerLocs : List Nat)
    (kmer rkmer : M) (seq : List Char) : Option (ScanState M) :=
  let readLen := u32 seq.length
  scanLoop ops phi offsets kmerLocs (seq.take readLen)
    ⟨⟨ops.polyA kmer, ops.polyA rkmer, 0, 0⟩, [], 0, 0⟩

/-- The k-mer variables after the characters `cs`. -/
def codecRun (ops : MerOps M) (merLen : Nat) (st : Codec M) (cs : List Char) : Codec M :=
  cs.foldl (fun s base => (codecStep ops merLen s base).1) st

/-- The read positions `rbase - merLen` at which the scan of the characters
`cs` queries the index, in the order of the queries. -/
def queryPositions (ops : MerOps M) (merLen : Nat) : List Char → Codec M → List Nat
  | [], _ => []
  | base :: rest, st =>
    let r := codecStep ops merLen st base
    (if r.2 then [r.1.rbase - merLen] else []) ++ queryPositions ops merLen rest r.1

/-- The number of characters at the end of `cs` that are coded as bases. -/
def trailingBases (ops : MerOps M) (cs : List Char) : Nat :=
  (cs.reverse.takeWhile (fun c => (ops.code c).isBase)).length

/-- The invariant of the index tables that the scan relies on: `offsets` has
`N + 1` entries, is non-decreasing and ends with the size of `kmerLocs`, and
`phi.index` returns `INVALID` or an id below `N`. -/
def IndexView (phi : PerfectHashIndex) (offsets kmerLocs : List Nat) (N : Nat) : Prop :=
  offsets.length = N + 1 ∧
  offsets.Pairwise (· ≤ ·) ∧
  offsets[N]? = some kmerLocs.length ∧
  ∀ bits, phi.index bits = phi.INVALID ∨ phi.index bits < N

end Scan

/-! ## The defensive branch of `computeBestHit` -/

/-- The number of times the loop of `computeBestHit`, run over the votes `vs`
from the state `st`, enters the branch `else if (votePos < currClust)` and
prints "CHA?!?". -/
def chaCount : List KmerVote → ClusterLoop → Nat
  | [], _ => 0
  | v :: rest, st =>
    (if v.votePos ≥ st.currClust then 0 else 1) + chaCount rest (voteStep st v)

/-- The number of "CHA?!?" lines one call of `computeBestHit` prints: the loop
runs over the sorted votes from the initial state. -/
def computeBestHitChas (h : TranscriptHitList) : Nat :=
  let votes := sortVotes h.votes
  chaCount votes (initLoop votes)

/-! ## Example inputs -/

/-- The votes of a read end that matches a transcript at position `start`
with `n` consecutive k-mers (read positions `0` to `n - 1`). -/
def matchVotes (start n : Nat) : List KmerVote :=
  (List.range n).map (fun r => ⟨start, r⟩)

/-- Left-end hit map of scenario S4 (left read length 25, k = 20): both
transcripts 0 and 1 are matched over the whole read. -/
def s4LeftHits : HitMap :=
  [(0, ⟨0, 0, matchVotes 100 6⟩), (1, ⟨0, 0, matchVotes 400 6⟩)]

/-- Right-end hit map of scenario S4 (right read length 30, k = 20):
transcript 0 is matched over the whole read, transcript 1 only by the first
two k-mers (21 bases, 70% of the read). -/
def s4RightHits : HitMap :=
  [(1, ⟨0, 0, matchVotes 650 2⟩), (0, ⟨0, 0, matchVotes 300 11⟩)]

/-- The vote list of the left mate of scenario S1: a read of 15 bases that
matches its transcript at offset 0, seen through an index of k-mer length 5
(read positions 0 to 10, every vote for transcript position 0). -/
def s1LeftVotes : List KmerVote :=
  (List.range 11).map (fun r => ⟨0, r⟩)

/-- The hit list of a read end of 25 bases `A` (k = 20, read positions 0 to 5)
for a transcript whose 20-mer `A...A` occurs at the offsets 100 and 101 (a run
of 21 `A`): every k-mer of the read votes for both offsets. -/
def polyAHits : TranscriptHitList :=
  (List.range 6).foldl (fun h r => (h.addVote 100 r).addVote 101 r) TranscriptHitList.empty

/-- Hit map of a read end with one k-mer hit (at read position 0) in each of
the transcripts `0, ..., n - 1`. -/
def oneHitEach (n : Nat) : HitMap :=
  (List.range n).map (fun t => (t, ⟨0, 0, [⟨0, 0⟩]⟩))

/-- A table of transcripts of length 4 and mass `LOG_1` with all counters 0. -/
def unitTable : TranscriptTable ℚ≥0 := fun _ => ⟨4, LOG_1, 0, 0, 0⟩

/-- A table of transcripts of length 4 and mass `LOG_0` with all counters 0. -/
def zeroTable : TranscriptTable ℚ≥0 := fun _ => ⟨4, LOG_0, 0, 0, 0⟩

/-- Modelled from the spec: the k-mer codec of §4.2 on k-mers of `k` bases
kept as numbers of `2 * k` bits.  `A`, `C`, `G`, `T` have the codes 0 to 3;
the newline is coded `CODE_IGNORE` and every other character `CODE_RESET`.
The forward k-mer shifts left by 2 bits and takes the new code in its low
bits; the reverse complement shifts right by 2 bits and takes the complement
code in its top bits. -/
def dnaOps (k : Nat) : MerOps Nat where
  code c :=
    if c = 'A' then BaseCode.base 0 else if c = 'C' then BaseCode.base 1
    else if c = 'G' then BaseCode.base 2 else if c = 'T' then BaseCode.base 3
    else if c = '\n' then BaseCode.ignore else BaseCode.reset
  complement c :=
    match c with
    | BaseCode.base b => BaseCode.base (3 - b)
    | other => other
  shift_left m c :=
    match c with
    | BaseCode.base b => (m * 4 + b) % 4 ^ k
    | _ => (m * 4) % 4 ^ k
  shift_right m c :=
    match c with
    | BaseCode.base b => m / 4 + b * 4 ^ (k - 1)
    | _ => m / 4
  polyA _ := 0
  get_bits m n := m % 2 ^ n

/-- An index of 2-mers over one transcript `ACG`: the 2-mer `AC` (bits 1) has
id 0 and `CG` (bits 6) has id 1, every other 2-mer is `INVALID` (here 7);
`AC` occurs at offset 0 and `CG` at offset 1 of transcript 0. -/
def toyIndex : PerfectHashIndex :=
  ⟨7, 2, fun bits => if bits = 1 then 0 else if bits = 6 then 1 else 7⟩

/-- The `offsets` table of `toyIndex`. -/
def toyOffsets : List Nat := [0, 1, 2]

/-- The `kmerLocs` table of `toyIndex`: transcript 0 at the offsets 0 and 1. -/
def toyLocs : List Nat := [0, 1]

/-! ## Theorems: vote clustering -/

theorem voteLE_iff (a b : KmerVote) :
    voteLE a b ↔ a.votePos < b.votePos ∨ (a.votePos = b.votePos ∧ a.readPos ≤ b.readPos) := by
  unfold voteLE voteLess
  by_cases h : b.votePos = a.votePos
  · simp [h]
  · simp only [h, if_false, decide_eq_false_iff_not]
    omega

theorem sortVotes_pairwise (votes : List KmerVote) :
    (sortVotes votes).Pairwise (fun a b => a.votePos ≤ b.votePos) := by
  have h : (sortVotes votes).Pairwise voteLE := List.sorted_insertionSort voteLE votes
  refine h.imp ?_
  intro a b hab
  rw [voteLE_iff] at hab
  omega

theorem sortVotes_length (votes : List KmerVote) :
    (sortVotes votes).length = votes.length :=
  (List.perm_insertionSort voteLE votes).length_eq

theorem foldl_max_eq (l : List Nat) (a : Nat) :
    l.foldl max a = max a (l.foldl max 0) := by
  induction l generalizing a with
  | nil => simp
  | cons b l ih =>
    simp only [List.foldl_cons]
    rw [ih (max a b), ih (max 0 b)]
    simp [max_assoc]

theorem greedyClustersFrom_best (k : Nat) (vs : List KmerVote) :
    ∀ (start : Nat) (cur : List KmerVote),
      ((greedyClustersFrom start cur vs).map (clusterCoverage k)).foldl max 0
        = bestFrom k start (cur.foldl (coverStep k) (0, 0)) vs := by
  induction vs with
  | nil => intro start cur; simp [greedyClustersFrom, bestFrom, clusterCoverage]
  | cons v vs ih =>
    intro start cur
    unfold greedyClustersFrom bestFrom
    by_cases hw : within10 v.votePos start = true
    · simp only [hw, if_true]
      rw [ih start (cur ++ [v])]
      simp [List.foldl_append]
    · rw [if_neg hw, if_neg hw, List.map_cons, List.foldl_cons, foldl_max_eq,
        ih v.votePos [v]]
      simp [clusterCoverage]

theorem coverStep_fst_le (acc : Nat × Nat) (v : KmerVote) (n : Nat)
    (h : acc.1 + 20 * (n + 1) < 2 ^ 32) :
    acc.1 ≤ (coverStep klen acc v).1 ∧ (coverStep klen acc v).1 + 20 * n < 2 ^ 32 := by
  have hm : min klen (u32sub (u32 (v.readPos + klen)) acc.2) ≤ 20 := by
    unfold klen; exact min_le_left _ _
  have hlt : acc.1 + min klen (u32sub (u32 (v.readPos + klen)) acc.2) < 2 ^ 32 := by omega
  have hfst : (coverStep klen acc v).1
      = acc.1 + min klen (u32sub (u32 (v.readPos + klen)) acc.2) := by
    show u32 _ = _
    exact Nat.mod_eq_of_lt hlt
  rw [hfst]
  omega

theorem bestFrom_ge (vs : List KmerVote) :
    ∀ (start : Nat) (acc : Nat × Nat), acc.1 + 20 * vs.length < 2 ^ 32 →
      acc.1 ≤ bestFrom klen start acc vs := by
  induction vs with
  | nil => intro start acc _; simp [bestFrom]
  | cons v vs ih =>
    intro start acc h
    unfold bestFrom
    split
    · have hc := coverStep_fst_le acc v vs.length (by simpa using h)
      exact le_trans hc.1 (ih start _ hc.2)
    · exact le_max_left _ _

theorem within10_of_le {votePos start : Nat} (h : start ≤ votePos) :
    within10 votePos start = true ↔ ¬ (votePos - start > 10) := by
  simp only [within10, Bool.and_eq_true, decide_eq_true_eq]
  omega

theorem absorbVote_same (hitMap : Nat → VoteInfo) (c readPos : Nat) :
    ((absorbVote hitMap c readPos c).coverage, (absorbVote hitMap c readPos c).rightmostBase)
      = coverStep klen ((hitMap c).coverage, (hitMap c).rightmostBase) ⟨0, readPos⟩ := by
  simp [absorbVote, coverStep]

theorem absorbVote_other (hitMap : Nat → VoteInfo) (c readPos k : Nat) (h : k ≠ c) :
    absorbVote hitMap c readPos k = hitMap k := by
  simp [absorbVote, h]

theorem voteStep_sorted (st : ClusterLoop) (v : KmerVote) (h : st.currClust ≤ v.votePos) :
    (voteStep st v).currClust
        = (if within10 v.votePos st.currClust then st.currClust else v.votePos) ∧
      (voteStep st v).hitMap = absorbVote st.hitMap
        (if within10 v.votePos st.currClust then st.currClust else v.votePos) v.readPos ∧
      (voteStep st v).maxClusterCount = max st.maxClusterCount
        (absorbVote st.hitMap
          (if within10 v.votePos st.currClust then st.currClust else v.votePos) v.readPos
          (if within10 v.votePos st.currClust then st.currClust else v.votePos)).coverage := by
  have hw := within10_of_le h
  by_cases hfar : v.votePos - st.currClust > 10
  · have hw' : ¬ within10 v.votePos st.currClust = true := fun hc => (hw.1 hc) hfar
    simp only [voteStep, ge_iff_le, h, if_true, hfar, if_neg hw']
    split <;> simp <;> omega
  · have hw' : within10 v.votePos st.currClust = true := hw.2 hfar
    simp only [voteStep, ge_iff_le, h, if_true, hfar, if_false, hw']
    split <;> simp <;> omega

theorem coverStep_readPos (k : Nat) (acc : Nat × Nat) (v : KmerVote) :
    coverStep k acc ⟨0, v.readPos⟩ = coverStep k acc v := rfl

theorem voteLoop_best (vs : List KmerVote) :
    ∀ st : ClusterLoop,
      (∀ v ∈ vs, st.currClust ≤ v.votePos) →
      vs.Pairwise (fun a b => a.votePos ≤ b.votePos) →
      (∀ k, st.currClust < k → st.hitMap k = ⟨0, 0⟩) →
      (st.hitMap st.currClust).coverage ≤ st.maxClusterCount →
      (st.hitMap st.currClust).coverage + 20 * vs.length < 2 ^ 32 →
      (vs.foldl voteStep st).maxClusterCount
        = max st.maxClusterCount
            (bestFrom klen st.currClust
              ((st.hitMap st.currClust).coverage, (st.hitMap st.currClust).rightmostBase) vs) := by
  induction vs with
  | nil =>
    intro st _ _ _ hmax _
    simp [bestFrom, hmax]
  | cons v vs ih =>
    intro st hge hsorted hfresh hmax hbound
    have hv : st.currClust ≤ v.votePos := hge v (List.mem_cons_self _ _)
    obtain ⟨hc, hm, hx⟩ := voteStep_sorted st v hv
    rw [List.pairwise_cons] at hsorted
    rw [List.foldl_cons]
    by_cases hw : within10 v.votePos st.currClust = true
    · -- the vote is absorbed by the current cluster
      simp only [hw, if_true] at hc hm hx
      have hpair := absorbVote_same st.hitMap st.currClust v.readPos
      rw [coverStep_readPos] at hpair
      have hstep := coverStep_fst_le
        ((st.hitMap st.currClust).coverage, (st.hitMap st.currClust).rightmostBase) v vs.length
        (by simpa using hbound)
      rw [← hpair] at hstep
      simp only at hstep
      have hentry : (voteStep st v).hitMap (voteStep st v).currClust
          = absorbVote st.hitMap st.currClust v.readPos st.currClust := by rw [hc, hm]
      have hge' := bestFrom_ge vs st.currClust
        ((absorbVote st.hitMap st.currClust v.readPos st.currClust).coverage,
          (absorbVote st.hitMap st.currClust v.readPos st.currClust).rightmostBase) hstep.2
      simp only at hge'
      have hb : bestFrom klen st.currClust
          ((st.hitMap st.currClust).coverage, (st.hitMap st.currClust).rightmostBase) (v :: vs)
          = bestFrom klen st.currClust
              (coverStep klen ((st.hitMap st.currClust).coverage,
                (st.hitMap st.currClust).rightmostBase) v) vs := by
        rw [bestFrom, if_pos hw]
      rw [ih (voteStep st v)
        (by intro w hwm; rw [hc]; exact hge w (List.mem_cons_of_mem _ hwm))
        hsorted.2
        (by
          intro k hk
          rw [hc] at hk
          rw [hm, absorbVote_other _ _ _ _ (by omega)]
          exact hfresh k hk)
        (by rw [hentry, hx]; exact le_max_right _ _)
        (by rw [hentry]; exact hstep.2)]
      rw [hentry, hx, hc, hb, ← hpair, max_assoc, max_eq_right hge']
    · -- the vote starts a new cluster
      rw [if_neg hw] at hc hm hx
      have hfar : st.currClust < v.votePos := by
        have := (within10_of_le hv).not.1 hw
        omega
      have hzero : st.hitMap v.votePos = ⟨0, 0⟩ := hfresh _ hfar
      have hpair := absorbVote_same st.hitMap v.votePos v.readPos
      rw [coverStep_readPos, hzero] at hpair
      simp only at hpair
      have hstep := coverStep_fst_le (0, 0) v vs.length
        (by have := hbound; simp only [List.length_cons] at this; show 0 + _ < _; omega)
      rw [← hpair] at hstep
      simp only at hstep
      have hentry : (voteStep st v).hitMap (voteStep st v).currClust
          = absorbVote st.hitMap v.votePos v.readPos v.votePos := by rw [hc, hm]
      have hge' := bestFrom_ge vs v.votePos
        ((absorbVote st.hitMap v.votePos v.readPos v.votePos).coverage,
          (absorbVote st.hitMap v.votePos v.readPos v.votePos).rightmostBase) hstep.2
      simp only at hge'
      have hb : bestFrom klen st.currClust
          ((st.hitMap st.currClust).coverage, (st.hitMap st.currClust).rightmostBase) (v :: vs)
          = max (st.hitMap st.currClust).coverage
              (bestFrom klen v.votePos (coverStep klen (0, 0) v) vs) := by
        rw [bestFrom, if_neg hw]
      rw [ih (voteStep st v)
        (by intro w hwm; rw [hc]; exact hsorted.1 w hwm)
        hsorted.2
        (by
          intro k hk
          rw [hc] at hk
          rw [hm, absorbVote_other _ _ _ _ (by omega)]
          exact hfresh k (by omega))
        (by rw [hentry, hx]; exact le_max_right _ _)
        (by rw [hentry]; exact hstep.2)]
      rw [hentry, hx, hc, hb, ← hpair, max_assoc, max_eq_right hge',
        ← max_assoc, max_eq_left hmax]

theorem bestFrom_le (vs : List KmerVote) :
    ∀ (start : Nat) (acc : Nat × Nat), acc.1 + 20 * vs.length < 2 ^ 32 →
      bestFrom klen start acc vs ≤ acc.1 + 20 * vs.length := by
  induction vs with
  | nil => intro start acc _; simp [bestFrom]
  | cons v vs ih =>
    intro start acc h
    simp only [List.length_cons] at h ⊢
    unfold bestFrom
    split
    · have hc := coverStep_fst_le acc v vs.length h
      have h1 := ih start _ hc.2
      have h2 : (coverStep klen acc v).1 ≤ acc.1 + 20 := by
        have hm : min klen (u32sub (u32 (v.readPos + klen)) acc.2) ≤ 20 := by
          unfold klen; exact min_le_left _ _
        have : (coverStep klen acc v).1
            ≤ acc.1 + min klen (u32sub (u32 (v.readPos + klen)) acc.2) := Nat.mod_le _ _
        omega
      omega
    · have hc := coverStep_fst_le (0, 0) v vs.length (by show 0 + _ < _; omega)
      have h1 := ih v.votePos _ hc.2
      have h2 : (coverStep klen (0, 0) v).1 ≤ 20 := by
        have hm : min klen (u32sub (u32 (v.readPos + klen)) 0) ≤ 20 := by
          unfold klen; exact min_le_left _ _
        have : (coverStep klen (0, 0) v).1
            ≤ 0 + min klen (u32sub (u32 (v.readPos + klen)) 0) := Nat.mod_le _ _
        omega
      have h3 : acc.1 ≤ acc.1 + 20 * (vs.length + 1) := Nat.le_add_right _ _
      rw [max_le_iff]
      constructor <;> omega

theorem bestHitScore_eq_bestFrom (h : TranscriptHitList)
    (hlen : 20 * h.votes.length < 2 ^ 32) :
    (computeBestHit h).bestHitScore
      = bestFrom klen (initLoop (sortVotes h.votes)).currClust (0, 0) (sortVotes h.votes) := by
  have hs := sortVotes_pairwise h.votes
  have hl := sortVotes_length h.votes
  show ((sortVotes h.votes).foldl voteStep (initLoop (sortVotes h.votes))).maxClusterCount = _
  rw [voteLoop_best (sortVotes h.votes) (initLoop (sortVotes h.votes)) ?_ hs
    (by intro k _; rfl) (by show 0 ≤ 0; exact le_refl _)
    (by show 0 + 20 * _ < _; rw [hl]; omega)]
  · show max 0 _ = _
    simp [initLoop]
  · intro v hv
    cases hsv : sortVotes h.votes with
    | nil => rw [hsv] at hv; cases hv
    | cons w ws =>
      rw [hsv] at hv hs
      show w.votePos ≤ v.votePos
      rcases List.mem_cons.1 hv with rfl | hmem
      · exact le_refl _
      · exact (List.pairwise_cons.1 hs).1 v hmem

theorem specBestScore_eq_bestFrom (k : Nat) (votes : List KmerVote) :
    specBestScore k votes
      = bestFrom k (initLoop (sortVotes votes)).currClust (0, 0) (sortVotes votes) := by
  unfold specBestScore
  cases hsv : sortVotes votes with
  | nil => simp [greedyClusters, bestFrom]
  | cons w ws =>
    show ((greedyClustersFrom w.votePos [] (w :: ws)).map (clusterCoverage k)).foldl max 0 = _
    rw [greedyClustersFrom_best]
    rfl

theorem bestHitScore_le (h : TranscriptHitList) (hlen : 20 * h.votes.length < 2 ^ 32) :
    (computeBestHit h).bestHitScore ≤ 20 * h.votes.length := by
  rw [bestHitScore_eq_bestFrom h hlen]
  have := bestFrom_le (sortVotes h.votes) (initLoop (sortVotes h.votes)).currClust (0, 0)
    (by show 0 + 20 * _ < _; rw [sortVotes_length]; omega)
  rw [sortVotes_length] at this
  simpa using this

/-- C2, evaluated: on the votes of a 15-base read matched through an index of
k-mer length 5, `computeBestHit` reports a score of 30, whereas the greedy pass
of the specification with `k = 5` (the k-mer length of the index) gives 15:
the source adds `min(20, ...)` per vote whatever the index's k-mer length. -/
theorem computeBestHit_uses_klen_20 :
    (computeBestHit ⟨0, 0, s1LeftVotes⟩).bestHitScore = 30 ∧
      specBestScore 5 s1LeftVotes = 15 := by
  decide!

/-- For an index of k-mer length 20 the code and the specification agree: for
every non-empty vote list of fewer than `2 ^ 32 / 20` votes (so that no 32-bit
coverage overflows), `computeBestHit` sets `bestHitScore` to the largest
cluster coverage of the greedy single pass over the sorted votes, each absorbed
vote adding `min(20, (read_pos + 20) − right_edge)` in 32-bit arithmetic. -/
theorem computeBestHit_eq_spec_k20 (h : TranscriptHitList) (_hne : h.votes ≠ [])
    (hlen : 20 * h.votes.length < 2 ^ 32) :
    (computeBestHit h).bestHitScore = specBestScore 20 h.votes := by
  rw [bestHitScore_eq_bestFrom h hlen, specBestScore_eq_bestFrom]
  rfl

theorem computeBestHit_eq_spec_k20_witness :
    (⟨0, 0, [⟨7, 3⟩, ⟨7, 0⟩, ⟨30, 1⟩, ⟨7, 1⟩]⟩ : TranscriptHitList).votes ≠ [] ∧
      (computeBestHit ⟨0, 0, [⟨7, 3⟩, ⟨7, 0⟩, ⟨30, 1⟩, ⟨7, 1⟩]⟩).bestHitScore
        = specBestScore 20 [⟨7, 3⟩, ⟨7, 0⟩, ⟨30, 1⟩, ⟨7, 1⟩] :=
  ⟨by decide, computeBestHit_eq_spec_k20 _ (by decide) (by decide)⟩

/-- C3, evaluated: a read end of length 25 (k = 20, read positions in
`[0, 5]`).  With the two votes `(100, 5)` and `(101, 0)` it gets
`bestHitScore = 40`: the second vote ends left of the cluster's right edge, the
unsigned difference `(readPos + klen) - rightmostBase` wraps, and `min` adds a
full 20.  With the twelve votes of a poly-A read on a run of 21 `A` it gets
`bestHitScore = 145`.  Both exceed the 25 bases of the read. -/
theorem computeBestHit_score_exceeds_read :
    (∀ v ∈ [(⟨100, 5⟩ : KmerVote), ⟨101, 0⟩], v.readPos ≤ 25 - 20) ∧
      (computeBestHit ⟨0, 0, [⟨100, 5⟩, ⟨101, 0⟩]⟩).bestHitScore = 40 ∧
      ¬ (computeBestHit ⟨0, 0, [⟨100, 5⟩, ⟨101, 0⟩]⟩).bestHitScore ≤ 25 ∧
      polyAHits.votes ≠ [] ∧
      (∀ v ∈ polyAHits.votes, v.readPos ≤ 25 - 20) ∧
      (computeBestHit polyAHits).bestHitScore = 145 := by
  decide!

theorem coverStep_ordered (acc : Nat × Nat) (v : KmerVote) (L : Nat)
    (h1 : acc.1 ≤ acc.2) (h2 : acc.2 ≤ v.readPos + 20) (h3 : v.readPos + 20 ≤ L)
    (hL : L < 2 ^ 32) :
    (coverStep klen acc v).1 ≤ v.readPos + 20 ∧ (coverStep klen acc v).2 = v.readPos + 20 := by
  have ha : u32 (v.readPos + klen) = v.readPos + 20 := by
    show (v.readPos + 20) % 2 ^ 32 = _
    exact Nat.mod_eq_of_lt (by omega)
  have hs : u32sub (v.readPos + 20) acc.2 = v.readPos + 20 - acc.2 := by
    show (v.readPos + 20 + 2 ^ 32 - acc.2) % 2 ^ 32 = _
    have : v.readPos + 20 + 2 ^ 32 - acc.2 = (v.readPos + 20 - acc.2) + 2 ^ 32 := by omega
    rw [this, Nat.add_mod_right]
    exact Nat.mod_eq_of_lt (by omega)
  have hmin : min klen (v.readPos + 20 - acc.2) ≤ v.readPos + 20 - acc.2 := min_le_right _ _
  constructor
  · show u32 (acc.1 + min klen (u32sub (u32 (v.readPos + klen)) acc.2)) ≤ _
    rw [ha, hs]
    exact le_trans (Nat.mod_le _ _) (by omega)
  · exact ha

theorem voteLoop_le_read (L : Nat) (hL : L < 2 ^ 32) (vs : List KmerVote) :
    ∀ st : ClusterLoop,
      (∀ v ∈ vs, st.currClust ≤ v.votePos) →
      vs.Pairwise (fun a b => a.votePos ≤ b.votePos) →
      vs.Pairwise (fun a b => a.readPos ≤ b.readPos) →
      (∀ v ∈ vs, v.readPos + 20 ≤ L) →
      (∀ k, st.currClust < k → st.hitMap k = ⟨0, 0⟩) →
      (st.hitMap st.currClust).coverage ≤ (st.hitMap st.currClust).rightmostBase →
      (∀ v ∈ vs, (st.hitMap st.currClust).rightmostBase ≤ v.readPos + 20) →
      st.maxClusterCount ≤ L →
      (vs.foldl voteStep st).maxClusterCount ≤ L := by
  induction vs with
  | nil => intro st _ _ _ _ _ _ _ hmax; exact hmax
  | cons v vs ih =>
    intro st hge hsv hsr hpos hfresh hord hrmb hmax
    have hv : st.currClust ≤ v.votePos := hge v (List.mem_cons_self _ _)
    obtain ⟨hc, hm, hx⟩ := voteStep_sorted st v hv
    rw [List.pairwise_cons] at hsv hsr
    rw [List.foldl_cons]
    have hvL : v.readPos + 20 ≤ L := hpos v (List.mem_cons_self _ _)
    -- the entry the vote is added to: the current cluster's, or a fresh one
    have hentry0 : ∃ acc : Nat × Nat,
        acc = ((st.hitMap (voteStep st v).currClust).coverage,
          (st.hitMap (voteStep st v).currClust).rightmostBase) ∧
        acc.1 ≤ acc.2 ∧ acc.2 ≤ v.readPos + 20 := by
      refine ⟨_, rfl, ?_, ?_⟩
      · rw [hc]
        split
        · exact hord
        · next hw =>
          have hfar : st.currClust < v.votePos := by
            have := (within10_of_le hv).not.1 hw
            omega
          rw [hfresh _ hfar]
      · rw [hc]
        split
        · exact hrmb v (List.mem_cons_self _ _)
        · next hw =>
          have hfar : st.currClust < v.votePos := by
            have := (within10_of_le hv).not.1 hw
            omega
          rw [hfresh _ hfar]
          exact Nat.zero_le _
    obtain ⟨acc, hacc, ho1, ho2⟩ := hentry0
    have hpair : (((voteStep st v).hitMap (voteStep st v).currClust).coverage,
        ((voteStep st v).hitMap (voteStep st v).currClust).rightmostBase)
          = coverStep klen acc v := by
      rw [hacc, ← coverStep_readPos, ← absorbVote_same, hm, hc]
    obtain ⟨hcov, hrm⟩ := coverStep_ordered acc v L ho1 ho2 hvL hL
    rw [← hpair] at hcov hrm
    simp only at hcov hrm
    apply ih (voteStep st v)
    · intro w hw
      rw [hc]
      split
      · exact hge w (List.mem_cons_of_mem _ hw)
      · exact hsv.1 w hw
    · exact hsv.2
    · exact hsr.2
    · intro w hw; exact hpos w (List.mem_cons_of_mem _ hw)
    · intro k hk
      rw [hm, absorbVote_other _ _ _ _ (by rw [hc] at hk; omega)]
      apply hfresh
      rw [hc] at hk
      split at hk
      · exact hk
      · omega
    · rw [hrm]; exact hcov
    · intro w hw
      rw [hrm]
      have := hsr.1 w hw
      omega
    · rw [hx, ← hm, ← hc]
      exact max_le hmax (le_trans hcov hvL)

/-- When the sorted votes of a read end of length `L` (k = 20) also run through
the read from left to right, the score is a coverage of the read:
`bestHitScore ≤ L`. -/
theorem bestHitScore_le_read_length (h : TranscriptHitList) (L : Nat) (hL : L < 2 ^ 32)
    (hpos : ∀ v ∈ h.votes, v.readPos + 20 ≤ L)
    (hmono : (sortVotes h.votes).Pairwise (fun a b => a.readPos ≤ b.readPos)) :
    (computeBestHit h).bestHitScore ≤ L := by
  show ((sortVotes h.votes).foldl voteStep (initLoop (sortVotes h.votes))).maxClusterCount ≤ L
  have hperm := List.perm_insertionSort voteLE h.votes
  apply voteLoop_le_read L hL (sortVotes h.votes) (initLoop (sortVotes h.votes)) ?_
    (sortVotes_pairwise h.votes) hmono
    (fun v hv => hpos v (hperm.mem_iff.1 hv))
    (fun k _ => rfl) (le_refl _) (fun v _ => Nat.zero_le _) (Nat.zero_le _)
  intro v hv
  have hs := sortVotes_pairwise h.votes
  cases hsv : sortVotes h.votes with
  | nil => rw [hsv] at hv; cases hv
  | cons w ws =>
    rw [hsv] at hv hs
    show w.votePos ≤ v.votePos
    rcases List.mem_cons.1 hv with rfl | hmem
    · exact le_refl _
    · exact (List.pairwise_cons.1 hs).1 v hmem

theorem bestHitScore_le_read_length_witness :
    (25 : Nat) < 2 ^ 32 ∧
    (∀ v ∈ (⟨0, 0, matchVotes 100 6⟩ : TranscriptHitList).votes, v.readPos + 20 ≤ 25) ∧
    (sortVotes (matchVotes 100 6)).Pairwise (fun a b => a.readPos ≤ b.readPos) ∧
    (computeBestHit ⟨0, 0, matchVotes 100 6⟩).bestHitScore ≤ 25 :=
  ⟨by decide, by decide, by decide,
    bestHitScore_le_read_length ⟨0, 0, matchVotes 100 6⟩ 25 (by decide) (by decide)
      (by decide)⟩

theorem lookup_eq_some_iff_mem {β : Type} (m : List (Nat × β))
    (hnd : (m.map Prod.fst).Nodup) (t : Nat) (x : β) :
    m.lookup t = some x ↔ (t, x) ∈ m := by
  induction m with
  | nil => simp
  | cons e m ih =>
    obtain ⟨k, y⟩ := e
    rw [List.map_cons, List.nodup_cons] at hnd
    by_cases htk : t = k
    · subst htk
      have hnot : ∀ z, (t, z) ∉ m := fun z hz =>
        hnd.1 (List.mem_map.2 ⟨(t, z), hz, rfl⟩)
      simp [List.lookup_cons, hnot, eq_comm]
    · have hbeq : (t == k) = false := by simpa using htk
      simp [List.lookup_cons, hbeq, htk, ih hnd.2]

theorem roundToDouble_cases (n : Nat) :
    roundToDouble n = (n / 2 ^ (highBit n - 52)) * 2 ^ (highBit n - 52) ∨
    (roundToDouble n = (n / 2 ^ (highBit n - 52) + 1) * 2 ^ (highBit n - 52)) := by
  unfold roundToDouble
  simp only
  split
  · exact Or.inr rfl
  · exact Or.inl rfl

theorem roundToDouble_down (n : Nat)
    (h : 2 * (n % 2 ^ (highBit n - 52)) < 2 ^ (highBit n - 52)) :
    roundToDouble n = (n / 2 ^ (highBit n - 52)) * 2 ^ (highBit n - 52) := by
  unfold roundToDouble
  simp only
  rw [if_neg]
  rintro (h1 | ⟨h2, _⟩) <;> omega

theorem highBitAux_spec (fuel : Nat) :
    ∀ n, n ≠ 0 → n < 2 ^ fuel →
      2 ^ highBitAux fuel n ≤ n ∧ n < 2 ^ (highBitAux fuel n + 1) := by
  induction fuel with
  | zero => intro n h0 h; simp at h; omega
  | succ fuel ih =>
    intro n h0 h
    unfold highBitAux
    by_cases h2 : n < 2
    · rw [if_pos h2]; simp; omega
    · rw [if_neg h2]
      have hhalf : n / 2 < 2 ^ fuel := by
        rw [Nat.pow_succ] at h; omega
      obtain ⟨i1, i2⟩ := ih (n / 2) (by omega) hhalf
      rw [Nat.pow_succ] at i2 ⊢
      rw [Nat.pow_succ]
      constructor <;> omega

theorem highBit_spec (n : Nat) (h0 : n ≠ 0) (h : n < 2 ^ 128) :
    2 ^ highBit n ≤ n ∧ n < 2 ^ (highBit n + 1) :=
  highBitAux_spec 128 n h0 h

theorem shift_le (L : Nat) (hL : L < 2 ^ 32) : highBit (pointEight * L) - 52 ≤ 32 := by
  by_cases h0 : pointEight * L = 0
  · rw [h0]; decide
  · have hlt : pointEight * L < 2 ^ 85 := by unfold pointEight; omega
    have hs := highBit_spec (pointEight * L) h0 (lt_trans hlt (by norm_num))
    have : highBit (pointEight * L) < 85 := by
      by_contra hc
      have : 2 ^ 85 ≤ 2 ^ highBit (pointEight * L) :=
        Nat.pow_le_pow_right (by decide) (Nat.not_lt.1 hc)
      omega
    omega

theorem meetsCutoff_exact (s L : Nat) (hL : L < 2 ^ 32) :
    meetsCutoff s L = true ↔ 4 * L ≤ 5 * s := by
  unfold meetsCutoff cutoff
  rw [decide_eq_true_iff]
  have hsh := shift_le L hL
  generalize hn : pointEight * L = n at *
  generalize hshd : highBit n - 52 = sh at *
  have hn' : n = 7205759403792794 * L := by rw [← hn]; rfl
  have he_pos : 0 < 2 ^ sh := Nat.two_pow_pos sh
  have he_le : 2 ^ sh ≤ 2 ^ 32 := Nat.pow_le_pow_right (by decide) hsh
  have hP : (2 : Nat) ^ 53 = 2 ^ sh * 2 ^ (53 - sh) := by
    rw [← Nat.pow_add]; congr 1; omega
  have hdm := Nat.div_add_mod n (2 ^ sh)
  have hr := Nat.mod_lt n he_pos
  have hcases := roundToDouble_cases n
  rw [hshd] at hcases
  constructor
  · -- the rounded product is at most the score: the score meets the exact cutoff
    intro hle
    by_contra hlt
    have hge : (n / 2 ^ sh) * 2 ^ sh ≤ roundToDouble n := by
      rcases hcases with h | h <;> rw [h]
      exact Nat.mul_le_mul_right _ (Nat.le_succ _)
    have hq : (n / 2 ^ sh) * 2 ^ sh = n - n % 2 ^ sh := by
      rw [Nat.mul_comm]; omega
    have h32 : (2 : Nat) ^ 32 = 4294967296 := by norm_num
    have h53 : (2 : Nat) ^ 53 = 9007199254740992 := by norm_num
    rw [h53] at hle
    rw [h32] at he_le hL
    omega
  · intro hex
    by_cases hA : n < s * 2 ^ 53
    · -- the product lies below the score, which is a double: so does its rounding
      have hlt : 2 ^ sh * (n / 2 ^ sh) < 2 ^ sh * (s * 2 ^ (53 - sh)) := by
        have : 2 ^ sh * (s * 2 ^ (53 - sh)) = s * 2 ^ 53 := by rw [hP]; ring
        rw [this]
        omega
      have hq : n / 2 ^ sh < s * 2 ^ (53 - sh) := Nat.lt_of_mul_lt_mul_left hlt
      have hup : (n / 2 ^ sh + 1) * 2 ^ sh ≤ (s * 2 ^ (53 - sh)) * 2 ^ sh :=
        Nat.mul_le_mul_right _ hq
      have hsP : (s * 2 ^ (53 - sh)) * 2 ^ sh = s * 2 ^ 53 := by rw [hP]; ring
      rw [hsP] at hup
      rcases hcases with h | h <;> rw [h]
      · exact le_trans (Nat.mul_le_mul_right _ (Nat.le_succ _)) hup
      · exact hup
    · -- the product exceeds the score by less than half an ulp: it rounds to the score
      have h53 : (2 : Nat) ^ 53 = 9007199254740992 := by norm_num
      have h32 : (2 : Nat) ^ 32 = 4294967296 := by norm_num
      have h5 : 5 * s = 4 * L := by
        rw [h53] at hA; rw [h32] at hL; omega
      have hd : 5 * (n - s * 2 ^ 53) = 2 * L := by
        rw [h53] at hA ⊢; omega
      have hse : s < 2 ^ sh := by
        by_cases hs0 : s = 0
        · rw [hs0]; exact he_pos
        · have hn0 : n ≠ 0 := by
            rw [h53] at hA; omega
          have hn128 : n < 2 ^ 128 := by
            have : n < 2 ^ 85 := by rw [hn']; omega
            exact lt_trans this (by norm_num)
          have hlog : n < 2 ^ (highBit n + 1) := (highBit_spec n hn0 hn128).2
          have h53le : 53 ≤ highBit n := by
            by_contra hc
            have : 2 ^ (highBit n + 1) ≤ 2 ^ 53 :=
              Nat.pow_le_pow_right (by decide) (by omega)
            rw [h53] at hA this; omega
          have hexp : highBit n + 1 = sh + 53 := by omega
          rw [hexp, Nat.pow_add] at hlog
          have : s * 2 ^ 53 < 2 ^ sh * 2 ^ 53 := by omega
          exact Nat.lt_of_mul_lt_mul_right this
      have hsplit : n = 2 ^ sh * (s * 2 ^ (53 - sh)) + (n - s * 2 ^ 53) := by
        have : 2 ^ sh * (s * 2 ^ (53 - sh)) = s * 2 ^ 53 := by rw [hP]; ring
        rw [this]; omega
      have hrem : n - s * 2 ^ 53 < 2 ^ sh := by omega
      have hqv : n / 2 ^ sh = s * 2 ^ (53 - sh) := by
        conv_lhs => rw [hsplit]
        rw [Nat.mul_add_div he_pos, Nat.div_eq_of_lt hrem, Nat.add_zero]
      have hrv : n % 2 ^ sh = n - s * 2 ^ 53 := by
        conv_lhs => rw [hsplit]
        rw [Nat.mul_add_mod, Nat.mod_eq_of_lt hrem]
      have hdown := roundToDouble_down n (by rw [hshd, hrv]; omega)
      rw [hshd, hqv] at hdown
      rw [hdown]
      have hsP : (s * 2 ^ (53 - sh)) * 2 ^ sh = s * 2 ^ 53 := by rw [hP]; ring
      rw [hsP]

/-- For 32-bit read lengths the `double` test `bestHitScore >= 0.80 * readLength`
decides exactly whether the score is at least four fifths of the length. -/
theorem meetsCutoff_iff (bestHitScore readLength : Nat) (hlen : readLength < 2 ^ 32) :
    meetsCutoff bestHitScore readLength = true
      ↔ (0.80 : ℚ) * (readLength : ℚ) ≤ (bestHitScore : ℚ) := by
  rw [meetsCutoff_exact bestHitScore readLength hlen]
  constructor
  · intro h
    have h' : (4 : ℚ) * readLength ≤ 5 * bestHitScore := by exact_mod_cast h
    norm_num
    linarith
  · intro h
    norm_num at h
    have h' : (4 : ℚ) * readLength ≤ 5 * bestHitScore := by linarith
    exact_mod_cast h'

/-- The `double` cutoff of the scoring block is exact: for every 32-bit read
length and every score, `bestHitScore >= 0.80 * readLength` evaluated in
binary64 (the literal `0.80`, one rounded product, an exact comparison) holds
exactly when the score is at least four fifths of the read length. -/
theorem double_cutoff_exact (bestHitScore readLength : Nat) (hlen : readLength < 2 ^ 32) :
    (roundToDouble (pointEight * readLength) ≤ bestHitScore * 2 ^ 53
      ↔ 4 * readLength ≤ 5 * bestHitScore) ∧
    (meetsCutoff bestHitScore readLength = true
      ↔ (0.80 : ℚ) * (readLength : ℚ) ≤ (bestHitScore : ℚ)) := by
  refine ⟨?_, meetsCutoff_iff bestHitScore readLength hlen⟩
  have h := meetsCutoff_exact bestHitScore readLength hlen
  unfold meetsCutoff cutoff at h
  rw [decide_eq_true_iff] at h
  exact h

theorem double_cutoff_exact_witness :
    (4294967295 : Nat) < 2 ^ 32 ∧
    ((roundToDouble (pointEight * 4294967295) ≤ 3435973836 * 2 ^ 53
      ↔ 4 * 4294967295 ≤ 5 * 3435973836) ∧
    (meetsCutoff 3435973836 4294967295 = true
      ↔ (0.80 : ℚ) * ((4294967295 : Nat) : ℚ) ≤ ((3435973836 : Nat) : ℚ))) :=
  ⟨by decide, double_cutoff_exact 3435973836 4294967295 (by decide)⟩

section ScoringTheorems
variable {K : Type} [LinearOrderedSemifield K]

theorem scoreRight_eq_some (leftHits : HitMap) (L R : Nat)
    (e : Nat × TranscriptHitList) (a : Alignment K) :
    scoreRight leftHits L R e = some a ↔
      ∃ it, leftHits.lookup e.1 = some it ∧ meetsCutoff it.bestHitScore L = true ∧
        meetsCutoff (computeBestHit e.2).bestHitScore R = true ∧
        a = Alignment.new (u32 e.1)
          (u32 (it.bestHitScore + (computeBestHit e.2).bestHitScore)) := by
  unfold scoreRight
  cases hl : leftHits.lookup e.1 with
  | none => simp
  | some it =>
    by_cases h1 : meetsCutoff it.bestHitScore L = true
    · by_cases h2 : meetsCutoff (computeBestHit e.2).bestHitScore R = true
      · constructor
        · intro h
          refine ⟨it, rfl, h1, h2, ?_⟩
          simp [h1, h2] at h
          exact h.symm
        · rintro ⟨it', hit, _, _, ha⟩
          cases hit
          simp [h1, h2, ha]
      · constructor
        · intro h; simp [h1, h2] at h
        · rintro ⟨_, _, _, hc, _⟩; exact absurd hc h2
    · constructor
      · intro h; simp [h1] at h
      · rintro ⟨it', hit, hc, _⟩
        cases hit
        exact absurd hc h1

theorem mem_scoringBlock (leftHits rightHits : HitMap) (L R : Nat)
    (hl : leftHits.WF) (hr : rightHits.WF) (a : Alignment K) :
    a ∈ scoringBlock leftHits rightHits L R ↔
      ∃ lh rh, (a.transcriptID, lh) ∈ leftHits ∧ (a.transcriptID, rh) ∈ rightHits ∧
        meetsCutoff (computeBestHit lh).bestHitScore L = true ∧
        meetsCutoff (computeBestHit rh).bestHitScore R = true ∧
        a = Alignment.new a.transcriptID
          (u32 ((computeBestHit lh).bestHitScore + (computeBestHit rh).bestHitScore)) := by
  have hnd : ((leftHits.map (fun e => (e.1, computeBestHit e.2))).map Prod.fst).Nodup := by
    rw [List.map_map]
    exact hl.1
  unfold scoringBlock
  rw [List.mem_filterMap]
  constructor
  · rintro ⟨e, hmem, hsome⟩
    obtain ⟨it, hlook, h1, h2, ha⟩ := (scoreRight_eq_some _ L R e a).1 hsome
    rw [lookup_eq_some_iff_mem _ hnd] at hlook
    obtain ⟨e', he', heq⟩ := List.mem_map.1 hlook
    have hkey : u32 e.1 = e.1 := Nat.mod_eq_of_lt (hr.2.2 e hmem)
    rw [hkey] at ha
    have hid : a.transcriptID = e.1 := by rw [ha]; rfl
    obtain ⟨hk, hv⟩ := Prod.mk.inj heq
    refine ⟨e'.2, e.2, ?_, ?_, ?_, ?_, ?_⟩
    · rw [hid, ← hk]; exact he'
    · rw [hid]; exact hmem
    · rw [hv]; exact h1
    · exact h2
    · rw [hv, hid]; exact ha
  · rintro ⟨lh, rh, hlm, hrm, h1, h2, ha⟩
    refine ⟨(a.transcriptID, rh), hrm, ?_⟩
    rw [scoreRight_eq_some]
    have hkey : u32 a.transcriptID = a.transcriptID :=
      Nat.mod_eq_of_lt (hr.2.2 _ hrm)
    refine ⟨computeBestHit lh, ?_, h1, h2, by rw [hkey]; exact ha⟩
    rw [lookup_eq_some_iff_mem _ hnd]
    exact List.mem_map.2 ⟨(a.transcriptID, lh), hlm, rfl⟩

/-- C1.  For hit maps as the read scan builds them (one entry per 32-bit
transcript id, every entry with at least one vote), left read length `L` and
right read length `R` (both `uint32_t`): the scoring block of `add_sizes` emits
a candidate for transcript `T` exactly when `T` has votes from both ends, the
left end's best score is at least `0.80 * L` and the right end's best score is
at least `0.80 * R`; every emitted alignment carries `logProb = LOG_0` and the
32-bit sum of the two best scores as `kmerCount`, which is their sum whenever
the two vote lists hold fewer than `2 ^ 32 / 20` votes together. -/
theorem scoringBlock_emits (leftHits rightHits : HitMap) (L R : Nat)
    (hL : L < 2 ^ 32) (hR : R < 2 ^ 32) (hl : leftHits.WF) (hr : rightHits.WF) :
    (∀ T : Nat,
      (∃ a ∈ scoringBlock (K := K) leftHits rightHits L R, a.transcriptID = T) ↔
        ∃ lh rh, (T, lh) ∈ leftHits ∧ (T, rh) ∈ rightHits ∧
          lh.votes ≠ [] ∧ rh.votes ≠ [] ∧
          (0.80 : ℚ) * (L : ℚ) ≤ ((computeBestHit lh).bestHitScore : ℚ) ∧
          (0.80 : ℚ) * (R : ℚ) ≤ ((computeBestHit rh).bestHitScore : ℚ)) ∧
    (∀ a ∈ scoringBlock (K := K) leftHits rightHits L R,
      ∃ lh rh, (a.transcriptID, lh) ∈ leftHits ∧ (a.transcriptID, rh) ∈ rightHits ∧
        a.logProb = LOG_0 ∧
        a.kmerCount
          = ((computeBestHit lh).bestHitScore + (computeBestHit rh).bestHitScore) % 2 ^ 32 ∧
        (20 * (lh.votes.length + rh.votes.length) < 2 ^ 32 →
          a.kmerCount
            = (computeBestHit lh).bestHitScore + (computeBestHit rh).bestHitScore)) := by
  constructor
  · intro T
    constructor
    · rintro ⟨a, ha, rfl⟩
      obtain ⟨lh, rh, hlm, hrm, h1, h2, _⟩ := (mem_scoringBlock leftHits rightHits L R hl hr a).1 ha
      exact ⟨lh, rh, hlm, hrm, hl.2.1 _ hlm, hr.2.1 _ hrm,
        (meetsCutoff_iff _ _ hL).1 h1, (meetsCutoff_iff _ _ hR).1 h2⟩
    · rintro ⟨lh, rh, hlm, hrm, _, _, h1, h2⟩
      refine ⟨Alignment.new T
        (u32 ((computeBestHit lh).bestHitScore + (computeBestHit rh).bestHitScore)), ?_, rfl⟩
      rw [mem_scoringBlock leftHits rightHits L R hl hr]
      exact ⟨lh, rh, hlm, hrm, (meetsCutoff_iff _ _ hL).2 h1, (meetsCutoff_iff _ _ hR).2 h2,
        rfl⟩
  · intro a ha
    obtain ⟨lh, rh, hlm, hrm, _, _, heq⟩ := (mem_scoringBlock leftHits rightHits L R hl hr a).1 ha
    have hk : a.kmerCount
        = u32 ((computeBestHit lh).bestHitScore + (computeBestHit rh).bestHitScore) := by
      rw [heq]; rfl
    refine ⟨lh, rh, hlm, hrm, by rw [heq]; rfl, hk, ?_⟩
    intro hsmall
    have h1 := bestHitScore_le lh (by omega)
    have h2 := bestHitScore_le rh (by omega)
    rw [hk]
    exact Nat.mod_eq_of_lt (by omega)

theorem scoringBlock_emits_witness :
    (25 : Nat) < 2 ^ 32 ∧ (30 : Nat) < 2 ^ 32 ∧ s4LeftHits.WF ∧ s4RightHits.WF ∧
    ((∀ T : Nat,
      (∃ a ∈ scoringBlock (K := ℚ) s4LeftHits s4RightHits 25 30, a.transcriptID = T) ↔
        ∃ lh rh, (T, lh) ∈ s4LeftHits ∧ (T, rh) ∈ s4RightHits ∧
          lh.votes ≠ [] ∧ rh.votes ≠ [] ∧
          (0.80 : ℚ) * ((25 : Nat) : ℚ) ≤ ((computeBestHit lh).bestHitScore : ℚ) ∧
          (0.80 : ℚ) * ((30 : Nat) : ℚ) ≤ ((computeBestHit rh).bestHitScore : ℚ)) ∧
    (∀ a ∈ scoringBlock (K := ℚ) s4LeftHits s4RightHits 25 30,
      ∃ lh rh, (a.transcriptID, lh) ∈ s4LeftHits ∧ (a.transcriptID, rh) ∈ s4RightHits ∧
        a.logProb = LOG_0 ∧
        a.kmerCount
          = ((computeBestHit lh).bestHitScore + (computeBestHit rh).bestHitScore) % 2 ^ 32 ∧
        (20 * (lh.votes.length + rh.votes.length) < 2 ^ 32 →
          a.kmerCount
            = (computeBestHit lh).bestHitScore + (computeBestHit rh).bestHitScore))) :=
  ⟨by decide, by decide, ⟨by decide, by decide, by decide⟩,
    ⟨by decide, by decide, by decide⟩,
    scoringBlock_emits s4LeftHits s4RightHits 25 30 (by decide) (by decide)
      ⟨by decide, by decide, by decide⟩ ⟨by decide, by decide, by decide⟩⟩

end ScoringTheorems

/-! ## Theorems: log-space arithmetic -/

section LogLemmas
variable {K : Type} [LinearOrderedSemifield K]

theorem LogVal.ext_iff' (a b : LogVal K) : a = b ↔ a.exp = b.exp := by
  cases a; cases b; simp

theorem LOG_0_exp : (LOG_0 : LogVal K).exp = 0 := rfl

theorem LOG_1_exp : (LOG_1 : LogVal K).exp = 1 := rfl

theorem eq_LOG_0_iff (a : LogVal K) : a = LOG_0 ↔ a.exp = 0 :=
  LogVal.ext_iff' a LOG_0

theorem add_exp (a b : LogVal K) : (a + b).exp = a.exp * b.exp := rfl

theorem sub_exp (a b : LogVal K) : (a - b).exp = a.exp / b.exp := rfl

theorem log_exp (x : K) : (LogVal.log x).exp = x := rfl

theorem logAdd_LOG_0_left (b : LogVal K) : logAdd LOG_0 b = b := by
  simp [logAdd]

theorem logAdd_LOG_0_right (a : LogVal K) : logAdd a LOG_0 = a := by
  unfold logAdd
  split
  · next h => exact h.symm
  · simp

/-- In exponentials `logAdd` is the sum. -/
theorem logAdd_exp (a b : LogVal K) : (logAdd a b).exp = a.exp + b.exp := by
  unfold logAdd
  by_cases ha : a = LOG_0
  · rw [if_pos ha, (eq_LOG_0_iff a).1 ha, zero_add]
  · by_cases hb : b = LOG_0
    · rw [if_neg ha, if_pos hb, (eq_LOG_0_iff b).1 hb, add_zero]
    · rw [if_neg ha, if_neg hb]
      have ha' : a.exp ≠ 0 := fun h => ha ((eq_LOG_0_iff a).2 h)
      have hb' : b.exp ≠ 0 := fun h => hb ((eq_LOG_0_iff b).2 h)
      by_cases hle : a.exp ≤ b.exp
      · simp only [hle, if_true, sub_exp]
        field_simp
        ring
      · simp only [hle, if_false, sub_exp]
        field_simp

theorem add_LOG_0 (a : LogVal K) : a + LOG_0 = LOG_0 := by
  rw [eq_LOG_0_iff, add_exp, LOG_0_exp, mul_zero]

theorem LOG_0_sub (s : LogVal K) : LOG_0 - s = LOG_0 := by
  rw [eq_LOG_0_iff, sub_exp, LOG_0_exp, zero_div]

theorem hitMassOf_exp (hits : List (Alignment K)) :
    (hitMassOf hits).exp = (hits.map (fun a => a.logProb.exp)).sum := by
  unfold hitMassOf
  have key : ∀ (l : List (Alignment K)) (s : LogVal K),
      (l.foldl (fun hitMass aln => logAdd hitMass aln.logProb) s).exp
        = s.exp + (l.map (fun a => a.logProb.exp)).sum := by
    intro l
    induction l with
    | nil => intro s; simp
    | cons a l ih =>
      intro s
      rw [List.foldl_cons, ih, logAdd_exp, List.map_cons, List.sum_cons, add_assoc]
  rw [key, LOG_0_exp, zero_add]

end LogLemmas

/-! ## Theorems: the alignment loop of the E-step -/

section EStepLemmas
variable {K : Type} [LinearOrderedSemifield K] {CF : Type}

theorem logProbOf_congr (t t' : Transcript K) (h : SameMass t t') (a : Alignment K) :
    logProbOf t' a = logProbOf t a := by
  unfold logProbOf
  rw [h.1, h.2.1]

theorem logProbOf_zero_mass (t : Transcript K) (h : t.mass = LOG_0) (a : Alignment K) :
    logProbOf t a = LOG_0 := by
  simp [logProbOf, h]

theorem SameMass.refl (t : Transcript K) : SameMass t t := ⟨rfl, rfl, rfl⟩

theorem SameMass.trans {t t' t'' : Transcript K} (h : SameMass t t') (h' : SameMass t' t'') :
    SameMass t t'' :=
  ⟨h'.1.trans h.1, h'.2.1.trans h.2.1, h'.2.2.trans h.2.2⟩

/-- What one iteration of the alignment loop does to each loop variable. -/
theorem alnStep_spec (f : Nat) (st : ReadLoop K) (a : Alignment K) :
    (∀ i, SameMass (st.transcripts i) ((alnStep f st a).transcripts i)) ∧
    (∀ i, ((alnStep f st a).transcripts i).uniqueCount = (st.transcripts i).uniqueCount) ∧
    (∀ i, i ∈ (alnStep f st a).observedTranscripts ↔
      i ∈ st.observedTranscripts ∨
        (a.transcriptID = i ∧ (st.transcripts i).mass ≠ LOG_0)) ∧
    (∀ i, ((alnStep f st a).transcripts i).totalCount
      = (st.transcripts i).totalCount
        + (if i ∈ (alnStep f st a).observedTranscripts ∧ i ∉ st.observedTranscripts
            then 1 else 0)) ∧
    (alnStep f st a).alns
      = st.alns ++ [{ a with logProb := logProbOf (st.transcripts a.transcriptID) a }] ∧
    (alnStep f st a).sumOfAlignProbs
      = logAdd st.sumOfAlignProbs (logProbOf (st.transcripts a.transcriptID) a) ∧
    (alnStep f st a).transcriptUnique
      = (st.transcriptUnique && decide (a.transcriptID = f)) := by
  by_cases hm : (st.transcripts a.transcriptID).mass = LOG_0
  · have hstep : alnStep f st a = { st with
        alns := st.alns ++ [{ a with logProb := LOG_0 }],
        transcriptUnique := st.transcriptUnique && decide (a.transcriptID = f) } := by
      simp [alnStep, hm]
    rw [hstep]
    refine ⟨fun i => SameMass.refl _, fun i => rfl, ?_, ?_, ?_, ?_, rfl⟩
    · intro i
      constructor
      · intro h; exact Or.inl h
      · rintro (h | ⟨rfl, h⟩)
        · exact h
        · exact absurd hm h
    · intro i
      simp
    · simp [logProbOf, hm]
    · simp [logProbOf, hm, logAdd_LOG_0_right]
  · by_cases hs : a.transcriptID ∈ st.observedTranscripts
    · have hstep : alnStep f st a = { st with
          alns := st.alns ++ [{ a with
            logProb := logProbOf (st.transcripts a.transcriptID) a }],
          sumOfAlignProbs :=
            logAdd st.sumOfAlignProbs (logProbOf (st.transcripts a.transcriptID) a),
          transcriptUnique := st.transcriptUnique && decide (a.transcriptID = f) } := by
        simp [alnStep, hm, hs, logProbOf]
      rw [hstep]
      refine ⟨fun i => SameMass.refl _, fun i => rfl, ?_, ?_, rfl, rfl, rfl⟩
      · intro i
        constructor
        · intro h; exact Or.inl h
        · rintro (h | ⟨rfl, _⟩)
          · exact h
          · exact hs
      · intro i
        simp
    · have hstep : alnStep f st a = {
          transcripts := Function.update st.transcripts a.transcriptID
            ((st.transcripts a.transcriptID).addTotalCount 1),
          alns := st.alns ++ [{ a with
            logProb := logProbOf (st.transcripts a.transcriptID) a }],
          sumOfAlignProbs :=
            logAdd st.sumOfAlignProbs (logProbOf (st.transcripts a.transcriptID) a),
          transcriptUnique := st.transcriptUnique && decide (a.transcriptID = f),
          observedTranscripts := a.transcriptID :: st.observedTranscripts } := by
        simp [alnStep, hm, hs, logProbOf]
      rw [hstep]
      refine ⟨?_, ?_, ?_, ?_, rfl, rfl, rfl⟩
      · intro i
        by_cases hi : i = a.transcriptID
        · subst hi
          simp [SameMass, Transcript.addTotalCount]
        · simp [SameMass, Function.update_noteq hi]
      · intro i
        by_cases hi : i = a.transcriptID
        · subst hi
          simp [Transcript.addTotalCount]
        · simp [Function.update_noteq hi]
      · intro i
        simp only [List.mem_cons]
        constructor
        · rintro (rfl | h)
          · exact Or.inr ⟨rfl, hm⟩
          · exact Or.inl h
        · rintro (h | ⟨rfl, _⟩)
          · exact Or.inr h
          · exact Or.inl rfl
      · intro i
        by_cases hi : i = a.transcriptID
        · subst hi
          simp [Transcript.addTotalCount, hs]
        · have hne : ¬ (i = a.transcriptID ∨ i ∈ st.observedTranscripts)
              ∨ i ∈ st.observedTranscripts := by
            by_cases h : i ∈ st.observedTranscripts
            · exact Or.inr h
            · exact Or.inl (fun hc => hc.elim hi h)
          simp only [Function.update_noteq hi, List.mem_cons]
          rcases hne with h | h
          · simp [hi, fun hc => h (Or.inr hc)]
          · simp [h]

/-- What the alignment loop, run from any state over `alns`, does to each
loop variable. -/
theorem alnFold_spec (f : Nat) (alns : List (Alignment K)) :
    ∀ st : ReadLoop K,
    (∀ i, SameMass (st.transcripts i) ((alns.foldl (alnStep f) st).transcripts i)) ∧
    (∀ i, ((alns.foldl (alnStep f) st).transcripts i).uniqueCount
      = (st.transcripts i).uniqueCount) ∧
    (∀ i, i ∈ (alns.foldl (alnStep f) st).observedTranscripts ↔
      i ∈ st.observedTranscripts ∨
        ((∃ a ∈ alns, a.transcriptID = i) ∧ (st.transcripts i).mass ≠ LOG_0)) ∧
    (∀ i, ((alns.foldl (alnStep f) st).transcripts i).totalCount
      = (st.transcripts i).totalCount
        + (if i ∈ (alns.foldl (alnStep f) st).observedTranscripts
              ∧ i ∉ st.observedTranscripts then 1 else 0)) ∧
    (alns.foldl (alnStep f) st).alns
      = st.alns ++ alns.map
          (fun a => { a with logProb := logProbOf (st.transcripts a.transcriptID) a }) ∧
    (alns.foldl (alnStep f) st).sumOfAlignProbs
      = alns.foldl (fun s a => logAdd s (logProbOf (st.transcripts a.transcriptID) a))
          st.sumOfAlignProbs ∧
    (alns.foldl (alnStep f) st).transcriptUnique
      = (st.transcriptUnique && alns.all (fun a => decide (a.transcriptID = f))) := by
  induction alns with
  | nil =>
    intro st
    refine ⟨fun i => SameMass.refl _, fun i => rfl, ?_, ?_, ?_, rfl, ?_⟩
    · intro i; simp
    · intro i; simp
    · simp
    · simp
  | cons a alns ih =>
    intro st
    obtain ⟨s1, s2, s3, s4, s5, s6, s7⟩ := alnStep_spec f st a
    obtain ⟨t1, t2, t3, t4, t5, t6, t7⟩ := ih (alnStep f st a)
    have hcongr : ∀ b : Alignment K,
        logProbOf ((alnStep f st a).transcripts b.transcriptID) b
          = logProbOf (st.transcripts b.transcriptID) b :=
      fun b => logProbOf_congr _ _ (s1 b.transcriptID) b
    rw [List.foldl_cons]
    refine ⟨fun i => (s1 i).trans (t1 i), fun i => (t2 i).trans (s2 i), ?_, ?_, ?_, ?_, ?_⟩
    · intro i
      rw [t3 i, s3 i, (s1 i).1]
      simp only [List.mem_cons, exists_eq_or_imp]
      tauto
    · intro i
      rw [t4 i, s4 i]
      have hmono : i ∈ st.observedTranscripts → i ∈ (alnStep f st a).observedTranscripts :=
        fun h => (s3 i).2 (Or.inl h)
      have hmono' : i ∈ (alnStep f st a).observedTranscripts →
          i ∈ (alns.foldl (alnStep f) (alnStep f st a)).observedTranscripts :=
        fun h => (t3 i).2 (Or.inl h)
      by_cases h0 : i ∈ st.observedTranscripts
      · simp [h0, hmono h0, hmono' (hmono h0)]
      · by_cases h1 : i ∈ (alnStep f st a).observedTranscripts
        · simp [h0, h1, hmono' h1]
        · simp [h0, h1]
    · rw [t5, s5, List.map_cons, List.append_assoc]
      simp only [List.singleton_append, hcongr]
    · rw [t6, s6, List.foldl_cons]
      simp only [hcongr]
    · rw [t7, s7, List.all_cons, Bool.and_assoc]

theorem alnLoop_eq_foldl (ts : TranscriptTable K) (alns : List (Alignment K)) :
    alnLoop ts alns = alns.foldl (alnStep (firstID alns)) ⟨ts, [], LOG_0, true, []⟩ := by
  cases alns <;> rfl

/-- The alignment loop over a whole read. -/
theorem alnLoop_spec (ts : TranscriptTable K) (alns : List (Alignment K)) :
    (∀ i, SameMass (ts i) ((alnLoop ts alns).transcripts i)) ∧
    (∀ i, ((alnLoop ts alns).transcripts i).uniqueCount = (ts i).uniqueCount) ∧
    (∀ i, ((alnLoop ts alns).transcripts i).totalCount
      = (ts i).totalCount
        + (if (∃ a ∈ alns, a.transcriptID = i) ∧ (ts i).mass ≠ LOG_0 then 1 else 0)) ∧
    (alnLoop ts alns).alns = rawProbs ts alns ∧
    readSum ts alns = hitMassOf (rawProbs ts alns) ∧
    (alnLoop ts alns).transcriptUnique = allSame alns := by
  unfold readSum
  rw [alnLoop_eq_foldl]
  obtain ⟨h1, h2, h3, h4, h5, h6, h7⟩ :=
    alnFold_spec (firstID alns) alns ⟨ts, [], LOG_0, true, []⟩
  refine ⟨h1, h2, ?_, ?_, ?_, ?_⟩
  · intro i
    rw [h4 i]
    have h3i := h3 i
    simp only [List.not_mem_nil, false_or, not_false_eq_true, and_true] at h3i ⊢
    by_cases hc : (∃ a ∈ alns, a.transcriptID = i) ∧ (ts i).mass ≠ LOG_0
    · rw [if_pos (h3i.2 hc), if_pos hc]
    · rw [if_neg (fun h => hc (h3i.1 h)), if_neg hc]
  · rw [h5]; rfl
  · rw [h6]
    unfold hitMassOf rawProbs
    rw [List.foldl_map]
  · rw [h7]; rfl

theorem hitMassOf_all_LOG_0 (hits : List (Alignment K))
    (h : ∀ a ∈ hits, a.logProb = LOG_0) : hitMassOf hits = LOG_0 := by
  rw [eq_LOG_0_iff, hitMassOf_exp]
  apply List.sum_eq_zero
  intro x hx
  obtain ⟨a, ha, rfl⟩ := List.mem_map.1 hx
  rw [h a ha]; rfl

/-- A read whose alignments all name transcripts of mass `LOG_0` has E-step sum
`LOG_0`. -/
theorem readSum_of_zero_mass (ts : TranscriptTable K) (alns : List (Alignment K))
    (h : ∀ a ∈ alns, (ts a.transcriptID).mass = LOG_0) : readSum ts alns = LOG_0 := by
  rw [(alnLoop_spec ts alns).2.2.2.2.1]
  apply hitMassOf_all_LOG_0
  intro a ha
  obtain ⟨b, hb, rfl⟩ := List.mem_map.1 ha
  exact logProbOf_zero_mass _ (h b hb) b

/-- The alignments one E-step iteration leaves in the read: the loop's values
if the read is skipped, the normalised values otherwise. -/
theorem eStepRead_alnGroup (ops : ClusterForestOps K CF) (fm : LogVal K)
    (ts : TranscriptTable K) (cf : CF) (alns : List (Alignment K)) :
    (eStepRead ops fm ts cf alns).alnGroup
      = if readSum ts alns = LOG_0 then rawProbs ts alns
        else (rawProbs ts alns).map
          (fun a => { a with logProb := a.logProb - readSum ts alns }) := by
  cases alns with
  | nil => simp [eStepRead, rawProbs]
  | cons first rest =>
    have hal := (alnLoop_spec ts (first :: rest)).2.2.2.1
    unfold readSum
    simp only [eStepRead]
    split
    · rw [hal]
    · split <;> rw [hal]

/-- The forest after one E-step iteration. -/
theorem eStepRead_clusterForest (ops : ClusterForestOps K CF) (fm : LogVal K)
    (ts : TranscriptTable K) (cf : CF) (alns : List (Alignment K)) :
    (eStepRead ops fm ts cf alns).clusterForest
      = if alns = [] ∨ readSum ts alns = LOG_0 then cf
        else if allSame alns then ops.updateCluster cf (firstID alns) 1 fm
        else ops.updateCluster
          (ops.mergeClusters cf (alns.map (fun a => a.transcriptID))) (firstID alns) 1 fm := by
  cases alns with
  | nil => simp [eStepRead]
  | cons first rest =>
    have hal := (alnLoop_spec ts (first :: rest)).2.2.2.1
    have hun := (alnLoop_spec ts (first :: rest)).2.2.2.2.2
    unfold readSum
    simp only [eStepRead]
    by_cases hS : (alnLoop ts (first :: rest)).sumOfAlignProbs = LOG_0
    · simp [hS]
    · simp only [hS, if_false, false_or, List.cons_ne_nil]
      rw [hun]
      by_cases hu : allSame (first :: rest) = true
      · simp [hu, firstID]
      · simp only [hu, if_false, Bool.false_eq_true]
        rw [hal]
        simp only [rawProbs, List.map_map]
        rfl

/-- The counters and masses after one E-step iteration: the mass never changes;
`totalCount` grows by one for each named transcript of mass other than `LOG_0`;
`uniqueCount` grows by one for the first transcript when the read is not
skipped and names no other transcript. -/
theorem eStepRead_transcripts (ops : ClusterForestOps K CF) (fm : LogVal K)
    (ts : TranscriptTable K) (cf : CF) (alns : List (Alignment K)) (i : Nat) :
    SameMass (ts i) ((eStepRead ops fm ts cf alns).transcripts i) ∧
    ((eStepRead ops fm ts cf alns).transcripts i).totalCount
      = (ts i).totalCount
        + (if (∃ a ∈ alns, a.transcriptID = i) ∧ (ts i).mass ≠ LOG_0 then 1 else 0) ∧
    ((eStepRead ops fm ts cf alns).transcripts i).uniqueCount
      = (ts i).uniqueCount
        + (if alns ≠ [] ∧ readSum ts alns ≠ LOG_0 ∧ allSame alns = true ∧ i = firstID alns
            then 1 else 0) := by
  cases alns with
  | nil => simp [eStepRead, SameMass]
  | cons first rest =>
    obtain ⟨h1, h2, h3, _, _, h6⟩ := alnLoop_spec ts (first :: rest)
    unfold readSum
    simp only [eStepRead]
    by_cases hS : (alnLoop ts (first :: rest)).sumOfAlignProbs = LOG_0
    · simp only [hS, if_true]
      refine ⟨h1 i, h3 i, ?_⟩
      rw [h2 i]
      simp
    · simp only [hS, if_false]
      rw [h6]
      by_cases hu : allSame (first :: rest) = true
      · simp only [hu, if_true]
        by_cases hi : i = first.transcriptID
        · subst hi
          simp only [Function.update_same, Transcript.addUniqueCount]
          refine ⟨h1 _, h3 _, ?_⟩
          rw [h2]
          simp [firstID, hS]
        · simp only [Function.update_noteq hi]
          refine ⟨h1 i, h3 i, ?_⟩
          rw [h2 i]
          simp [firstID, hi]
      · simp only [hu, if_false, Bool.false_eq_true]
        refine ⟨h1 i, h3 i, ?_⟩
        rw [h2 i]
        simp

theorem rawProbs_congr (ts ts' : TranscriptTable K) (h : ∀ i, SameMass (ts i) (ts' i))
    (alns : List (Alignment K)) : rawProbs ts' alns = rawProbs ts alns := by
  unfold rawProbs
  apply List.map_congr_left
  intro a _
  rw [logProbOf_congr _ _ (h a.transcriptID)]

theorem readSum_congr (ts ts' : TranscriptTable K) (h : ∀ i, SameMass (ts i) (ts' i))
    (alns : List (Alignment K)) : readSum ts' alns = readSum ts alns := by
  rw [(alnLoop_spec ts' alns).2.2.2.2.1, (alnLoop_spec ts alns).2.2.2.2.1,
    rawProbs_congr ts ts' h]

theorem normalizedRead_congr (ts ts' : TranscriptTable K) (h : ∀ i, SameMass (ts i) (ts' i))
    (alns : List (Alignment K)) : normalizedRead ts' alns = normalizedRead ts alns := by
  unfold normalizedRead
  rw [readSum_congr ts ts' h, rawProbs_congr ts ts' h]

theorem countsTotal_congr (ts ts' : TranscriptTable K) (h : ∀ i, SameMass (ts i) (ts' i))
    (i : Nat) (alns : List (Alignment K)) : countsTotal ts' i alns = countsTotal ts i alns := by
  unfold countsTotal
  rw [(h i).1]

theorem countsUnique_congr (ts ts' : TranscriptTable K) (h : ∀ i, SameMass (ts i) (ts' i))
    (i : Nat) (alns : List (Alignment K)) :
    countsUnique ts' i alns = countsUnique ts i alns := by
  unfold countsUnique
  rw [readSum_congr ts ts' h]

/-- The E-step over a whole batch: masses are left alone, every read ends as
`normalizedRead` of the table the batch started from, and the two counters of
each transcript grow by the number of reads that count for them. -/
theorem eStep_spec (ops : ClusterForestOps K CF) (fm : LogVal K)
    (batch : List (List (Alignment K))) :
    ∀ (ts : TranscriptTable K) (cf : CF),
    (∀ i, SameMass (ts i) ((eStep ops fm ts cf batch).transcripts i)) ∧
    (eStep ops fm ts cf batch).batchHits = batch.map (normalizedRead ts) ∧
    (∀ i, ((eStep ops fm ts cf batch).transcripts i).totalCount
      = (ts i).totalCount + batch.countP (countsTotal ts i)) ∧
    (∀ i, ((eStep ops fm ts cf batch).transcripts i).uniqueCount
      = (ts i).uniqueCount + batch.countP (countsUnique ts i)) := by
  induction batch with
  | nil =>
    intro ts cf
    exact ⟨fun i => SameMass.refl _, rfl, fun i => rfl, fun i => rfl⟩
  | cons g rest ih =>
    intro ts cf
    have hr := eStepRead_transcripts ops fm ts cf g
    have hsame : ∀ i, SameMass (ts i) ((eStepRead ops fm ts cf g).transcripts i) :=
      fun i => (hr i).1
    obtain ⟨i1, i2, i3, i4⟩ := ih (eStepRead ops fm ts cf g).transcripts
      (eStepRead ops fm ts cf g).clusterForest
    simp only [eStep]
    refine ⟨fun i => (hsame i).trans (i1 i), ?_, ?_, ?_⟩
    · rw [i2, List.map_cons, eStepRead_alnGroup]
      congr 1
      apply List.map_congr_left
      intro x _
      exact normalizedRead_congr ts _ hsame x
    · intro i
      rw [i3 i, (hr i).2.1, List.countP_cons]
      have hc : List.countP (countsTotal (eStepRead ops fm ts cf g).transcripts i) rest
          = List.countP (countsTotal ts i) rest := by
        congr 1
        funext x
        exact countsTotal_congr ts _ hsame i x
      rw [hc]
      have hb : countsTotal ts i g
          = decide ((∃ a ∈ g, a.transcriptID = i) ∧ (ts i).mass ≠ LOG_0) := rfl
      by_cases hcond : (∃ a ∈ g, a.transcriptID = i) ∧ (ts i).mass ≠ LOG_0
      · rw [if_pos hcond, hb, decide_eq_true hcond]
        simp only [if_true]; omega
      · rw [if_neg hcond, hb, decide_eq_false hcond]
        simp
    · intro i
      rw [i4 i, (hr i).2.2, List.countP_cons]
      have hc : List.countP (countsUnique (eStepRead ops fm ts cf g).transcripts i) rest
          = List.countP (countsUnique ts i) rest := by
        congr 1
        funext x
        exact countsUnique_congr ts _ hsame i x
      rw [hc]
      have hb : countsUnique ts i g
          = decide (g ≠ [] ∧ readSum ts g ≠ LOG_0 ∧ allSame g = true ∧ i = firstID g) := rfl
      by_cases hcond : g ≠ [] ∧ readSum ts g ≠ LOG_0 ∧ allSame g = true ∧ i = firstID g
      · rw [if_pos hcond, hb, decide_eq_true hcond]
        simp only [if_true]; omega
      · rw [if_neg hcond, hb, decide_eq_false hcond]
        simp

/-! ## Theorems: the M-step -/

theorem mStep_foldl_apply (fm : LogVal K) (F : Nat → List (Alignment K)) (keys : List Nat)
    (hnd : keys.Nodup) :
    ∀ (ts : TranscriptTable K) (i : Nat),
      ((keys.map (fun t => (t, F t))).foldl (mStepTranscript fm) ts) i
        = if i ∈ keys then (ts i).addMass (fm + hitMassOf (F i)) else ts i := by
  induction keys with
  | nil => intro ts i; simp
  | cons k ks ih =>
    intro ts i
    rw [List.nodup_cons] at hnd
    rw [List.map_cons, List.foldl_cons, ih hnd.2]
    by_cases hik : i = k
    · subst hik
      simp [hnd.1, mStepTranscript]
    · simp [hik, mStepTranscript, Function.update_noteq hik]

/-- The M-step, transcript by transcript: a transcript named in the batch gets
one `addMass` of `logForgettingMass + hitMass`, any other transcript is left
alone. -/
theorem mStep_apply (fm : LogVal K) (batch : List (List (Alignment K)))
    (ts : TranscriptTable K) (i : Nat) :
    mStep fm batch ts i
      = if i ∈ batch.flatten.map (fun a => a.transcriptID) then
          (ts i).addMass
            (fm + hitMassOf (batch.flatten.filter (fun a => decide (a.transcriptID = i))))
        else ts i := by
  unfold mStep hitsForTranscript
  have hperm := List.perm_insertionSort (· ≤ ·)
    ((batch.flatten.map (fun a => a.transcriptID)).dedup)
  have hnd : (List.insertionSort (· ≤ ·)
      ((batch.flatten.map (fun a => a.transcriptID)).dedup)).Nodup :=
    hperm.nodup_iff.2 (List.nodup_dedup _)
  have hmem : i ∈ List.insertionSort (· ≤ ·)
      ((batch.flatten.map (fun a => a.transcriptID)).dedup)
        ↔ i ∈ batch.flatten.map (fun a => a.transcriptID) := by
    rw [hperm.mem_iff, List.mem_dedup]
  rw [mStep_foldl_apply fm
    (fun t => batch.flatten.filter (fun a => decide (a.transcriptID = t))) _ hnd ts i]
  by_cases h : i ∈ batch.flatten.map (fun a => a.transcriptID)
  · rw [if_pos h, if_pos (hmem.2 h)]
  · rw [if_neg h, if_neg (fun hc => h (hmem.1 hc))]

theorem normalizedRead_ids (ts : TranscriptTable K) (g : List (Alignment K)) :
    (normalizedRead ts g).map (fun a => a.transcriptID) = g.map (fun a => a.transcriptID) := by
  unfold normalizedRead rawProbs
  split <;> simp only [List.map_map] <;> rfl

theorem normalizedBatch_ids (ts : TranscriptTable K) (batch : List (List (Alignment K))) :
    (batch.map (normalizedRead ts)).flatten.map (fun a => a.transcriptID)
      = batch.flatten.map (fun a => a.transcriptID) := by
  induction batch with
  | nil => rfl
  | cons g rest ih =>
    simp only [List.map_cons, List.flatten_cons, List.map_append]
    rw [ih, normalizedRead_ids]

/-- The whole of `processMiniBatch`, transcript by transcript. -/
theorem processMiniBatch_spec (ops : ClusterForestOps K CF) (fm : LogVal K)
    (batch : List (List (Alignment K))) (ts : TranscriptTable K) (cf : CF) :
    (processMiniBatch ops fm batch ts cf).batchHits = batch.map (normalizedRead ts) ∧
    (processMiniBatch ops fm batch ts cf).clusterForest
      = (eStep ops fm ts cf batch).clusterForest ∧
    ∀ i,
      ((processMiniBatch ops fm batch ts cf).transcripts i).RefLength = (ts i).RefLength ∧
      ((processMiniBatch ops fm batch ts cf).transcripts i).sharedCount
        = (ts i).sharedCount ∧
      ((processMiniBatch ops fm batch ts cf).transcripts i).totalCount
        = (ts i).totalCount + batch.countP (countsTotal ts i) ∧
      ((processMiniBatch ops fm batch ts cf).transcripts i).uniqueCount
        = (ts i).uniqueCount + batch.countP (countsUnique ts i) ∧
      ((processMiniBatch ops fm batch ts cf).transcripts i).mass
        = if i ∈ batch.flatten.map (fun a => a.transcriptID) then
            logAdd (ts i).mass
              (fm + hitMassOf ((batch.map (normalizedRead ts)).flatten.filter
                (fun a => decide (a.transcriptID = i))))
          else (ts i).mass := by
  obtain ⟨e1, e2, e3, e4⟩ := eStep_spec ops fm batch ts cf
  refine ⟨e2, rfl, ?_⟩
  intro i
  have hm : (processMiniBatch ops fm batch ts cf).transcripts i
      = mStep fm (eStep ops fm ts cf batch).batchHits
          (eStep ops fm ts cf batch).transcripts i := rfl
  rw [hm, mStep_apply, e2, normalizedBatch_ids]
  by_cases h : i ∈ batch.flatten.map (fun a => a.transcriptID)
  · simp only [if_pos h, Transcript.addMass]
    exact ⟨(e1 i).2.1, (e1 i).2.2, e3 i, e4 i, by rw [(e1 i).1]⟩
  · simp only [if_neg h]
    exact ⟨(e1 i).2.1, (e1 i).2.2, e3 i, e4 i, (e1 i).1⟩

/-! ## Theorems: reads that leave no trace -/

theorem eStepRead_clusterForest_congr (ops : ClusterForestOps K CF) (fm : LogVal K)
    (ts ts' : TranscriptTable K) (h : ∀ i, SameMass (ts i) (ts' i)) (cf : CF)
    (g : List (Alignment K)) :
    (eStepRead ops fm ts' cf g).clusterForest = (eStepRead ops fm ts cf g).clusterForest := by
  rw [eStepRead_clusterForest, eStepRead_clusterForest, readSum_congr ts ts' h]

/-- The forest after the E-step: the reads' forest updates, in batch order,
each decided against the table the batch started from. -/
theorem eStep_clusterForest (ops : ClusterForestOps K CF) (fm : LogVal K)
    (batch : List (List (Alignment K))) :
    ∀ (ts : TranscriptTable K) (cf : CF),
      (eStep ops fm ts cf batch).clusterForest
        = batch.foldl (fun c g => (eStepRead ops fm ts c g).clusterForest) cf := by
  induction batch with
  | nil => intro ts cf; rfl
  | cons g rest ih =>
    intro ts cf
    have hsame : ∀ i, SameMass (ts i) ((eStepRead ops fm ts cf g).transcripts i) :=
      fun i => (eStepRead_transcripts ops fm ts cf g i).1
    simp only [eStep, List.foldl_cons]
    rw [ih]
    congr 1
    funext c x
    exact eStepRead_clusterForest_congr ops fm ts _ hsame c x

theorem normalizedRead_zero_mass (ts : TranscriptTable K) (z : List (Alignment K))
    (hz : ∀ a ∈ z, (ts a.transcriptID).mass = LOG_0) :
    ∀ a ∈ normalizedRead ts z, a.logProb = LOG_0 := by
  intro a ha
  unfold normalizedRead at ha
  rw [if_pos (readSum_of_zero_mass ts z hz)] at ha
  obtain ⟨b, hb, rfl⟩ := List.mem_map.1 ha
  exact logProbOf_zero_mass _ (hz b hb) b

/-- Every alignment of a transcript of mass `LOG_0` leaves the E-step with
`logProb = LOG_0`, whatever read it belongs to. -/
theorem normalizedRead_logProb_of_zero_mass (ts : TranscriptTable K)
    (g : List (Alignment K)) (a : Alignment K) (ha : a ∈ normalizedRead ts g)
    (hm : (ts a.transcriptID).mass = LOG_0) : a.logProb = LOG_0 := by
  unfold normalizedRead at ha
  split at ha
  · obtain ⟨b, _, rfl⟩ := List.mem_map.1 ha
    exact logProbOf_zero_mass _ hm b
  · obtain ⟨c, hc, rfl⟩ := List.mem_map.1 ha
    obtain ⟨b, _, rfl⟩ := List.mem_map.1 hc
    show logProbOf (ts b.transcriptID) b - readSum ts g = LOG_0
    rw [logProbOf_zero_mass _ hm b, LOG_0_sub]

theorem hitMassOf_filter_append (A B : List (Alignment K)) (p : Alignment K → Bool) :
    (hitMassOf ((A ++ B).filter p)).exp
      = (hitMassOf (A.filter p)).exp + (hitMassOf (B.filter p)).exp := by
  rw [hitMassOf_exp, hitMassOf_exp, hitMassOf_exp, List.filter_append, List.map_append,
    List.sum_append]

/-- A read all of whose alignments name transcripts of mass `LOG_0` (an empty
read among them) can be taken out of the batch: `processMiniBatch` ends with
the same transcript table and the same forest. -/
theorem processMiniBatch_drop_read (ops : ClusterForestOps K CF) (fm : LogVal K)
    (ts : TranscriptTable K) (cf : CF) (pre post : List (List (Alignment K)))
    (z : List (Alignment K)) (hz : ∀ a ∈ z, (ts a.transcriptID).mass = LOG_0) :
    (processMiniBatch ops fm (pre ++ z :: post) ts cf).transcripts
        = (processMiniBatch ops fm (pre ++ post) ts cf).transcripts ∧
      (processMiniBatch ops fm (pre ++ z :: post) ts cf).clusterForest
        = (processMiniBatch ops fm (pre ++ post) ts cf).clusterForest := by
  have hS : readSum ts z = LOG_0 := readSum_of_zero_mass ts z hz
  obtain ⟨_, f1, g1⟩ := processMiniBatch_spec ops fm (pre ++ z :: post) ts cf
  obtain ⟨_, f2, g2⟩ := processMiniBatch_spec ops fm (pre ++ post) ts cf
  constructor
  · funext i
    obtain ⟨a1, a2, a3, a4, a5⟩ := g1 i
    obtain ⟨b1, b2, b3, b4, b5⟩ := g2 i
    have hct : countsTotal ts i z = false := by
      unfold countsTotal
      rw [decide_eq_false_iff_not]
      rintro ⟨⟨a, ha, rfl⟩, hm⟩
      exact hm (hz a ha)
    have hcu : countsUnique ts i z = false := by
      unfold countsUnique
      rw [decide_eq_false_iff_not]
      rintro ⟨_, hne, _⟩
      exact hne hS
    have hzsum : (hitMassOf ((normalizedRead ts z).filter
        (fun a => decide (a.transcriptID = i)))).exp = 0 := by
      rw [← eq_LOG_0_iff]
      apply hitMassOf_all_LOG_0
      intro a ha
      exact normalizedRead_zero_mass ts z hz a (List.mem_of_mem_filter ha)
    have hmass : (hitMassOf (((pre ++ z :: post).map (normalizedRead ts)).flatten.filter
          (fun a => decide (a.transcriptID = i))))
        = hitMassOf (((pre ++ post).map (normalizedRead ts)).flatten.filter
          (fun a => decide (a.transcriptID = i))) := by
      rw [LogVal.ext_iff']
      simp only [List.map_append, List.map_cons, List.flatten_append, List.flatten_cons]
      rw [hitMassOf_filter_append, hitMassOf_filter_append, hitMassOf_filter_append, hzsum,
        zero_add]
    apply Transcript.ext
    · rw [a1, b1]
    · rw [a5, b5, hmass]
      by_cases hin : i ∈ (pre ++ post).flatten.map (fun a => a.transcriptID)
      · have hin' : i ∈ (pre ++ z :: post).flatten.map (fun a => a.transcriptID) := by
          simp only [List.flatten_append, List.flatten_cons, List.map_append,
            List.mem_append] at hin ⊢
          tauto
        rw [if_pos hin, if_pos hin']
      · rw [if_neg hin]
        by_cases hin' : i ∈ (pre ++ z :: post).flatten.map (fun a => a.transcriptID)
        · rw [if_pos hin']
          have hnone : ((pre ++ post).map (normalizedRead ts)).flatten.filter
              (fun a => decide (a.transcriptID = i)) = [] := by
            rw [List.filter_eq_nil_iff]
            intro a ha hc
            apply hin
            rw [← normalizedBatch_ids ts]
            exact List.mem_map.2 ⟨a, ha, by simpa using hc⟩
          rw [hnone]
          show logAdd (ts i).mass (fm + LOG_0) = (ts i).mass
          rw [add_LOG_0, logAdd_LOG_0_right]
        · rw [if_neg hin']
    · rw [a2, b2]
    · rw [a4, b4, List.countP_append, List.countP_append, List.countP_cons, hcu]
      simp
    · rw [a3, b3, List.countP_append, List.countP_append, List.countP_cons, hct]
      simp
  · rw [f1, f2, eStep_clusterForest, eStep_clusterForest, List.foldl_append,
      List.foldl_append, List.foldl_cons]
    congr 1
    rw [eStepRead_clusterForest, if_pos (Or.inr hS)]

/-! ## Theorems: the claims about the ambiguity gate and `processMiniBatch` -/

/-- C4.  Ambiguity gate: if the scoring block finds more than 100 candidates
for a read pair, the list left for the EM step is empty, the shared counts
(and with them the whole transcript table) are as before the pair, the E-step
iteration on that list changes neither table nor forest, and `processMiniBatch`
ends as it would without that read; with at most 100 candidates (100
included) the list is handed on unchanged. -/
theorem ambiguity_gate (ops : ClusterForestOps K CF) (fm : LogVal K)
    (leftFwdHits rightFwdHits : HitMap) (L R : Nat) (ts : TranscriptTable K) :
    (100 < (scoringBlock (K := K) leftFwdHits rightFwdHits L R).length →
      (mapReadPair leftFwdHits rightFwdHits L R ts).1 = [] ∧
      (mapReadPair leftFwdHits rightFwdHits L R ts).2 = ts ∧
      (∀ (ts' : TranscriptTable K) (cf : CF),
        (eStepRead ops fm ts' cf (mapReadPair leftFwdHits rightFwdHits L R ts).1).transcripts
            = ts' ∧
        (eStepRead ops fm ts' cf (mapReadPair leftFwdHits rightFwdHits L R ts).1).clusterForest
            = cf) ∧
      (∀ (pre post : List (List (Alignment K))) (ts' : TranscriptTable K) (cf : CF),
        (processMiniBatch ops fm
            (pre ++ (mapReadPair leftFwdHits rightFwdHits L R ts).1 :: post) ts' cf).transcripts
          = (processMiniBatch ops fm (pre ++ post) ts' cf).transcripts ∧
        (processMiniBatch ops fm
            (pre ++ (mapReadPair leftFwdHits rightFwdHits L R ts).1 :: post) ts' cf).clusterForest
          = (processMiniBatch ops fm (pre ++ post) ts' cf).clusterForest)) ∧
    ((scoringBlock (K := K) leftFwdHits rightFwdHits L R).length ≤ 100 →
      (mapReadPair leftFwdHits rightFwdHits L R ts).1
        = scoringBlock leftFwdHits rightFwdHits L R) := by
  constructor
  · intro hbig
    have hnil : (mapReadPair leftFwdHits rightFwdHits L R ts).1 = [] := by
      simp [mapReadPair, ambiguityGate, hbig]
    have hts : (mapReadPair leftFwdHits rightFwdHits L R ts).2 = ts := by
      simp [mapReadPair, ambiguityGate, hbig, addSharedCounts]
    refine ⟨hnil, hts, ?_, ?_⟩
    · intro ts' cf
      rw [hnil]
      exact ⟨rfl, rfl⟩
    · intro pre post ts' cf
      rw [hnil]
      exact processMiniBatch_drop_read ops fm ts' cf pre post [] (by intro a ha; cases ha)
  · intro hsmall
    simp [mapReadPair, ambiguityGate, Nat.not_lt.2 hsmall]

theorem ambiguity_gate_witness :
    100 < (scoringBlock (K := ℚ≥0) (oneHitEach 101) (oneHitEach 101) 20 20).length ∧
    (mapReadPair (oneHitEach 101) (oneHitEach 101) 20 20 unitTable).1 = [] ∧
    (mapReadPair (oneHitEach 101) (oneHitEach 101) 20 20 unitTable).2 = unitTable ∧
    (scoringBlock (K := ℚ≥0) (oneHitEach 100) (oneHitEach 100) 20 20).length ≤ 100 ∧
    (mapReadPair (oneHitEach 100) (oneHitEach 100) 20 20 unitTable).1
      = scoringBlock (oneHitEach 100) (oneHitEach 100) 20 20 :=
  ⟨by decide!,
    ((ambiguity_gate (callLog ℚ≥0) LOG_1 (oneHitEach 101) (oneHitEach 101) 20 20
      unitTable).1 (by decide!)).1,
    ((ambiguity_gate (callLog ℚ≥0) LOG_1 (oneHitEach 101) (oneHitEach 101) 20 20
      unitTable).1 (by decide!)).2.1,
    by decide!,
    (ambiguity_gate (callLog ℚ≥0) LOG_1 (oneHitEach 100) (oneHitEach 100) 20 20
      unitTable).2 (by decide!)⟩

theorem sum_map_div (l : List (Alignment K)) (f : Alignment K → K) (c : K) :
    (l.map (fun a => f a / c)).sum = (l.map f).sum / c := by
  induction l with
  | nil => simp
  | cons a l ih => simp [ih, add_div]

/-- C5.  Normalisation: for every batch and every read `g` of it whose E-step
sum `S` is not `LOG_0` (the read is then non-empty and not skipped), the
alignments `processMiniBatch` leaves for that read carry the same transcripts
and have `logsumexp` of their `logProb` equal to `LOG_1 = 0`: the exponentials
of their `logProb` add up to 1. -/
theorem eStep_normalization (ops : ClusterForestOps K CF) (fm : LogVal K)
    (batch : List (List (Alignment K))) (ts : TranscriptTable K) (cf : CF)
    (n : Nat) (g : List (Alignment K)) (hg : batch[n]? = some g)
    (hS : readSum ts g ≠ LOG_0) :
    g ≠ [] ∧
    ∃ out, (processMiniBatch ops fm batch ts cf).batchHits[n]? = some out ∧
      out.map (fun a => a.transcriptID) = g.map (fun a => a.transcriptID) ∧
      hitMassOf out = LOG_1 ∧
      (out.map (fun a => a.logProb.exp)).sum = 1 := by
  have hne : g ≠ [] := by
    rintro rfl
    exact hS rfl
  refine ⟨hne, normalizedRead ts g, ?_, normalizedRead_ids ts g, ?_⟩
  · rw [(processMiniBatch_spec ops fm batch ts cf).1, List.getElem?_map, hg]
    rfl
  · have hsum : (hitMassOf (normalizedRead ts g)).exp = 1 := by
      unfold normalizedRead
      rw [if_neg hS, hitMassOf_exp, List.map_map]
      have hfun : ((fun a : Alignment K => a.logProb.exp) ∘
          fun a : Alignment K => { a with logProb := a.logProb - readSum ts g })
            = fun a : Alignment K => a.logProb.exp / (readSum ts g).exp := by
        funext a; rfl
      rw [hfun, sum_map_div, ← hitMassOf_exp, ← (alnLoop_spec ts g).2.2.2.2.1]
      exact div_self (fun h => hS ((eq_LOG_0_iff _).2 h))
    refine ⟨?_, ?_⟩
    · rw [LogVal.ext_iff', hsum]; rfl
    · rw [← hitMassOf_exp]; exact hsum

theorem eStep_normalization_witness :
    ([[Alignment.new 0 2, Alignment.new 1 1]] : List (List (Alignment ℚ≥0)))[0]?
        = some [Alignment.new 0 2, Alignment.new 1 1] ∧
    readSum unitTable [Alignment.new 0 2, Alignment.new 1 1] ≠ LOG_0 ∧
    ([Alignment.new 0 2, Alignment.new 1 1] : List (Alignment ℚ≥0)) ≠ [] ∧
    ∃ out, (processMiniBatch (callLog ℚ≥0) LOG_1 [[Alignment.new 0 2, Alignment.new 1 1]]
        unitTable []).batchHits[0]? = some out ∧
      out.map (fun a => a.transcriptID)
        = [Alignment.new (K := ℚ≥0) 0 2, Alignment.new 1 1].map (fun a => a.transcriptID) ∧
      hitMassOf out = LOG_1 ∧
      (out.map (fun a => a.logProb.exp)).sum = 1 :=
  ⟨rfl, by decide!,
    eStep_normalization (callLog ℚ≥0) LOG_1 [[Alignment.new 0 2, Alignment.new 1 1]]
      unitTable [] 0 [Alignment.new 0 2, Alignment.new 1 1] rfl (by decide!)⟩

/-- C6.  M-step: for every batch and every transcript `T` with at least one
alignment in it, the E-step leaves `T`'s mass as it read it, and after
`processMiniBatch` the mass of `T` is `logAdd old (logForgettingMass +
hitMass)`, a single `logAdd`, where `hitMass` is the `logAdd` over the
`logProb` the E-step left in all of `T`'s alignments of the batch (in
exponentials: the old mass plus `exp logForgettingMass` times the sum of the
exponentials of those `logProb`). -/
theorem mStep_log_mass (ops : ClusterForestOps K CF) (fm : LogVal K)
    (batch : List (List (Alignment K))) (ts : TranscriptTable K) (cf : CF) (T : Nat)
    (hT : ∃ g ∈ batch, ∃ a ∈ g, a.transcriptID = T) :
    ((eStep ops fm ts cf batch).transcripts T).mass = (ts T).mass ∧
    ((processMiniBatch ops fm batch ts cf).transcripts T).mass
      = logAdd (ts T).mass
          (fm + hitMassOf ((processMiniBatch ops fm batch ts cf).batchHits.flatten.filter
            (fun a => decide (a.transcriptID = T)))) ∧
    ((processMiniBatch ops fm batch ts cf).transcripts T).mass.exp
      = (ts T).mass.exp
        + fm.exp * (((processMiniBatch ops fm batch ts cf).batchHits.flatten.filter
            (fun a => decide (a.transcriptID = T))).map (fun a => a.logProb.exp)).sum := by
  obtain ⟨g, hg, a, ha, rfl⟩ := hT
  have hin : a.transcriptID ∈ batch.flatten.map (fun a => a.transcriptID) :=
    List.mem_map.2 ⟨a, List.mem_flatten.2 ⟨g, hg, ha⟩, rfl⟩
  obtain ⟨p1, _, p3⟩ := processMiniBatch_spec ops fm batch ts cf
  have hmass := (p3 a.transcriptID).2.2.2.2
  rw [if_pos hin, ← p1] at hmass
  refine ⟨((eStep_spec ops fm batch ts cf).1 a.transcriptID).1, hmass, ?_⟩
  rw [hmass, logAdd_exp, add_exp, hitMassOf_exp]

theorem mStep_log_mass_witness :
    (∃ g ∈ ([[Alignment.new 0 2, Alignment.new 1 1]] : List (List (Alignment ℚ≥0))),
      ∃ a ∈ g, a.transcriptID = 0) ∧
    ((processMiniBatch (callLog ℚ≥0) LOG_1 [[Alignment.new 0 2, Alignment.new 1 1]]
        unitTable []).transcripts 0).mass.exp
      = (unitTable 0).mass.exp
        + (LOG_1 : LogVal ℚ≥0).exp *
          (((processMiniBatch (callLog ℚ≥0) LOG_1 [[Alignment.new 0 2, Alignment.new 1 1]]
            unitTable []).batchHits.flatten.filter
              (fun a => decide (a.transcriptID = 0))).map (fun a => a.logProb.exp)).sum :=
  ⟨⟨_, List.mem_singleton.2 rfl, _, List.mem_cons_self _ _, rfl⟩,
    (mStep_log_mass (callLog ℚ≥0) LOG_1 [[Alignment.new 0 2, Alignment.new 1 1]]
      unitTable [] 0 ⟨_, List.mem_singleton.2 rfl, _, List.mem_cons_self _ _, rfl⟩).2.2⟩

/-- C7, as stated, fails: a read whose only alignment names transcript 7 is
given to the E-step while transcript 7 has mass `LOG_0`; the read is non-empty
and names transcript 7, yet `totalCount` of transcript 7 stays 0. -/
theorem eStep_totalCount_zero_mass :
    ([Alignment.new 7 50] : List (Alignment ℚ≥0)) ≠ [] ∧
    (∃ a ∈ ([Alignment.new 7 50] : List (Alignment ℚ≥0)), a.transcriptID = 7) ∧
    (zeroTable 7).totalCount = 0 ∧
    ((eStepRead (callLog ℚ≥0) LOG_1 zeroTable [] [Alignment.new 7 50]).transcripts 7).totalCount
      ≠ (zeroTable 7).totalCount + 1 := by
  decide!

/-- C7, amended.  For every read, the E-step iteration adds exactly 1 to
`totalCount` of each distinct transcript that appears among the read's
alignments and whose mass is not `LOG_0` (once, however many alignments name
it), and 0 to every other transcript: one not named by the read, or one whose
mass is `LOG_0`. -/
theorem eStep_totalCount (ops : ClusterForestOps K CF) (fm : LogVal K)
    (ts : TranscriptTable K) (cf : CF) (alnGroup : List (Alignment K)) (i : Nat) :
    ((eStepRead ops fm ts cf alnGroup).transcripts i).totalCount
      = (ts i).totalCount
        + (if (∃ a ∈ alnGroup, a.transcriptID = i) ∧ (ts i).mass ≠ LOG_0 then 1 else 0) :=
  (eStepRead_transcripts ops fm ts cf alnGroup i).2.1

end EStepLemmas

section CanonicalLemmas
variable {K : Type} [CanonicallyLinearOrderedSemifield K] {CF : Type}

theorem logProbOf_ne_LOG_0 (t : Transcript K) (a : Alignment K) (hm : t.mass ≠ LOG_0)
    (hk : a.kmerCount ≠ 0) : logProbOf t a ≠ LOG_0 := by
  intro h
  rw [eq_LOG_0_iff] at h
  unfold logProbOf at h
  rw [if_pos hm, add_exp, sub_exp, log_exp, log_exp] at h
  have hm' : t.mass.exp ≠ 0 := fun hc => hm ((eq_LOG_0_iff _).2 hc)
  have hk' : ((a.kmerCount : K)) ^ 2 ≠ 0 := pow_ne_zero 2 (Nat.cast_ne_zero.2 hk)
  have hlen : (if t.RefLength > 0 then (t.RefLength : K) else 1) ≠ 0 := by
    split
    · next hpos => exact Nat.cast_ne_zero.2 (Nat.pos_iff_ne_zero.1 hpos)
    · exact one_ne_zero
  rcases mul_eq_zero.1 h with h1 | h2
  · exact hk' h1
  · rcases div_eq_zero_iff.1 h2 with h3 | h4
    · exact hm' h3
    · exact hlen h4

/-- With non-negative exponentials the E-step sum is `LOG_0` only if every
alignment's value is `LOG_0`. -/
theorem readSum_eq_LOG_0_iff (ts : TranscriptTable K) (alns : List (Alignment K)) :
    readSum ts alns = LOG_0 ↔ ∀ a ∈ alns, logProbOf (ts a.transcriptID) a = LOG_0 := by
  rw [(alnLoop_spec ts alns).2.2.2.2.1, eq_LOG_0_iff, hitMassOf_exp, List.sum_eq_zero_iff]
  unfold rawProbs
  simp only [List.map_map, List.mem_map, Function.comp]
  constructor
  · intro h a ha
    rw [eq_LOG_0_iff]
    exact h _ ⟨a, ha, rfl⟩
  · rintro h x ⟨a, ha, rfl⟩
    exact (eq_LOG_0_iff _).1 (h a ha)

/-- Without a positive `kmerCount` the E-step sum can be `LOG_0` on a
transcript that has mass: the only alignment of the read names transcript 5,
whose mass is `LOG_1`, with `kmerCount = 0`, a value the mapper never hands
over (`mapper_kmerCount_pos`); the read is skipped, yet `totalCount` of
transcript 5 has been incremented. -/
theorem skipped_read_counts_total :
    readSum unitTable [(⟨5, 0, LOG_0⟩ : Alignment ℚ≥0)] = LOG_0 ∧
    (unitTable 5).totalCount = 0 ∧
    ((eStepRead (callLog ℚ≥0) LOG_1 unitTable [] [⟨5, 0, LOG_0⟩]).transcripts 5).totalCount
      = 1 := by
  decide!

/-- What a read all of whose alignments name a transcript of mass `LOG_0`
leaves behind: its E-step sum is `LOG_0`, the E-step iteration returns the
table and the forest unchanged and leaves `LOG_0` in every `logProb`,
`processMiniBatch` ends with the table and the forest it would end with if
the read were not in the batch, and the mass of every transcript the read
names is unchanged by the batch. -/
theorem zero_mass_read_effects (ops : ClusterForestOps K CF) (fm : LogVal K)
    (ts : TranscriptTable K) (z : List (Alignment K))
    (hz : ∀ a ∈ z, (ts a.transcriptID).mass = LOG_0) :
    readSum ts z = LOG_0 ∧
    (∀ cf : CF,
      (eStepRead ops fm ts cf z).transcripts = ts ∧
      (eStepRead ops fm ts cf z).clusterForest = cf ∧
      (eStepRead ops fm ts cf z).alnGroup = z.map (fun a => { a with logProb := LOG_0 })) ∧
    (∀ (pre post : List (List (Alignment K))) (cf : CF),
      (processMiniBatch ops fm (pre ++ z :: post) ts cf).transcripts
        = (processMiniBatch ops fm (pre ++ post) ts cf).transcripts ∧
      (processMiniBatch ops fm (pre ++ z :: post) ts cf).clusterForest
        = (processMiniBatch ops fm (pre ++ post) ts cf).clusterForest ∧
      ∀ a ∈ z, ((processMiniBatch ops fm (pre ++ z :: post) ts cf).transcripts
        a.transcriptID).mass = (ts a.transcriptID).mass) := by
  have hS := readSum_of_zero_mass ts z hz
  refine ⟨hS, ?_, ?_⟩
  · intro cf
    refine ⟨?_, ?_, ?_⟩
    · funext i
      obtain ⟨h1, h2, h3⟩ := eStepRead_transcripts ops fm ts cf z i
      apply Transcript.ext
      · exact h1.2.1
      · exact h1.1
      · exact h1.2.2
      · rw [h3, if_neg (fun hc => hc.2.1 hS), add_zero]
      · rw [h2, if_neg, add_zero]
        rintro ⟨⟨a, ha, rfl⟩, hm⟩
        exact hm (hz a ha)
    · rw [eStepRead_clusterForest, if_pos (Or.inr hS)]
    · rw [eStepRead_alnGroup, if_pos hS]
      unfold rawProbs
      apply List.map_congr_left
      intro a ha
      rw [logProbOf_zero_mass _ (hz a ha)]
  · intro pre post cf
    obtain ⟨d1, d2⟩ := processMiniBatch_drop_read ops fm ts cf pre post z hz
    refine ⟨d1, d2, ?_⟩
    intro a ha
    have hspec := ((processMiniBatch_spec ops fm (pre ++ z :: post) ts cf).2.2
      a.transcriptID).2.2.2.2
    rw [hspec]
    split
    · have hall : hitMassOf (((pre ++ z :: post).map (normalizedRead ts)).flatten.filter
          (fun b => decide (b.transcriptID = a.transcriptID))) = LOG_0 := by
        apply hitMassOf_all_LOG_0
        intro b hb
        rw [List.mem_filter] at hb
        obtain ⟨g', hg', hbg⟩ := List.mem_flatten.1 hb.1
        obtain ⟨g, _, rfl⟩ := List.mem_map.1 hg'
        have hid : b.transcriptID = a.transcriptID := by simpa using hb.2
        exact normalizedRead_logProb_of_zero_mass ts g b hbg (by rw [hid]; exact hz a ha)
      rw [hall, add_LOG_0, logAdd_LOG_0_right]
    · rfl

/-- C8.  Zero-probability read: for every read whose alignments have a positive
`kmerCount` (as every alignment the mapper hands to the EM step has,
`mapper_kmerCount_pos`), the E-step sum `S` is `LOG_0` exactly when every
alignment names a transcript whose mass is `LOG_0`, and when `S` is `LOG_0`,
`processMiniBatch` skips the read: the E-step iteration returns the table
(every `totalCount` and `uniqueCount`) and the forest (no merge, no update)
unchanged and leaves `LOG_0` in every `logProb`, `processMiniBatch` ends with
the table and the forest it would end with if the read were not in the batch,
and the mass of every transcript the read names is unchanged by the batch. -/
theorem zero_mass_read_skipped (ops : ClusterForestOps K CF) (fm : LogVal K)
    (ts : TranscriptTable K) (z : List (Alignment K))
    (hpos : ∀ a ∈ z, 0 < a.kmerCount) :
    (readSum ts z = LOG_0 ↔ ∀ a ∈ z, (ts a.transcriptID).mass = LOG_0) ∧
    (readSum ts z = LOG_0 →
      (∀ cf : CF,
        (eStepRead ops fm ts cf z).transcripts = ts ∧
        (eStepRead ops fm ts cf z).clusterForest = cf ∧
        (eStepRead ops fm ts cf z).alnGroup = z.map (fun a => { a with logProb := LOG_0 })) ∧
      (∀ (pre post : List (List (Alignment K))) (cf : CF),
        (processMiniBatch ops fm (pre ++ z :: post) ts cf).transcripts
          = (processMiniBatch ops fm (pre ++ post) ts cf).transcripts ∧
        (processMiniBatch ops fm (pre ++ z :: post) ts cf).clusterForest
          = (processMiniBatch ops fm (pre ++ post) ts cf).clusterForest ∧
        ∀ a ∈ z, ((processMiniBatch ops fm (pre ++ z :: post) ts cf).transcripts
          a.transcriptID).mass = (ts a.transcriptID).mass)) := by
  have hzero : readSum ts z = LOG_0 → ∀ a ∈ z, (ts a.transcriptID).mass = LOG_0 := by
    intro hS a ha
    by_contra hm
    exact logProbOf_ne_LOG_0 _ a hm (Nat.pos_iff_ne_zero.1 (hpos a ha))
      ((readSum_eq_LOG_0_iff ts z).1 hS a ha)
  refine ⟨⟨hzero, readSum_of_zero_mass ts z⟩, ?_⟩
  intro hS
  exact (zero_mass_read_effects ops fm ts z (hzero hS)).2

theorem zero_mass_read_skipped_witness :
    (∀ a ∈ ([Alignment.new 7 50, Alignment.new 8 60] : List (Alignment ℚ≥0)),
      0 < a.kmerCount) ∧
    readSum zeroTable [Alignment.new 7 50, Alignment.new 8 60] = LOG_0 ∧
    (∀ a ∈ ([Alignment.new 7 50, Alignment.new 8 60] : List (Alignment ℚ≥0)),
      (zeroTable a.transcriptID).mass = LOG_0) ∧
    (eStepRead (callLog ℚ≥0) LOG_1 zeroTable []
        [Alignment.new 7 50, Alignment.new 8 60]).transcripts = zeroTable ∧
    (eStepRead (callLog ℚ≥0) LOG_1 zeroTable []
        [Alignment.new 7 50, Alignment.new 8 60]).clusterForest = [] :=
  ⟨by decide!, by decide!,
    (zero_mass_read_skipped (callLog ℚ≥0) LOG_1 zeroTable
      [Alignment.new 7 50, Alignment.new 8 60] (by decide!)).1.1 (by decide!),
    (((zero_mass_read_skipped (callLog ℚ≥0) LOG_1 zeroTable
      [Alignment.new 7 50, Alignment.new 8 60] (by decide!)).2 (by decide!)).1 []).1,
    (((zero_mass_read_skipped (callLog ℚ≥0) LOG_1 zeroTable
      [Alignment.new 7 50, Alignment.new 8 60] (by decide!)).2 (by decide!)).1 []).2.1⟩

end CanonicalLemmas



/-! ## Theorems: the counter invariants -/

section CounterInvariants
variable {K : Type} [LinearOrderedSemifield K] {CF : Type}

/-- A read that counts for `uniqueCount` of a transcript counts for its
`totalCount`. -/
theorem countsTotal_of_countsUnique (ts : TranscriptTable K) (i : Nat)
    (g : List (Alignment K)) (h : countsUnique ts i g = true) : countsTotal ts i g = true := by
  unfold countsUnique at h
  unfold countsTotal
  rw [decide_eq_true_iff] at h ⊢
  obtain ⟨hne, hS, hall, hi⟩ := h
  have hall' : ∀ a ∈ g, a.transcriptID = firstID g := by
    intro a ha
    have := List.all_eq_true.1 hall a ha
    simpa using this
  constructor
  · cases g with
    | nil => exact absurd rfl hne
    | cons first rest => exact ⟨first, List.mem_cons_self _ _, hi.symm⟩
  · intro hm
    apply hS
    apply readSum_of_zero_mass
    intro a ha
    rw [hall' a ha, ← hi]
    exact hm

theorem processBatches_invariant (ops : ClusterForestOps K CF)
    (batches : List (LogVal K × List (List (Alignment K)))) :
    ∀ (ts : TranscriptTable K) (cf : CF),
      (∀ i, (ts i).uniqueCount ≤ (ts i).totalCount) →
      ∀ i, ((processBatches ops batches ts cf).1 i).uniqueCount
        ≤ ((processBatches ops batches ts cf).1 i).totalCount := by
  induction batches with
  | nil => intro ts cf h i; exact h i
  | cons b rest ih =>
    intro ts cf h
    obtain ⟨fm, batch⟩ := b
    simp only [processBatches]
    apply ih
    intro i
    obtain ⟨_, _, h3, h4, _⟩ := (processMiniBatch_spec ops fm batch ts cf).2.2 i
    rw [h3, h4]
    have hmono : batch.countP (countsUnique ts i) ≤ batch.countP (countsTotal ts i) :=
      List.countP_mono_left (fun g _ hg => countsTotal_of_countsUnique ts i g hg)
    have := h i
    omega

/-- C9.  Invariant `unique_count ≤ total_count`: if it holds for every
transcript before `processMiniBatch`, it holds for every transcript afterwards;
hence it holds after any sequence of batches run from a table whose counters
are all zero. -/
theorem unique_le_total (ops : ClusterForestOps K CF) :
    (∀ (fm : LogVal K) (batch : List (List (Alignment K))) (ts : TranscriptTable K) (cf : CF),
      (∀ i, (ts i).uniqueCount ≤ (ts i).totalCount) →
      ∀ i, ((processMiniBatch ops fm batch ts cf).transcripts i).uniqueCount
        ≤ ((processMiniBatch ops fm batch ts cf).transcripts i).totalCount) ∧
    (∀ (batches : List (LogVal K × List (List (Alignment K)))) (ts : TranscriptTable K)
        (cf : CF),
      (∀ i, (ts i).uniqueCount = 0 ∧ (ts i).totalCount = 0) →
      ∀ i, ((processBatches ops batches ts cf).1 i).uniqueCount
        ≤ ((processBatches ops batches ts cf).1 i).totalCount) := by
  constructor
  · intro fm batch ts cf h i
    exact processBatches_invariant ops [(fm, batch)] ts cf h i
  · intro batches ts cf h0 i
    apply processBatches_invariant ops batches ts cf
    intro k
    rw [(h0 k).1, (h0 k).2]

theorem unique_le_total_witness :
    (∀ i, (unitTable i).uniqueCount ≤ (unitTable i).totalCount) ∧
    (∀ i, (unitTable i).uniqueCount = 0 ∧ (unitTable i).totalCount = 0) ∧
    (∀ i, ((processMiniBatch (callLog ℚ≥0) LOG_1
        [[Alignment.new 0 2, Alignment.new 1 1], [Alignment.new 1 3]]
        unitTable []).transcripts i).uniqueCount
      ≤ ((processMiniBatch (callLog ℚ≥0) LOG_1
        [[Alignment.new 0 2, Alignment.new 1 1], [Alignment.new 1 3]]
        unitTable []).transcripts i).totalCount) ∧
    (∀ i, ((processBatches (callLog ℚ≥0)
        [(LOG_1, [[Alignment.new 0 2, Alignment.new 1 1]]), (LOG_1, [[Alignment.new 1 3]])]
        unitTable []).1 i).uniqueCount
      ≤ ((processBatches (callLog ℚ≥0)
        [(LOG_1, [[Alignment.new 0 2, Alignment.new 1 1]]), (LOG_1, [[Alignment.new 1 3]])]
        unitTable []).1 i).totalCount) :=
  ⟨fun _ => le_refl _, fun _ => ⟨rfl, rfl⟩,
    (unique_le_total (callLog ℚ≥0)).1 LOG_1
      [[Alignment.new 0 2, Alignment.new 1 1], [Alignment.new 1 3]] unitTable []
      (fun _ => le_refl _),
    (unique_le_total (callLog ℚ≥0)).2
      [(LOG_1, [[Alignment.new 0 2, Alignment.new 1 1]]), (LOG_1, [[Alignment.new 1 3]])]
      unitTable [] (fun _ => ⟨rfl, rfl⟩)⟩

end CounterInvariants

section UniqueDominance
variable {K : Type} [CanonicallyLinearOrderedSemifield K] {CF : Type}

/-- A read that names only `T`, with some `kmerCount` other than 0, counts for
`uniqueCount` of `T` whenever it counts for `totalCount` of `T`. -/
theorem countsUnique_of_countsTotal (ts : TranscriptTable K) (T : Nat)
    (g : List (Alignment K)) (hall : ∀ a ∈ g, a.transcriptID = T)
    (hk : ∃ a ∈ g, a.kmerCount ≠ 0) (h : countsTotal ts T g = true) :
    countsUnique ts T g = true := by
  unfold countsTotal at h
  unfold countsUnique
  rw [decide_eq_true_iff] at h ⊢
  obtain ⟨_, hm⟩ := h
  obtain ⟨a, ha, hka⟩ := hk
  have hne : g ≠ [] := List.ne_nil_of_mem ha
  have hfirst : firstID g = T := by
    cases g with
    | nil => exact absurd rfl hne
    | cons first rest => exact hall first (List.mem_cons_self _ _)
  refine ⟨hne, ?_, ?_, hfirst.symm⟩
  · intro hS
    have := (readSum_eq_LOG_0_iff ts g).1 hS a ha
    rw [hall a ha] at this
    exact logProbOf_ne_LOG_0 _ a hm hka this
  · unfold allSame
    rw [List.all_eq_true]
    intro b hb
    rw [hfirst, hall b hb]
    simp

theorem processBatches_unique_eq_total (ops : ClusterForestOps K CF) (T : Nat)
    (batches : List (LogVal K × List (List (Alignment K)))) :
    ∀ (ts : TranscriptTable K) (cf : CF),
      (ts T).uniqueCount = (ts T).totalCount →
      (∀ b ∈ batches, ∀ g ∈ b.2, (∃ a ∈ g, a.transcriptID = T) →
        (∀ a ∈ g, a.transcriptID = T) ∧ ∃ a ∈ g, a.kmerCount ≠ 0) →
      ((processBatches ops batches ts cf).1 T).uniqueCount
        = ((processBatches ops batches ts cf).1 T).totalCount := by
  induction batches with
  | nil => intro ts cf h _; exact h
  | cons b rest ih =>
    intro ts cf h hb
    obtain ⟨fm, batch⟩ := b
    simp only [processBatches]
    apply ih
    · obtain ⟨_, _, h3, h4, _⟩ := (processMiniBatch_spec ops fm batch ts cf).2.2 T
      rw [h3, h4, h]
      congr 1
      apply List.countP_congr
      intro g hg
      constructor
      · exact countsTotal_of_countsUnique ts T g
      · intro hct
        have hnamed : ∃ a ∈ g, a.transcriptID = T := by
          unfold countsTotal at hct
          exact (decide_eq_true_iff.1 hct).1
        obtain ⟨hall, hk⟩ := hb (fm, batch) (List.mem_cons_self _ _) g hg hnamed
        exact countsUnique_of_countsTotal ts T g hall hk hct
    · intro b' hb'
      exact hb b' (List.mem_cons_of_mem _ hb')

/-- Without a positive `kmerCount` the two counters can part: the only read of
the batch has transcript 3 as the transcript of all its alignments, with
`kmerCount = 0`, a value the mapper never hands over
(`mapper_kmerCount_pos`); the counters of transcript 3 start at 0, and after
`processMiniBatch` its `uniqueCount` is 0 while its `totalCount` is 1 (the
read is skipped after `totalCount` has been incremented). -/
theorem kmerCount_zero_parts_counters :
    (∀ g ∈ ([[⟨3, 0, LOG_0⟩]] : List (List (Alignment ℚ≥0))),
      (∃ a ∈ g, a.transcriptID = 3) → ∀ a ∈ g, a.transcriptID = 3) ∧
    (unitTable 3).uniqueCount = 0 ∧ (unitTable 3).totalCount = 0 ∧
    ((processMiniBatch (callLog ℚ≥0) LOG_1 [[⟨3, 0, LOG_0⟩]] unitTable []).transcripts
      3).uniqueCount = 0 ∧
    ((processMiniBatch (callLog ℚ≥0) LOG_1 [[⟨3, 0, LOG_0⟩]] unitTable []).transcripts
      3).totalCount = 1 := by
  decide!

/-- C10.  Unique dominance: for every transcript `T` and every sequence of
batches of alignments with a positive `kmerCount` (as every alignment the
mapper hands to the EM step has, `mapper_kmerCount_pos`) in which each read
that has an alignment to `T` has `T` as the transcript of all of its
alignments, starting from `uniqueCount(T) = totalCount(T) = 0` the two
counters of `T` are equal after every `processMiniBatch` call of the
sequence. -/
theorem unique_dominance (ops : ClusterForestOps K CF) (T : Nat)
    (batches : List (LogVal K × List (List (Alignment K)))) (ts : TranscriptTable K) (cf : CF)
    (h0 : (ts T).uniqueCount = 0 ∧ (ts T).totalCount = 0)
    (hpos : ∀ b ∈ batches, ∀ g ∈ b.2, ∀ a ∈ g, 0 < a.kmerCount)
    (hb : ∀ b ∈ batches, ∀ g ∈ b.2, (∃ a ∈ g, a.transcriptID = T) →
      ∀ a ∈ g, a.transcriptID = T)
    (n : Nat) :
    ((processBatches ops (batches.take n) ts cf).1 T).uniqueCount
      = ((processBatches ops (batches.take n) ts cf).1 T).totalCount := by
  apply processBatches_unique_eq_total ops T (batches.take n) ts cf
  · rw [h0.1, h0.2]
  · intro b hbm g hg hnamed
    have hbm' := List.mem_of_mem_take hbm
    obtain ⟨a, ha, hat⟩ := hnamed
    exact ⟨hb b hbm' g hg ⟨a, ha, hat⟩,
      a, ha, Nat.pos_iff_ne_zero.1 (hpos b hbm' g hg a ha)⟩

theorem unique_dominance_witness :
    ((unitTable 1).uniqueCount = 0 ∧ (unitTable 1).totalCount = 0) ∧
    (∀ b ∈ ([(LOG_1, [[Alignment.new 1 3, Alignment.new 1 4], [Alignment.new 0 2]]),
        (LOG_1, [[Alignment.new 1 3]])] : List (LogVal ℚ≥0 × List (List (Alignment ℚ≥0)))),
      ∀ g ∈ b.2, ∀ a ∈ g, 0 < a.kmerCount) ∧
    (∀ b ∈ ([(LOG_1, [[Alignment.new 1 3, Alignment.new 1 4], [Alignment.new 0 2]]),
        (LOG_1, [[Alignment.new 1 3]])] : List (LogVal ℚ≥0 × List (List (Alignment ℚ≥0)))),
      ∀ g ∈ b.2, (∃ a ∈ g, a.transcriptID = 1) → ∀ a ∈ g, a.transcriptID = 1) ∧
    ((processBatches (callLog ℚ≥0)
        (([(LOG_1, [[Alignment.new 1 3, Alignment.new 1 4], [Alignment.new 0 2]]),
          (LOG_1, [[Alignment.new 1 3]])] :
            List (LogVal ℚ≥0 × List (List (Alignment ℚ≥0)))).take 2)
        unitTable []).1 1).uniqueCount
      = ((processBatches (callLog ℚ≥0)
        (([(LOG_1, [[Alignment.new 1 3, Alignment.new 1 4], [Alignment.new 0 2]]),
          (LOG_1, [[Alignment.new 1 3]])] :
            List (LogVal ℚ≥0 × List (List (Alignment ℚ≥0)))).take 2)
        unitTable []).1 1).totalCount :=
  ⟨⟨rfl, rfl⟩, by decide!, by decide!,
    unique_dominance (callLog ℚ≥0) 1
      [(LOG_1, [[Alignment.new 1 3, Alignment.new 1 4], [Alignment.new 0 2]]),
        (LOG_1, [[Alignment.new 1 3]])]
      unitTable [] ⟨rfl, rfl⟩ (by decide!) (by decide!) 2⟩

end UniqueDominance

/-! ## Theorems: the vote rules and the untouched state -/

/-- C17.  Implied-read-start rule: for every transcript offset `t` and read
position `r`, `addVote t r` appends exactly one vote `(transcriptPos, r)` with
`transcriptPos = 0` if `r > t` and `t - r` otherwise, and `addVoteRC t r`
appends exactly one vote `(transcriptPos, r)` with `transcriptPos = 0` if
`r > t` and `t + r` otherwise, the sum being the 32-bit unsigned one (it is
`t + r` itself whenever that is below `2 ^ 32`); the votes already in the list
and the two best-hit fields stay as they were. -/
theorem addVote_rule (h : TranscriptHitList) (t r : Nat) :
    (h.addVote t r).votes = h.votes ++ [⟨if r > t then 0 else t - r, r⟩] ∧
    (h.addVoteRC t r).votes = h.votes ++ [⟨if r > t then 0 else (t + r) % 2 ^ 32, r⟩] ∧
    (t + r < 2 ^ 32 →
      (h.addVoteRC t r).votes = h.votes ++ [⟨if r > t then 0 else t + r, r⟩]) ∧
    (h.addVote t r).votes.take h.votes.length = h.votes ∧
    (h.addVoteRC t r).votes.take h.votes.length = h.votes ∧
    (h.addVote t r).votes.length = h.votes.length + 1 ∧
    (h.addVoteRC t r).votes.length = h.votes.length + 1 ∧
    (h.addVote t r).bestHitPos = h.bestHitPos ∧
    (h.addVote t r).bestHitScore = h.bestHitScore ∧
    (h.addVoteRC t r).bestHitPos = h.bestHitPos ∧
    (h.addVoteRC t r).bestHitScore = h.bestHitScore := by
  refine ⟨rfl, rfl, ?_, ?_, ?_, ?_, ?_, rfl, rfl, rfl, rfl⟩
  · intro hlt
    show h.votes ++ [⟨if r > t then 0 else u32 (t + r), r⟩] = _
    rw [show u32 (t + r) = t + r from Nat.mod_eq_of_lt hlt]
  · show (h.votes ++ _).take h.votes.length = h.votes
    simp
  · show (h.votes ++ _).take h.votes.length = h.votes
    simp
  · show (h.votes ++ _).length = _
    simp
  · show (h.votes ++ _).length = _
    simp

section ZeroHits
variable {K : Type} [LinearOrderedSemifield K] {CF : Type}

theorem countsTotal_unnamed (ts : TranscriptTable K) (i : Nat) (g : List (Alignment K))
    (h : ∀ a ∈ g, a.transcriptID ≠ i) : countsTotal ts i g = false := by
  unfold countsTotal
  rw [decide_eq_false_iff_not]
  rintro ⟨⟨a, ha, hai⟩, _⟩
  exact h a ha hai

theorem countsUnique_unnamed (ts : TranscriptTable K) (i : Nat) (g : List (Alignment K))
    (h : ∀ a ∈ g, a.transcriptID ≠ i) : countsUnique ts i g = false := by
  unfold countsUnique
  rw [decide_eq_false_iff_not]
  rintro ⟨hne, _, _, hi⟩
  cases g with
  | nil => exact hne rfl
  | cons a rest => exact h a (List.mem_cons_self _ _) hi.symm

/-- A transcript that no alignment of the batch names keeps its whole record. -/
theorem processMiniBatch_unnamed (ops : ClusterForestOps K CF) (fm : LogVal K)
    (batch : List (List (Alignment K))) (ts : TranscriptTable K) (cf : CF) (i : Nat)
    (hi : ∀ g ∈ batch, ∀ a ∈ g, a.transcriptID ≠ i) :
    (processMiniBatch ops fm batch ts cf).transcripts i = ts i := by
  obtain ⟨a1, a2, a3, a4, a5⟩ := (processMiniBatch_spec ops fm batch ts cf).2.2 i
  have h1 : batch.countP (countsTotal ts i) = 0 := by
    rw [List.countP_eq_zero]
    intro g hg
    rw [countsTotal_unnamed ts i g (hi g hg)]
    simp
  have h2 : batch.countP (countsUnique ts i) = 0 := by
    rw [List.countP_eq_zero]
    intro g hg
    rw [countsUnique_unnamed ts i g (hi g hg)]
    simp
  have h3 : i ∉ batch.flatten.map (fun a => a.transcriptID) := by
    intro hm
    obtain ⟨a, ha, hai⟩ := List.mem_map.1 hm
    obtain ⟨g, hg, hag⟩ := List.mem_flatten.1 ha
    exact hi g hg a hag hai
  rw [if_neg h3] at a5
  rw [h1] at a3
  rw [h2] at a4
  exact Transcript.ext a1 a5 a2 a4 a3

theorem normalizedRead_nil (ts : TranscriptTable K) :
    normalizedRead ts ([] : List (Alignment K)) = [] := by
  unfold normalizedRead rawProbs
  split <;> rfl

/-- A batch made only of empty alignment lists changes nothing. -/
theorem processMiniBatch_all_empty (ops : ClusterForestOps K CF) (fm : LogVal K)
    (batch : List (List (Alignment K))) (ts : TranscriptTable K) (cf : CF)
    (hb : ∀ g ∈ batch, g = []) :
    (processMiniBatch ops fm batch ts cf).transcripts = ts ∧
    (processMiniBatch ops fm batch ts cf).clusterForest = cf ∧
    (processMiniBatch ops fm batch ts cf).batchHits = batch := by
  refine ⟨?_, ?_, ?_⟩
  · funext i
    apply processMiniBatch_unnamed
    intro g hg a ha
    rw [hb g hg] at ha
    cases ha
  · rw [(processMiniBatch_spec ops fm batch ts cf).2.1, eStep_clusterForest]
    induction batch generalizing cf with
    | nil => rfl
    | cons g rest ih =>
      rw [List.foldl_cons, hb g (List.mem_cons_self _ _)]
      exact ih cf (fun g' hg' => hb g' (List.mem_cons_of_mem _ hg'))
  · rw [(processMiniBatch_spec ops fm batch ts cf).1]
    induction batch with
    | nil => rfl
    | cons g rest ih =>
      rw [List.map_cons, ih (fun g' hg' => hb g' (List.mem_cons_of_mem _ hg')),
        hb g (List.mem_cons_self _ _), normalizedRead_nil]

/-- C18.  Zero hits leave the state untouched: for every batch,
`processMiniBatch` leaves the whole record (`log_mass`, `total_count`,
`unique_count`, and the rest) of every transcript that no alignment of the
batch names as it was; the E-step iteration on a read with an empty alignment
list changes neither the table nor the forest (no counter change, no cluster
merge or update), and the batch ends as it would without that read; a batch
made only of empty alignment lists changes nothing at all: the table, the
forest and the batch are as before. -/
theorem zero_hits_untouched (ops : ClusterForestOps K CF) (fm : LogVal K)
    (batch : List (List (Alignment K))) (ts : TranscriptTable K) (cf : CF) :
    (∀ i, (∀ g ∈ batch, ∀ a ∈ g, a.transcriptID ≠ i) →
      (processMiniBatch ops fm batch ts cf).transcripts i = ts i) ∧
    (∀ (ts' : TranscriptTable K) (cf' : CF),
      (eStepRead ops fm ts' cf' []).transcripts = ts' ∧
      (eStepRead ops fm ts' cf' []).clusterForest = cf') ∧
    (∀ pre post, batch = pre ++ [] :: post →
      (processMiniBatch ops fm batch ts cf).transcripts
        = (processMiniBatch ops fm (pre ++ post) ts cf).transcripts ∧
      (processMiniBatch ops fm batch ts cf).clusterForest
        = (processMiniBatch ops fm (pre ++ post) ts cf).clusterForest) ∧
    ((∀ g ∈ batch, g = []) →
      (processMiniBatch ops fm batch ts cf).transcripts = ts ∧
      (processMiniBatch ops fm batch ts cf).clusterForest = cf ∧
      (processMiniBatch ops fm batch ts cf).batchHits = batch) := by
  refine ⟨fun i hi => processMiniBatch_unnamed ops fm batch ts cf i hi,
    fun ts' cf' => ⟨rfl, rfl⟩, ?_, processMiniBatch_all_empty ops fm batch ts cf⟩
  rintro pre post rfl
  exact processMiniBatch_drop_read ops fm ts cf pre post [] (by intro a ha; cases ha)

end ZeroHits

/-! ## Theorems: the mass a batch adds -/

section MassConservation
variable {K : Type} [CanonicallyLinearOrderedSemifield K] {CF : Type}

/-- Summing, over a duplicate-free list of keys that covers every transcript
id of `all`, the values of the alignments of each key gives the sum over
`all`. -/
theorem sum_by_transcript (f : Alignment K → K) (all : List (Alignment K)) :
    ∀ (keys : List Nat), keys.Nodup → (∀ a ∈ all, a.transcriptID ∈ keys) →
      (keys.map (fun t =>
        ((all.filter (fun a => decide (a.transcriptID = t))).map f).sum)).sum
        = (all.map f).sum := by
  induction all with
  | nil => intro keys _ _; simp
  | cons a rest ih =>
    intro keys hnd hcov
    have hrest := ih keys hnd (fun b hb => hcov b (List.mem_cons_of_mem _ hb))
    have hsplit : ∀ t, (((a :: rest).filter (fun b => decide (b.transcriptID = t))).map f).sum
        = (if a.transcriptID = t then f a else 0)
          + ((rest.filter (fun b => decide (b.transcriptID = t))).map f).sum := by
      intro t
      by_cases h : a.transcriptID = t
      · simp [List.filter_cons, h]
      · simp [List.filter_cons, h]
    have hone : ∀ (keys : List Nat), keys.Nodup → a.transcriptID ∈ keys →
        (keys.map (fun t => if a.transcriptID = t then f a else 0)).sum = f a := by
      intro keys
      induction keys with
      | nil => intro _ hm; cases hm
      | cons k ks ihk =>
        intro hnd hm
        rw [List.nodup_cons] at hnd
        by_cases hk : a.transcriptID = k
        · have hz : (ks.map (fun t => if a.transcriptID = t then f a else 0)).sum = 0 := by
            apply List.sum_eq_zero
            intro x hx
            obtain ⟨t, ht, rfl⟩ := List.mem_map.1 hx
            have : a.transcriptID ≠ t := by
              intro h
              exact hnd.1 (by rw [← hk, h]; exact ht)
            simp [this]
          simp [hk] at hz ⊢
          exact hz
        · have hm' : a.transcriptID ∈ ks := by
            rcases List.mem_cons.1 hm with h | h
            · exact absurd h hk
            · exact h
          simp [hk, ihk hnd.2 hm']
    simp only [hsplit, List.map_cons, List.sum_cons]
    rw [List.sum_map_add, hone keys hnd (hcov a (List.mem_cons_self _ _)), hrest]

/-- The exponentials of the `updateMass` values add up to `exp logForgettingMass`
times the sum of the exponentials of every `logProb` of the batch. -/
theorem updateMasses_sum (fm : LogVal K) (batchHits : List (List (Alignment K))) :
    ((updateMasses fm batchHits).map (fun m => m.exp)).sum
      = fm.exp * (batchHits.flatten.map (fun a => a.logProb.exp)).sum := by
  unfold updateMasses hitsForTranscript
  simp only [List.map_map]
  have hfun : ((fun m : LogVal K => m.exp) ∘
      (fun kv : Nat × List (Alignment K) => fm + hitMassOf kv.2) ∘
      fun t => (t, batchHits.flatten.filter (fun a => decide (a.transcriptID = t))))
      = fun t => fm.exp * ((batchHits.flatten.filter
          (fun a => decide (a.transcriptID = t))).map (fun a => a.logProb.exp)).sum := by
    funext t
    simp only [Function.comp, add_exp, hitMassOf_exp]
  rw [hfun, List.sum_map_mul_left]
  congr 1
  have hperm := List.perm_insertionSort (· ≤ ·)
    ((batchHits.flatten.map (fun a => a.transcriptID)).dedup)
  apply sum_by_transcript
  · exact hperm.nodup_iff.2 (List.nodup_dedup _)
  · intro a ha
    rw [hperm.mem_iff, List.mem_dedup]
    exact List.mem_map_of_mem _ ha

theorem individualTotal_exp (fm : LogVal K) (batchHits : List (List (Alignment K))) :
    (individualTotal fm batchHits).exp
      = ((updateMasses fm batchHits).map (fun m => m.exp)).sum := by
  unfold individualTotal updateMasses
  have key : ∀ (l : List (Nat × List (Alignment K))) (s : LogVal K),
      (l.foldl (fun tot kv => logAdd tot (fm + hitMassOf kv.2)) s).exp
        = s.exp + ((l.map (fun kv => fm + hitMassOf kv.2)).map (fun m => m.exp)).sum := by
    intro l
    induction l with
    | nil => intro s; simp
    | cons kv l ih =>
      intro s
      rw [List.foldl_cons, ih, logAdd_exp]
      simp [add_assoc]
  rw [key, LOG_0_exp, zero_add]

/-- The exponentials of the `logProb` values the E-step leaves in one read add
up to 1 when the read is not skipped and to 0 when it is. -/
theorem normalizedRead_sum (ts : TranscriptTable K) (g : List (Alignment K)) :
    ((normalizedRead ts g).map (fun a => a.logProb.exp)).sum
      = if readSum ts g ≠ LOG_0 then 1 else 0 := by
  by_cases hS : readSum ts g ≠ LOG_0
  · rw [if_pos hS]
    unfold normalizedRead
    rw [if_neg hS, List.map_map]
    have hfun : ((fun a : Alignment K => a.logProb.exp) ∘
        fun a : Alignment K => { a with logProb := a.logProb - readSum ts g })
          = fun a : Alignment K => a.logProb.exp / (readSum ts g).exp := by
      funext a; rfl
    rw [hfun, sum_map_div, ← hitMassOf_exp, ← (alnLoop_spec ts g).2.2.2.2.1]
    exact div_self (fun h => hS ((eq_LOG_0_iff _).2 h))
  · rw [if_neg hS]
    have hS' : readSum ts g = LOG_0 := not_not.1 hS
    unfold normalizedRead
    rw [if_pos hS', ← hitMassOf_exp, ← (alnLoop_spec ts g).2.2.2.2.1, hS']
    rfl

theorem normalizedBatch_sum (ts : TranscriptTable K) (batch : List (List (Alignment K))) :
    ((batch.map (normalizedRead ts)).flatten.map (fun a => a.logProb.exp)).sum
      = (batch.countP (fun g => decide (readSum ts g ≠ LOG_0)) : K) := by
  induction batch with
  | nil => simp
  | cons g rest ih =>
    rw [List.map_cons, List.flatten_cons, List.map_append, List.sum_append, ih,
      normalizedRead_sum, List.countP_cons]
    by_cases hS : readSum ts g ≠ LOG_0
    · simp [hS, add_comm]
    · simp [hS]

/-- C19.  Per-batch mass conservation: for every batch, the exponentials of the
`updateMass` values the M-step of `processMiniBatch` adds (one per transcript
named in the batch) total `exp logForgettingMass` times the number of reads
that are not skipped (non-empty and with a sum of alignment probabilities
other than `LOG_0`); the local `individualTotal` holds that total, and when no
read of the batch is empty or skipped it equals
`clustTotal = log (batch size) + logForgettingMass`. -/
theorem batch_mass_conservation (ops : ClusterForestOps K CF) (fm : LogVal K)
    (batch : List (List (Alignment K))) (ts : TranscriptTable K) (cf : CF) :
    ((updateMasses fm (processMiniBatch ops fm batch ts cf).batchHits).map
        (fun m => m.exp)).sum
      = (batch.countP (fun g => decide (readSum ts g ≠ LOG_0)) : K) * fm.exp ∧
    (individualTotal fm (processMiniBatch ops fm batch ts cf).batchHits).exp
      = (batch.countP (fun g => decide (readSum ts g ≠ LOG_0)) : K) * fm.exp ∧
    ((∀ g ∈ batch, readSum ts g ≠ LOG_0) →
      individualTotal fm (processMiniBatch ops fm batch ts cf).batchHits
        = clustTotal fm (processMiniBatch ops fm batch ts cf).batchHits ∧
      clustTotal fm (processMiniBatch ops fm batch ts cf).batchHits
        = LogVal.log (batch.length : K) + fm) := by
  have h1 : ((updateMasses fm (processMiniBatch ops fm batch ts cf).batchHits).map
        (fun m => m.exp)).sum
      = (batch.countP (fun g => decide (readSum ts g ≠ LOG_0)) : K) * fm.exp := by
    rw [updateMasses_sum, (processMiniBatch_spec ops fm batch ts cf).1, normalizedBatch_sum,
      mul_comm]
  refine ⟨h1, by rw [individualTotal_exp, h1], ?_⟩
  intro hall
  have hlen : (processMiniBatch ops fm batch ts cf).batchHits.length = batch.length := by
    rw [(processMiniBatch_spec ops fm batch ts cf).1, List.length_map]
  have hcount : batch.countP (fun g => decide (readSum ts g ≠ LOG_0)) = batch.length := by
    rw [List.countP_eq_length]
    intro g hg
    exact decide_eq_true (hall g hg)
  refine ⟨?_, ?_⟩
  · rw [LogVal.ext_iff', individualTotal_exp, h1, hcount]
    unfold clustTotal
    rw [add_exp, log_exp, hlen]
  · unfold clustTotal
    rw [hlen]

end MassConservation

/-- C15.  With two transcripts (ids 0 and 1) and the batch of one read with the
alignments to transcript 0 and to the out-of-range id 5, `processMiniBatch`
does not skip the alignment to 5: it reads and writes the table at index 5
(`totalCount` and the mass stored there change), it hands the id 5 to
`mergeClusters`, and transcript 0 does not end as it would without that
alignment (its `uniqueCount` stays 0 instead of becoming 1, and its mass
differs). -/
theorem out_of_range_id_is_indexed :
    ((processMiniBatch (callLog ℚ≥0) LOG_1 [[Alignment.new 0 2, Alignment.new 5 1]]
        unitTable []).transcripts 5).totalCount = 1 ∧
    ((processMiniBatch (callLog ℚ≥0) LOG_1 [[Alignment.new 0 2, Alignment.new 5 1]]
        unitTable []).transcripts 5).mass ≠ (unitTable 5).mass ∧
    (processMiniBatch (callLog ℚ≥0) LOG_1 [[Alignment.new 0 2, Alignment.new 5 1]]
        unitTable []).clusterForest
      = [ForestCall.merge [0, 5], ForestCall.update 0 1 LOG_1] ∧
    ((processMiniBatch (callLog ℚ≥0) LOG_1 [[Alignment.new 0 2, Alignment.new 5 1]]
        unitTable []).transcripts 0).uniqueCount = 0 ∧
    ((processMiniBatch (callLog ℚ≥0) LOG_1 [[Alignment.new 0 2]]
        unitTable []).transcripts 0).uniqueCount = 1 ∧
    ((processMiniBatch (callLog ℚ≥0) LOG_1 [[Alignment.new 0 2, Alignment.new 5 1]]
        unitTable []).transcripts 0).mass
      ≠ ((processMiniBatch (callLog ℚ≥0) LOG_1 [[Alignment.new 0 2]]
        unitTable []).transcripts 0).mass := by
  decide!

/-! ## Theorems: the forgetting schedule -/

section ScheduleTheorems
variable {D : Type} [Field D]

/-- After `k` jobs the counter is `k` and `logForgettingMass` is the sum of the
increments of the old batch numbers `2, ..., k - 1`. -/
theorem afterJobs_spec (log : D → D) (pow : D → D → D) (k : Nat) :
    (afterJobs log pow k).batchNum = k ∧
    (afterJobs log pow k).logForgettingMass
      = Finset.sum (Finset.Ico 2 k) (forgettingIncrement log pow) := by
  induction k with
  | zero => exact ⟨rfl, by simp [afterJobs, JobState.init]⟩
  | succ k ih =>
    obtain ⟨hb, hm⟩ := ih
    refine ⟨by simp [afterJobs, nextBatch, hb], ?_⟩
    show (if (afterJobs log pow k).batchNum > 1 then _ else _) = _
    rw [hb, hm]
    by_cases hk : k > 1
    · rw [if_pos hk, Finset.sum_Ico_succ_top (by omega)]
    · rw [if_neg hk]
      have h1 : Finset.Ico 2 k = ∅ := Finset.Ico_eq_empty (by omega)
      have h2 : Finset.Ico 2 (k + 1) = ∅ := Finset.Ico_eq_empty (by omega)
      rw [h1, h2]

/-- The job of old batch number `k` adds the increment of `k` when `k > 1`. -/
theorem afterJobs_step (log : D → D) (pow : D → D → D) (k : Nat) :
    (afterJobs log pow (k + 1)).logForgettingMass
      = if k > 1 then (afterJobs log pow k).logForgettingMass + forgettingIncrement log pow k
        else (afterJobs log pow k).logForgettingMass := by
  show (if (afterJobs log pow k).batchNum > 1 then _ else _) = _
  rw [(afterJobs_spec log pow k).1]

/-- C11.  Forgetting schedule closed form: with a single worker, for every `k`
the value of `logForgettingMass` after the `k`-th job, counted from 1 (the
value that job hands to `processMiniBatch`), is the sum for
`i = 2, ..., k - 1` of
`forgettingFactor * log (i - 1) - log (i ^ forgettingFactor - 1)`, whatever
`log` and `pow` are: the counter starts at 0 and a job adds the increment of
its old batch number before it calls `processMiniBatch`, so the `k`-th job
adds the one of `k - 1`.  In terms of the old batch number: the job that
draws the old batch number `n` ends with the sum for `i = 2, ..., n`. -/
theorem forgetting_closed_form (log : D → D) (pow : D → D → D) (k : Nat) :
    (afterJobs log pow k).logForgettingMass
      = Finset.sum (Finset.Icc 2 (k - 1)) (forgettingIncrement log pow) ∧
    (afterJobs log pow k).batchNum = k ∧
    (afterJobs log pow (k + 1)).logForgettingMass
      = Finset.sum (Finset.Icc 2 k) (forgettingIncrement log pow) := by
  refine ⟨?_, (afterJobs_spec log pow k).1, ?_⟩
  · rw [(afterJobs_spec log pow k).2]
    cases k with
    | zero => rfl
    | succ k =>
      congr 1
  · rw [(afterJobs_spec log pow (k + 1)).2]
    congr 1

end ScheduleTheorems

/-- For a base above 1 the power `x ^ 0.65` lies strictly between 1 and `x`. -/
theorem rpow_forgetting_bounds (x : ℝ) (hx : 1 < x) :
    1 < x ^ (forgettingFactor : ℝ) ∧ x ^ (forgettingFactor : ℝ) < x := by
  have hφ0 : (0 : ℝ) < forgettingFactor := by unfold forgettingFactor; norm_num
  have hφ1 : (forgettingFactor : ℝ) < 1 := by unfold forgettingFactor; norm_num
  refine ⟨Real.one_lt_rpow hx hφ0, ?_⟩
  have h := Real.rpow_lt_rpow_of_exponent_lt hx hφ1
  rwa [Real.rpow_one] at h

/-- Strict subadditivity of `x ^ 0.65` at a step of 1. -/
theorem rpow_forgetting_step (a : ℝ) (ha : 1 ≤ a) :
    (a + 1) ^ (forgettingFactor : ℝ) - 1 < a ^ (forgettingFactor : ℝ) := by
  have hφ1 : (forgettingFactor : ℝ) < 1 := by unfold forgettingFactor; norm_num
  have ha0 : 0 < a := by linarith
  have hs : 0 < a + 1 := by linarith
  have hsp : 0 < (a + 1) ^ (forgettingFactor : ℝ) := Real.rpow_pos_of_pos hs _
  have hx1 : a / (a + 1) < (a / (a + 1)) ^ (forgettingFactor : ℝ) := by
    have h := Real.rpow_lt_rpow_of_exponent_gt (div_pos ha0 hs)
      ((div_lt_one hs).2 (by linarith)) hφ1
    rwa [Real.rpow_one] at h
  have hx2 : 1 / (a + 1) < (1 / (a + 1)) ^ (forgettingFactor : ℝ) := by
    have h := Real.rpow_lt_rpow_of_exponent_gt (div_pos one_pos hs)
      ((div_lt_one hs).2 (by linarith)) hφ1
    rwa [Real.rpow_one] at h
  rw [Real.div_rpow ha0.le hs.le] at hx1
  rw [Real.div_rpow zero_le_one hs.le, Real.one_rpow] at hx2
  have hsum : a / (a + 1) + 1 / (a + 1) = 1 := by field_simp
  have hlt : 1 < (a ^ (forgettingFactor : ℝ) + 1) / (a + 1) ^ (forgettingFactor : ℝ) := by
    rw [add_div]
    linarith
  have := (one_lt_div hsp).1 hlt
  linarith

/-- Over the reals every increment of the schedule is positive. -/
theorem forgettingIncrement_pos (n : Nat) (hn : 1 < n) :
    0 < forgettingIncrement Real.log (fun x y => x ^ y) n := by
  unfold forgettingIncrement
  have hn' : (2 : ℝ) ≤ (n : ℝ) := by exact_mod_cast hn
  have hcast : (((n - 1 : Nat)) : ℝ) = (n : ℝ) - 1 := by
    rw [Nat.cast_sub (by omega)]; simp
  rw [hcast]
  have ha : (1 : ℝ) ≤ (n : ℝ) - 1 := by linarith
  have ha0 : (0 : ℝ) < (n : ℝ) - 1 := by linarith
  have hstep := rpow_forgetting_step ((n : ℝ) - 1) ha
  rw [sub_add_cancel] at hstep
  have hpos : 0 < (n : ℝ) ^ (forgettingFactor : ℝ) - 1 := by
    have := (rpow_forgetting_bounds (n : ℝ) (by linarith)).1
    linarith
  have hlog := Real.log_lt_log hpos hstep
  rw [Real.log_rpow ha0] at hlog
  show 0 < forgettingFactor * Real.log ((n : ℝ) - 1)
    - Real.log ((n : ℝ) ^ (forgettingFactor : ℝ) - 1)
  linarith

/-- Over the reals `logForgettingMass` never decreases from one job to the next. -/
theorem afterJobs_mono (j k : Nat) (hjk : j ≤ k) :
    (afterJobs Real.log (fun x y => x ^ y) j).logForgettingMass
      ≤ (afterJobs Real.log (fun x y => x ^ y) k).logForgettingMass := by
  induction k with
  | zero =>
    have : j = 0 := by omega
    rw [this]
  | succ k ih =>
    by_cases hj : j = k + 1
    · rw [hj]
    · refine le_trans (ih (by omega)) ?_
      rw [afterJobs_step]
      by_cases hk : k > 1
      · rw [if_pos hk]
        have := forgettingIncrement_pos k hk
        linarith
      · rw [if_neg hk]

/-- C11, the claim as worded fails: after the second job `logForgettingMass`
is still `LOG_1 = 0`, while the sum for `i = 2, ..., 2` is the increment of 2,
which is not 0. -/
theorem forgetting_closed_form_off_by_one :
    (afterJobs Real.log (fun x y => x ^ y) 2).logForgettingMass = 0 ∧
    (afterJobs Real.log (fun x y => x ^ y) 2).logForgettingMass
      ≠ Finset.sum (Finset.Icc 2 2) (forgettingIncrement Real.log (fun x y => x ^ y)) := by
  have h0 : (afterJobs Real.log (fun x y => x ^ y) 2).logForgettingMass = 0 := by
    simp [afterJobs, nextBatch, JobState.init]
  refine ⟨h0, ?_⟩
  rw [h0, Finset.Icc_self, Finset.sum_singleton]
  exact ne_of_lt (forgettingIncrement_pos 2 (by norm_num))

/-- C12.  The forgetting mass is a growing log-weight: for every batch number
`n > 1` the schedule increment `0.65 * log (n - 1) - log (n ^ 0.65 - 1)` added
to `logForgettingMass` is positive (over the reals), so the
`logForgettingMass` handed to a later batch is never smaller than the one
handed to an earlier batch. -/
theorem forgetting_mass_grows (n : Nat) (hn : 1 < n) (j k : Nat) (hjk : j ≤ k) :
    0 < forgettingIncrement Real.log (fun x y => x ^ y) n ∧
    (afterJobs Real.log (fun x y => x ^ y) j).logForgettingMass
      ≤ (afterJobs Real.log (fun x y => x ^ y) k).logForgettingMass :=
  ⟨forgettingIncrement_pos n hn, afterJobs_mono j k hjk⟩

theorem forgetting_mass_grows_witness :
    1 < 2 ∧ 3 ≤ 4 ∧
    0 < forgettingIncrement Real.log (fun x y => x ^ y) 2 ∧
    (afterJobs Real.log (fun x y => x ^ y) 3).logForgettingMass
      ≤ (afterJobs Real.log (fun x y => x ^ y) 4).logForgettingMass :=
  ⟨by decide, by decide, forgetting_mass_grows 2 (by decide) 3 4 (by decide)⟩

/-- C12, the claim as worded fails: the increment of batch number 2 is not
`≤ 0`, and the `logForgettingMass` handed to the fourth job is larger than the
one handed to the third. -/
theorem forgetting_increment_not_nonpos :
    ¬ forgettingIncrement Real.log (fun x y => x ^ y) 2 ≤ 0 ∧
    (afterJobs Real.log (fun x y => x ^ y) 3).logForgettingMass
      < (afterJobs Real.log (fun x y => x ^ y) 4).logForgettingMass := by
  refine ⟨not_le.2 (forgettingIncrement_pos 2 (by norm_num)), ?_⟩
  have h3 : (afterJobs Real.log (fun x y => x ^ y) 4).logForgettingMass
      = (afterJobs Real.log (fun x y => x ^ y) 3).logForgettingMass
        + forgettingIncrement Real.log (fun x y => x ^ y) 3 := by
    rw [afterJobs_step, if_pos (by norm_num)]
  rw [h3]
  have := forgettingIncrement_pos 3 (by norm_num)
  linarith

/-! ## Theorems: the read scan -/

section ScanTheorems
variable {M : Type}

/-- The loop over `kmerLocs` stays in bounds when its last index does. -/
theorem voteLocations_isSome (kmerLocs : List Nat)
    (vote : TranscriptHitList → Nat → Nat → TranscriptHitList) (readPos : Nat) :
    ∀ (count ei : Nat) (hits : HitMap), ei + count ≤ kmerLocs.length →
      ∃ hits', voteLocations kmerLocs vote readPos ei count hits = some hits' := by
  intro count
  induction count with
  | zero => intro ei hits _; exact ⟨hits, rfl⟩
  | succ n ih =>
    intro ei hits hle
    have hlt : ei < kmerLocs.length := by omega
    unfold voteLocations
    rw [List.getElem?_eq_getElem hlt]
    exact ih (ei + 1) _ (by omega)

/-- Under the invariant of the index tables a lookup reads `offsets` and
`kmerLocs` within their bounds. -/
theorem lookupMer_isSome (phi : PerfectHashIndex) (offsets kmerLocs : List Nat) (N : Nat)
    (hinv : IndexView phi offsets kmerLocs N)
    (vote : TranscriptHitList → Nat → Nat → TranscriptHitList) (bits readPos : Nat)
    (hits : HitMap) (tot : Nat) :
    ∃ r, lookupMer phi offsets kmerLocs vote bits readPos hits tot = some r := by
  obtain ⟨hlen, hmono, hlast, hphi⟩ := hinv
  unfold lookupMer
  by_cases hid : phi.index bits = phi.INVALID
  · simp [hid]
  · have hlt : phi.index bits < N := by
      rcases hphi bits with h | h
      · exact absurd h hid
      · exact h
    have h1 : phi.index bits < offsets.length := by omega
    have h2 : phi.index bits + 1 < offsets.length := by omega
    have hN : N < offsets.length := by omega
    have hlastv : offsets[N] = kmerLocs.length := by
      rw [List.getElem?_eq_getElem hN] at hlast
      exact Option.some.inj hlast
    have hpair := List.pairwise_iff_getElem.1 hmono
    have hfl : offsets[phi.index bits] ≤ offsets[phi.index bits + 1] :=
      hpair _ _ h1 h2 (by omega)
    have hll : offsets[phi.index bits + 1] ≤ kmerLocs.length := by
      by_cases he : phi.index bits + 1 = N
      · rw [← hlastv]
        simp only [he]
        exact le_refl _
      · rw [← hlastv]
        exact hpair _ _ h2 hN (by omega)
    simp only [ne_eq, hid, not_false_eq_true, if_true, List.getElem?_eq_getElem h1,
      List.getElem?_eq_getElem h2]
    obtain ⟨hits', hv⟩ := voteLocations_isSome kmerLocs vote readPos
      (offsets[phi.index bits + 1] - offsets[phi.index bits]) offsets[phi.index bits] hits
      (by omega)
    rw [hv]
    exact ⟨_, rfl⟩

/-- A k-mer whose lookup returns `INVALID` reads neither table and leaves the
hit map and the counter as they were, whatever the tables are. -/
theorem lookupMer_invalid (phi : PerfectHashIndex) (offsets kmerLocs : List Nat)
    (vote : TranscriptHitList → Nat → Nat → TranscriptHitList) (bits readPos : Nat)
    (hits : HitMap) (tot : Nat) (hid : phi.index bits = phi.INVALID) :
    lookupMer phi offsets kmerLocs vote bits readPos hits tot = some (hits, tot) := by
  unfold lookupMer
  simp [hid]

theorem scanStep_isSome (ops : MerOps M) (phi : PerfectHashIndex) (offsets kmerLocs : List Nat)
    (N : Nat) (hinv : IndexView phi offsets kmerLocs N) (st : ScanState M) (base : Char) :
    ∃ st', scanStep ops phi offsets kmerLocs st base = some st' := by
  unfold scanStep
  by_cases hq : (codecStep ops phi.kmerLength st.codec base).2 = true
  · simp only [hq, if_true]
    obtain ⟨fwd, hf⟩ := lookupMer_isSome phi offsets kmerLocs N hinv TranscriptHitList.addVote
      (ops.get_bits (codecStep ops phi.kmerLength st.codec base).1.kmer (2 * phi.kmerLength))
      ((codecStep ops phi.kmerLength st.codec base).1.rbase - phi.kmerLength) st.hits st.totFwd
    rw [hf]
    obtain ⟨bwd, hb⟩ := lookupMer_isSome phi offsets kmerLocs N hinv
      TranscriptHitList.addVoteRC
      (ops.get_bits (codecStep ops phi.kmerLength st.codec base).1.rkmer (2 * phi.kmerLength))
      ((codecStep ops phi.kmerLength st.codec base).1.rbase - phi.kmerLength) fwd.1 st.totBwd
    simp only [hb]
    exact ⟨_, rfl⟩
  · simp only [hq]
    exact ⟨_, rfl⟩

theorem scanLoop_isSome (ops : MerOps M) (phi : PerfectHashIndex) (offsets kmerLocs : List Nat)
    (N : Nat) (hinv : IndexView phi offsets kmerLocs N) (cs : List Char) :
    ∀ st : ScanState M, ∃ st', scanLoop ops phi offsets kmerLocs cs st = some st' := by
  induction cs with
  | nil => intro st; exact ⟨st, rfl⟩
  | cons c rest ih =>
    intro st
    obtain ⟨st1, h1⟩ := scanStep_isSome ops phi offsets kmerLocs N hinv st c
    unfold scanLoop
    rw [h1]
    exact ih st1

/-- The scan steps the k-mer variables as `codecRun` does. -/
theorem scanLoop_codec (ops : MerOps M) (phi : PerfectHashIndex) (offsets kmerLocs : List Nat)
    (cs : List Char) :
    ∀ st st' : ScanState M, scanLoop ops phi offsets kmerLocs cs st = some st' →
      st'.codec = codecRun ops phi.kmerLength st.codec cs := by
  induction cs with
  | nil =>
    intro st st' h
    simp only [scanLoop, Option.some.injEq] at h
    rw [← h]; rfl
  | cons c rest ih =>
    intro st st' h
    unfold scanLoop at h
    cases hs : scanStep ops phi offsets kmerLocs st c with
    | none => rw [hs] at h; cases h
    | some st1 =>
      rw [hs] at h
      have hc : st1.codec = (codecStep ops phi.kmerLength st.codec c).1 := by
        unfold scanStep at hs
        by_cases hq : (codecStep ops phi.kmerLength st.codec c).2 = true
        · simp only [hq, if_true] at hs
          split at hs
          · cases hs
          · split at hs
            · cases hs
            · simp only [Option.some.injEq] at hs
              rw [← hs]
        · simp only [hq] at hs
          simp only [Bool.false_eq_true, if_false, Option.some.injEq] at hs
          rw [← hs]
      rw [ih st1 st' h, hc]
      rfl

/-- C20.  Index lookups are in bounds: under the invariant of the index view
(`offsets` has `N + 1` entries, is non-decreasing and ends with the size of
`kmerLocs`) and the contract of the perfect hash (`phi.index` returns
`INVALID` or an id below `N`), the scan of a read end, the left one as the
right one, from any state and over any characters, makes every access
`offsets[id]`, `offsets[id+1]` and `kmerLocs[ei]` within bounds (it never
ends in `none`); and a k-mer whose lookup returns `INVALID` reads neither
table (its lookup succeeds whatever the tables hold, empty ones included) and
adds no vote. -/
theorem index_lookups_in_bounds (ops : MerOps M) (phi : PerfectHashIndex)
    (offsets kmerLocs : List Nat) (N : Nat) (hinv : IndexView phi offsets kmerLocs N) :
    (∀ (cs : List Char) (st : ScanState M),
      ∃ st', scanLoop ops phi offsets kmerLocs cs st = some st') ∧
    (∀ (kmer rkmer : M) (seq : List Char),
      (∃ st', scanLeft ops phi offsets kmerLocs kmer rkmer seq = some st') ∧
      (∃ st', scanRight ops phi offsets kmerLocs kmer rkmer seq = some st')) ∧
    (∀ (offsets' kmerLocs' : List Nat)
      (vote : TranscriptHitList → Nat → Nat → TranscriptHitList) (bits readPos : Nat)
      (hits : HitMap) (tot : Nat), phi.index bits = phi.INVALID →
      lookupMer phi offsets' kmerLocs' vote bits readPos hits tot = some (hits, tot)) :=
  ⟨fun cs st => scanLoop_isSome ops phi offsets kmerLocs N hinv cs st,
    fun _ _ _ =>
      ⟨scanLoop_isSome ops phi offsets kmerLocs N hinv _ _,
        scanLoop_isSome ops phi offsets kmerLocs N hinv _ _⟩,
    fun offsets' kmerLocs' vote bits readPos hits tot hid =>
      lookupMer_invalid phi offsets' kmerLocs' vote bits readPos hits tot hid⟩

end ScanTheorems

theorem toyIndex_view : IndexView toyIndex toyOffsets toyLocs 2 := by
  refine ⟨rfl, by decide, rfl, ?_⟩
  intro bits
  show (if bits = 1 then 0 else if bits = 6 then 1 else 7) = 7 ∨
    (if bits = 1 then 0 else if bits = 6 then 1 else 7) < 2
  split
  · right; decide
  · split
    · right; decide
    · left; rfl

/-- The scan of the read end `ACG` through the toy index: `AC` votes for
offset 0 at read position 0; `CG`, its own reverse complement, votes for
offset 1 at read position 1 forwards and backwards. -/
theorem toyIndex_scan :
    scanLeft (dnaOps 2) toyIndex toyOffsets toyLocs 0 0 ['A', 'C', 'G']
      = some ⟨⟨6, 6, 2, 3⟩, [(0, ⟨0, 0, [⟨0, 0⟩, ⟨0, 1⟩, ⟨2, 1⟩]⟩)], 2, 1⟩ := by
  decide!

theorem index_lookups_in_bounds_witness :
    IndexView toyIndex toyOffsets toyLocs 2 ∧
    (∃ st', scanLeft (dnaOps 2) toyIndex toyOffsets toyLocs 0 0 ['A', 'C', 'G'] = some st') ∧
    (∃ st', scanRight (dnaOps 2) toyIndex toyOffsets toyLocs 0 0 ['A', 'C', 'G'] = some st') :=
  ⟨toyIndex_view,
    ((index_lookups_in_bounds (dnaOps 2) toyIndex toyOffsets toyLocs 2 toyIndex_view).2.1
      0 0 ['A', 'C', 'G']).1,
    ((index_lookups_in_bounds (dnaOps 2) toyIndex toyOffsets toyLocs 2 toyIndex_view).2.1
      0 0 ['A', 'C', 'G']).2⟩

/-! ## Theorems: where the scan queries the index -/

section QueryTheorems
variable {M : Type}

theorem codecStep_rbase (ops : MerOps M) (k : Nat) (st : Codec M) (c : Char) :
    (codecStep ops k st c).1.rbase = st.rbase + 1 := by
  unfold codecStep
  cases ops.code c with
  | base b =>
    by_cases h : st.cmlen + 1 ≥ k
    · simp only [h, if_true]
    · simp only [h, if_false]
  | reset => rfl
  | ignore => rfl
  | comment => rfl

/-- A character coded as a base: `cmlen` grows by one, capped at `k`, and the
index is queried when it reaches `k`. -/
theorem codecStep_base (ops : MerOps M) (k : Nat) (st : Codec M) (c : Char)
    (hb : (ops.code c).isBase = true) :
    (codecStep ops k st c).1.cmlen = min k (st.cmlen + 1) ∧
    ((codecStep ops k st c).2 = true ↔ k ≤ st.cmlen + 1) := by
  unfold codecStep
  cases hc : ops.code c with
  | base b =>
    by_cases h : st.cmlen + 1 ≥ k
    · simp only [h, if_true]
      exact ⟨(Nat.min_eq_left h).symm, by simp [h]⟩
    · simp only [h, if_false]
      exact ⟨(Nat.min_eq_right (by omega)).symm, by simp [h]⟩
  | reset => rw [hc] at hb; cases hb
  | ignore => rw [hc] at hb; cases hb
  | comment => rw [hc] at hb; cases hb

/-- A character coded `CODE_RESET` or `CODE_COMMENT`: `cmlen` is reset to 0 and
the index is not queried. -/
theorem codecStep_reset (ops : MerOps M) (k : Nat) (st : Codec M) (c : Char)
    (hc : ops.code c = BaseCode.reset ∨ ops.code c = BaseCode.comment) :
    (codecStep ops k st c).1.cmlen = 0 ∧ (codecStep ops k st c).2 = false := by
  unfold codecStep
  rcases hc with h | h <;> rw [h] <;> exact ⟨rfl, rfl⟩

/-- A character coded `CODE_IGNORE`: `cmlen` stays as it is and the index is
not queried. -/
theorem codecStep_ignore (ops : MerOps M) (k : Nat) (st : Codec M) (c : Char)
    (hc : ops.code c = BaseCode.ignore) :
    (codecStep ops k st c).1.cmlen = st.cmlen ∧ (codecStep ops k st c).2 = false := by
  unfold codecStep
  rw [hc]
  exact ⟨rfl, rfl⟩

theorem not_base_cases (b : BaseCode) (hb : b.isBase = false) (hi : b ≠ BaseCode.ignore) :
    b = BaseCode.reset ∨ b = BaseCode.comment := by
  cases b with
  | base c => cases hb
  | reset => exact Or.inl rfl
  | ignore => exact absurd rfl hi
  | comment => exact Or.inr rfl

theorem codecRun_append (ops : MerOps M) (k : Nat) (st : Codec M) (l1 l2 : List Char) :
    codecRun ops k st (l1 ++ l2) = codecRun ops k (codecRun ops k st l1) l2 := by
  unfold codecRun
  rw [List.foldl_append]

theorem queryPositions_append (ops : MerOps M) (k : Nat) (l1 l2 : List Char) :
    ∀ st : Codec M, queryPositions ops k (l1 ++ l2) st
      = queryPositions ops k l1 st ++ queryPositions ops k l2 (codecRun ops k st l1) := by
  induction l1 with
  | nil => intro st; rfl
  | cons c rest ih =>
    intro st
    show (if (codecStep ops k st c).2 then _ else _) ++ queryPositions ops k (rest ++ l2) _
      = ((if (codecStep ops k st c).2 then _ else _) ++ queryPositions ops k rest _) ++ _
    rw [ih, List.append_assoc]
    rfl

theorem takeWhile_length_ge {α : Type} (p : α → Bool) (l : List α) :
    ∀ k, k ≤ (l.takeWhile p).length ↔ k ≤ l.length ∧ ∀ x ∈ l.take k, p x = true := by
  induction l with
  | nil => intro k; simp
  | cons a l ih =>
    intro k
    cases k with
    | zero => simp
    | succ k =>
      by_cases ha : p a = true
      · rw [List.takeWhile_cons_of_pos ha, List.length_cons, List.length_cons,
          Nat.add_le_add_iff_right, Nat.add_le_add_iff_right, ih k, List.take_succ_cons]
        simp [ha]
      · rw [List.takeWhile_cons_of_neg ha, List.take_succ_cons]
        simp [ha]

theorem trailingBases_snoc (ops : MerOps M) (l : List Char) (c : Char) :
    trailingBases ops (l ++ [c])
      = if (ops.code c).isBase = true then trailingBases ops l + 1 else 0 := by
  unfold trailingBases
  rw [List.reverse_append, List.reverse_singleton, List.singleton_append]
  by_cases hb : (ops.code c).isBase = true
  · rw [List.takeWhile_cons_of_pos (p := fun c => (ops.code c).isBase) hb, if_pos hb,
      List.length_cons]
  · rw [List.takeWhile_cons_of_neg (p := fun c => (ops.code c).isBase) hb, if_neg hb,
      List.length_nil]

/-- After the characters `cs`, none of them coded `CODE_IGNORE`, `rbase` is
their number and `cmlen` is the number of trailing bases, capped at `k`. -/
theorem codecRun_spec (ops : MerOps M) (k : Nat) (kmer rkmer : M) (cs : List Char)
    (hno : ∀ c ∈ cs, ops.code c ≠ BaseCode.ignore) :
    (codecRun ops k ⟨kmer, rkmer, 0, 0⟩ cs).rbase = cs.length ∧
    (codecRun ops k ⟨kmer, rkmer, 0, 0⟩ cs).cmlen = min k (trailingBases ops cs) := by
  induction cs using List.reverseRecOn with
  | nil => exact ⟨rfl, by simp [codecRun, trailingBases]⟩
  | append_singleton l c ih =>
    obtain ⟨hr, hc⟩ := ih (fun x hx => hno x (List.mem_append_left _ hx))
    have hstep : codecRun ops k ⟨kmer, rkmer, 0, 0⟩ (l ++ [c])
        = (codecStep ops k (codecRun ops k ⟨kmer, rkmer, 0, 0⟩ l) c).1 := by
      rw [codecRun_append]; rfl
    rw [hstep, codecStep_rbase, hr, trailingBases_snoc]
    refine ⟨by simp, ?_⟩
    by_cases hb : (ops.code c).isBase = true
    · rw [(codecStep_base ops k _ c hb).1, hc, if_pos hb]
      omega
    · have hb' : (ops.code c).isBase = false := by simpa using hb
      have hni : ops.code c ≠ BaseCode.ignore := hno c (by simp)
      rw [(codecStep_reset ops k _ c (not_base_cases _ hb' hni)).1, if_neg hb]
      simp

/-- The index is queried at the character `c` that follows `pre` exactly when
`c` and the `k - 1` characters before it are all coded as bases; the read
position of the query is then `pre.length + 1 - k`. -/
theorem query_iff (ops : MerOps M) (k : Nat) (hk : 0 < k) (kmer rkmer : M)
    (pre : List Char) (c : Char) (hno : ∀ x ∈ pre, ops.code x ≠ BaseCode.ignore) :
    ((codecStep ops k (codecRun ops k ⟨kmer, rkmer, 0, 0⟩ pre) c).2 = true ↔
      k ≤ pre.length + 1 ∧ ∀ x ∈ (pre ++ [c]).reverse.take k, (ops.code x).isBase = true) ∧
    (codecStep ops k (codecRun ops k ⟨kmer, rkmer, 0, 0⟩ pre) c).1.rbase - k
      = pre.length + 1 - k := by
  obtain ⟨hr, hc⟩ := codecRun_spec ops k kmer rkmer pre hno
  refine ⟨?_, by rw [codecStep_rbase, hr]⟩
  have hwin := takeWhile_length_ge (fun x => (ops.code x).isBase) (pre ++ [c]).reverse k
  rw [List.length_reverse, List.length_append, List.length_singleton] at hwin
  rw [← hwin]
  have htb : ((pre ++ [c]).reverse.takeWhile (fun x => (ops.code x).isBase)).length
      = trailingBases ops (pre ++ [c]) := rfl
  rw [htb, trailingBases_snoc]
  by_cases hb : (ops.code c).isBase = true
  · rw [(codecStep_base ops k _ c hb).2, hc, if_pos hb]
    omega
  · rw [if_neg hb]
    have hfalse : (codecStep ops k (codecRun ops k ⟨kmer, rkmer, 0, 0⟩ pre) c).2 = false := by
      unfold codecStep
      cases hcc : ops.code c with
      | base b => rw [hcc] at hb; exact absurd rfl hb
      | reset => rfl
      | ignore => rfl
      | comment => rfl
    rw [hfalse]
    constructor
    · intro h; cases h
    · intro h; omega

/-- A read end made of bases only is queried at the read positions
`0, 1, ..., L - k`, in that order, and not at all when `L < k`. -/
theorem queryPositions_all_bases (ops : MerOps M) (k : Nat) (hk : 0 < k) (kmer rkmer : M)
    (cs : List Char) (hall : ∀ c ∈ cs, (ops.code c).isBase = true) :
    queryPositions ops k cs ⟨kmer, rkmer, 0, 0⟩ = List.range (cs.length + 1 - k) := by
  induction cs using List.reverseRecOn with
  | nil =>
    have : 0 + 1 - k = 0 := by omega
    simp [queryPositions, this]
  | append_singleton l c ih =>
    have hl : ∀ x ∈ l, (ops.code x).isBase = true :=
      fun x hx => hall x (List.mem_append_left _ hx)
    have hno : ∀ x ∈ l, ops.code x ≠ BaseCode.ignore := by
      intro x hx h
      have := hl x hx
      rw [h] at this
      cases this
    have hc : (ops.code c).isBase = true := hall c (by simp)
    obtain ⟨hq, hp⟩ := query_iff ops k hk kmer rkmer l c hno
    rw [queryPositions_append, ih hl]
    have hlast : queryPositions ops k [c] (codecRun ops k ⟨kmer, rkmer, 0, 0⟩ l)
        = if (codecStep ops k (codecRun ops k ⟨kmer, rkmer, 0, 0⟩ l) c).2 = true
          then [(codecStep ops k (codecRun ops k ⟨kmer, rkmer, 0, 0⟩ l) c).1.rbase - k]
          else [] := by
      simp [queryPositions]
    rw [hlast, hp, List.length_append, List.length_singleton]
    by_cases hge : k ≤ l.length + 1
    · have hquery : (codecStep ops k (codecRun ops k ⟨kmer, rkmer, 0, 0⟩ l) c).2 = true :=
        hq.2 ⟨hge, fun x hx => hall x (List.mem_reverse.1 (List.mem_of_mem_take hx))⟩
      rw [if_pos hquery]
      have : l.length + 1 + 1 - k = (l.length + 1 - k) + 1 := by omega
      rw [this, List.range_succ]
    · have hquery : ¬ (codecStep ops k (codecRun ops k ⟨kmer, rkmer, 0, 0⟩ l) c).2 = true :=
        fun h => hge (hq.1 h).1
      rw [if_neg hquery]
      have h1 : l.length + 1 - k = 0 := by omega
      have h2 : l.length + 1 + 1 - k = 0 ∨ l.length + 1 + 1 - k = 1 := by omega
      rcases h2 with h2 | h2
      · rw [h1, h2]; rfl
      · exfalso; omega

/-- C16.  Ambiguous-base reset in the read scan: for every read end none of
whose characters is coded `CODE_IGNORE`, every character that is not coded as
one of the four bases (it is then coded `CODE_RESET` or `CODE_COMMENT`) resets
the valid-length counter `cmlen` to 0 and is not queried, so the index is
queried at a character position if and only if that character and the `k - 1`
characters before it in the same read end are all coded as bases, the read
position of the query being the position of the first of them; consequently a
read end of `L ≥ k` bases produces exactly `L - k + 1` query positions, the
read positions `0, 1, ..., L - k` in that order, and a read end shorter than
`k` produces none.  (A character coded `CODE_IGNORE` leaves `cmlen` as it is.) -/
theorem ambiguous_base_reset (ops : MerOps M) (k : Nat) (hk : 0 < k) (kmer rkmer : M)
    (cs : List Char) (hno : ∀ c ∈ cs, ops.code c ≠ BaseCode.ignore) :
    (∀ (st : Codec M), ∀ c ∈ cs, (ops.code c).isBase = false →
      (codecStep ops k st c).1.cmlen = 0 ∧ (codecStep ops k st c).2 = false) ∧
    (∀ (st : Codec M) (c : Char), ops.code c = BaseCode.ignore →
      (codecStep ops k st c).1.cmlen = st.cmlen ∧ (codecStep ops k st c).2 = false) ∧
    (∀ pre c post, cs = pre ++ c :: post →
      ((codecStep ops k (codecRun ops k ⟨kmer, rkmer, 0, 0⟩ pre) c).2 = true ↔
        k ≤ pre.length + 1 ∧
          ∀ x ∈ (pre ++ [c]).reverse.take k, (ops.code x).isBase = true) ∧
      (codecStep ops k (codecRun ops k ⟨kmer, rkmer, 0, 0⟩ pre) c).1.rbase - k
        = pre.length + 1 - k) ∧
    ((∀ c ∈ cs, (ops.code c).isBase = true) →
      queryPositions ops k cs ⟨kmer, rkmer, 0, 0⟩ = List.range (cs.length + 1 - k) ∧
      (k ≤ cs.length →
        (queryPositions ops k cs ⟨kmer, rkmer, 0, 0⟩).length = cs.length - k + 1) ∧
      (cs.length < k → queryPositions ops k cs ⟨kmer, rkmer, 0, 0⟩ = [])) := by
  refine ⟨?_, fun st c hc => codecStep_ignore ops k st c hc, ?_, ?_⟩
  · intro st c hc hb
    exact codecStep_reset ops k st c (not_base_cases _ hb (hno c hc))
  · rintro pre c post rfl
    exact query_iff ops k hk kmer rkmer pre c
      (fun x hx => hno x (List.mem_append_left _ hx))
  · intro hall
    have h := queryPositions_all_bases ops k hk kmer rkmer cs hall
    refine ⟨h, ?_, ?_⟩
    · intro hle
      rw [h, List.length_range]
      omega
    · intro hlt
      rw [h]
      have : cs.length + 1 - k = 0 := by omega
      rw [this]
      rfl

end QueryTheorems

theorem ambiguous_base_reset_witness :
    0 < 2 ∧ (∀ c ∈ ['A', 'C', 'N', 'G', 'T', 'A'], (dnaOps 2).code c ≠ BaseCode.ignore) ∧
    ((codecStep (dnaOps 2) 2 (codecRun (dnaOps 2) 2 ⟨0, 0, 0, 0⟩ ['A', 'C', 'N', 'G']) 'T').2
        = true ↔
      2 ≤ ['A', 'C', 'N', 'G'].length + 1 ∧
        ∀ x ∈ (['A', 'C', 'N', 'G'] ++ ['T']).reverse.take 2,
          ((dnaOps 2).code x).isBase = true) ∧
    queryPositions (dnaOps 2) 2 ['A', 'C', 'N', 'G', 'T', 'A'] ⟨0, 0, 0, 0⟩ = [0, 3, 4] :=
  ⟨by decide, by decide!,
    ((ambiguous_base_reset (dnaOps 2) 2 (by decide) 0 0 ['A', 'C', 'N', 'G', 'T', 'A']
      (by decide!)).2.2.1 ['A', 'C', 'N', 'G'] 'T' ['A'] rfl).1,
    by decide!⟩

/-- C16, the claim as worded fails on a character coded `CODE_IGNORE`: with
`k = 2` and the read end `A`, newline, `C`, the newline is not one of the four
bases but leaves `cmlen` at 1 instead of resetting it to 0, and the index is
queried at the `C` (read position 1) although the character before it is not
a base. -/
theorem ignored_character_does_not_reset :
    ((dnaOps 2).code '\n').isBase = false ∧
    (codecRun (dnaOps 2) 2 ⟨0, 0, 0, 0⟩ ['A', '\n']).cmlen = 1 ∧
    (codecStep (dnaOps 2) 2 (codecRun (dnaOps 2) 2 ⟨0, 0, 0, 0⟩ ['A', '\n']) 'C').2 = true ∧
    ¬ (∀ x ∈ (['A', '\n'] ++ ['C']).reverse.take 2, ((dnaOps 2).code x).isBase = true) ∧
    queryPositions (dnaOps 2) 2 ['A', '\n', 'C'] ⟨0, 0, 0, 0⟩ = [1] := by
  decide!

/-! ## Theorems: the hit maps the scan builds -/

section ScanHitMaps
variable {M : Type}

theorem HitMap.vote_keys (hits : HitMap) (key : Nat)
    (f : TranscriptHitList → TranscriptHitList) :
    (hits.vote key f).map Prod.fst
      = if key ∈ hits.map Prod.fst then hits.map Prod.fst else hits.map Prod.fst ++ [key] := by
  induction hits with
  | nil => simp [HitMap.vote]
  | cons e rest ih =>
    obtain ⟨k, h⟩ := e
    unfold HitMap.vote
    by_cases hk : k = key
    · simp [hk]
    · have hk' : ¬ key = k := fun h => hk h.symm
      simp only [hk, if_false, List.map_cons, ih, List.mem_cons, hk', false_or]
      split <;> simp

theorem HitMap.vote_mem (hits : HitMap) (key : Nat)
    (f : TranscriptHitList → TranscriptHitList) :
    ∀ e ∈ hits.vote key f, e ∈ hits ∨ ∃ h, e = (key, f h) := by
  induction hits with
  | nil =>
    intro e he
    simp only [HitMap.vote, List.mem_singleton] at he
    exact Or.inr ⟨_, he⟩
  | cons e0 rest ih =>
    obtain ⟨k, h⟩ := e0
    intro e he
    unfold HitMap.vote at he
    by_cases hk : k = key
    · simp only [hk, if_true, List.mem_cons] at he
      rcases he with he | he
      · exact Or.inr ⟨h, he⟩
      · exact Or.inl (List.mem_cons_of_mem _ he)
    · simp only [hk, if_false, List.mem_cons] at he
      rcases he with he | he
      · exact Or.inl (by rw [he]; exact List.mem_cons_self _ _)
      · rcases ih e he with h1 | h1
        · exact Or.inl (List.mem_cons_of_mem _ h1)
        · exact Or.inr h1

/-- A vote under a 32-bit key keeps the hit map well formed. -/
theorem HitMap.vote_WF (hits : HitMap) (key : Nat) (f : TranscriptHitList → TranscriptHitList)
    (hw : hits.WF) (hkey : key < 2 ^ 32) (hf : ∀ h, (f h).votes ≠ []) :
    (hits.vote key f).WF := by
  obtain ⟨hnd, hv, hk⟩ := hw
  refine ⟨?_, ?_, ?_⟩
  · rw [HitMap.vote_keys]
    split
    · exact hnd
    · next hnot =>
      rw [List.nodup_append]
      refine ⟨hnd, List.nodup_singleton _, ?_⟩
      intro a ha hb
      rw [List.mem_singleton] at hb
      exact hnot (hb ▸ ha)
  · intro e he
    rcases HitMap.vote_mem hits key f e he with h | ⟨h, rfl⟩
    · exact hv e h
    · exact hf h
  · intro e he
    rcases HitMap.vote_mem hits key f e he with h | ⟨h, rfl⟩
    · exact hk e h
    · exact hkey

theorem transcript_lt (e : Nat) : transcript e < 2 ^ 32 :=
  Nat.mod_lt _ (by norm_num)

theorem voteLocations_WF (kmerLocs : List Nat)
    (vote : TranscriptHitList → Nat → Nat → TranscriptHitList) (readPos : Nat)
    (hvote : ∀ h t r, (vote h t r).votes ≠ []) :
    ∀ (count ei : Nat) (hits hits' : HitMap), hits.WF →
      voteLocations kmerLocs vote readPos ei count hits = some hits' → hits'.WF := by
  intro count
  induction count with
  | zero =>
    intro ei hits hits' hw h
    simp only [voteLocations, Option.some.injEq] at h
    exact h ▸ hw
  | succ n ih =>
    intro ei hits hits' hw h
    unfold voteLocations at h
    split at h
    · cases h
    · next e _ =>
      exact ih (ei + 1) _ hits'
        (HitMap.vote_WF hits (transcript e) _ hw (transcript_lt e) (fun h => hvote h _ _)) h

theorem lookupMer_WF (phi : PerfectHashIndex) (offsets kmerLocs : List Nat)
    (vote : TranscriptHitList → Nat → Nat → TranscriptHitList)
    (hvote : ∀ h t r, (vote h t r).votes ≠ []) (bits readPos : Nat)
    (hits : HitMap) (tot : Nat) (r : HitMap × Nat) (hw : hits.WF)
    (h : lookupMer phi offsets kmerLocs vote bits readPos hits tot = some r) : r.1.WF := by
  unfold lookupMer at h
  by_cases hid : phi.index bits = phi.INVALID
  · simp only [ne_eq, hid, not_true_eq_false, if_false, Option.some.injEq] at h
    exact h ▸ hw
  · simp only [ne_eq, hid, not_false_eq_true, if_true] at h
    split at h
    · next first last _ _ =>
      cases hv : voteLocations kmerLocs vote readPos first (last - first) hits with
      | none => rw [hv] at h; cases h
      | some hits' =>
        rw [hv] at h
        simp only [Option.some.injEq] at h
        rw [← h]
        exact voteLocations_WF kmerLocs vote readPos hvote _ _ _ _ hw hv
    · cases h

theorem addVote_votes_ne (h : TranscriptHitList) (t r : Nat) : (h.addVote t r).votes ≠ [] := by
  show h.votes ++ _ ≠ []
  simp

theorem addVoteRC_votes_ne (h : TranscriptHitList) (t r : Nat) :
    (h.addVoteRC t r).votes ≠ [] := by
  show h.votes ++ _ ≠ []
  simp

theorem scanStep_WF (ops : MerOps M) (phi : PerfectHashIndex) (offsets kmerLocs : List Nat)
    (st st' : ScanState M) (base : Char) (hw : st.hits.WF)
    (h : scanStep ops phi offsets kmerLocs st base = some st') : st'.hits.WF := by
  unfold scanStep at h
  by_cases hq : (codecStep ops phi.kmerLength st.codec base).2 = true
  · simp only [hq, if_true] at h
    split at h
    · cases h
    · next fwd hf =>
      split at h
      · cases h
      · next bwd hb =>
        simp only [Option.some.injEq] at h
        rw [← h]
        exact lookupMer_WF phi offsets kmerLocs _ addVoteRC_votes_ne _ _ _ _ _
          (lookupMer_WF phi offsets kmerLocs _ addVote_votes_ne _ _ _ _ _ hw hf) hb
  · simp only [hq, Bool.false_eq_true, if_false, Option.some.injEq] at h
    rw [← h]
    exact hw

theorem scanLoop_WF (ops : MerOps M) (phi : PerfectHashIndex) (offsets kmerLocs : List Nat)
    (cs : List Char) :
    ∀ st st' : ScanState M, st.hits.WF →
      scanLoop ops phi offsets kmerLocs cs st = some st' → st'.hits.WF := by
  induction cs with
  | nil =>
    intro st st' hw h
    simp only [scanLoop, Option.some.injEq] at h
    exact h ▸ hw
  | cons c rest ih =>
    intro st st' hw h
    unfold scanLoop at h
    cases hs : scanStep ops phi offsets kmerLocs st c with
    | none => rw [hs] at h; cases h
    | some st1 =>
      rw [hs] at h
      exact ih st1 st' (scanStep_WF ops phi offsets kmerLocs st st1 c hw hs) h

theorem HitMap.WF_nil : HitMap.WF [] := by
  refine ⟨List.nodup_nil, ?_, ?_⟩ <;> intro e he <;> cases he

/-- The hit map that the scan of a read end builds, the left end as the right
one, has one entry per transcript, each with at least one vote and under a
32-bit transcript id: it is well formed, as the scoring block needs it. -/
theorem scan_hits_WF (ops : MerOps M) (phi : PerfectHashIndex) (offsets kmerLocs : List Nat)
    (kmer rkmer : M) (seq : List Char) (st : ScanState M)
    (h : scanLeft ops phi offsets kmerLocs kmer rkmer seq = some st ∨
      scanRight ops phi offsets kmerLocs kmer rkmer seq = some st) :
    st.hits.WF := by
  rcases h with h | h
  · exact scanLoop_WF ops phi offsets kmerLocs _ _ st HitMap.WF_nil h
  · exact scanLoop_WF ops phi offsets kmerLocs _ _ st HitMap.WF_nil h

end ScanHitMaps

theorem scan_hits_WF_witness :
    (scanLeft (dnaOps 2) toyIndex toyOffsets toyLocs 0 0 ['A', 'C', 'G']
        = some ⟨⟨6, 6, 2, 3⟩, [(0, ⟨0, 0, [⟨0, 0⟩, ⟨0, 1⟩, ⟨2, 1⟩]⟩)], 2, 1⟩ ∨
      scanRight (dnaOps 2) toyIndex toyOffsets toyLocs 0 0 ['A', 'C', 'G']
        = some ⟨⟨6, 6, 2, 3⟩, [(0, ⟨0, 0, [⟨0, 0⟩, ⟨0, 1⟩, ⟨2, 1⟩]⟩)], 2, 1⟩) ∧
    HitMap.WF [(0, ⟨0, 0, [⟨0, 0⟩, ⟨0, 1⟩, ⟨2, 1⟩]⟩)] :=
  ⟨Or.inl (by decide!),
    scan_hits_WF (dnaOps 2) toyIndex toyOffsets toyLocs 0 0 ['A', 'C', 'G']
      ⟨⟨6, 6, 2, 3⟩, [(0, ⟨0, 0, [⟨0, 0⟩, ⟨0, 1⟩, ⟨2, 1⟩]⟩)], 2, 1⟩ (Or.inl (by decide!))⟩

/-! ## Theorems: the defensive branch of `computeBestHit` -/

/-- Below or at the vote, the cluster start stays or moves to the vote. -/
theorem voteStep_currClust (st : ClusterLoop) (v : KmerVote) (h : st.currClust ≤ v.votePos) :
    (voteStep st v).currClust = st.currClust ∨ (voteStep st v).currClust = v.votePos := by
  rw [(voteStep_sorted st v h).1]
  split
  · exact Or.inl rfl
  · exact Or.inr rfl

/-- Over votes in ascending order of `votePos`, none below the cluster start,
the loop never prints "CHA?!?". -/
theorem chaCount_sorted (vs : List KmerVote) :
    ∀ st : ClusterLoop, (∀ v ∈ vs, st.currClust ≤ v.votePos) →
      vs.Pairwise (fun a b => a.votePos ≤ b.votePos) → chaCount vs st = 0 := by
  induction vs with
  | nil => intro st _ _; rfl
  | cons v rest ih =>
    intro st hge hsorted
    have hv : st.currClust ≤ v.votePos := hge v (List.mem_cons_self _ _)
    rw [List.pairwise_cons] at hsorted
    unfold chaCount
    rw [if_pos hv, Nat.zero_add]
    apply ih _ _ hsorted.2
    intro u hu
    rcases voteStep_currClust st v hv with hc | hc
    · rw [hc]; exact hge u (List.mem_cons_of_mem _ hu)
    · rw [hc]; exact hsorted.1 u hu

/-- Over votes in ascending order of `votePos`, none below the cluster start,
the cluster start after the loop is the one before it or the position of one
of the votes. -/
theorem foldl_currClust (vs : List KmerVote) :
    ∀ st : ClusterLoop, (∀ v ∈ vs, st.currClust ≤ v.votePos) →
      vs.Pairwise (fun a b => a.votePos ≤ b.votePos) →
      (vs.foldl voteStep st).currClust = st.currClust ∨
        ∃ u ∈ vs, (vs.foldl voteStep st).currClust = u.votePos := by
  induction vs with
  | nil => intro st _ _; exact Or.inl rfl
  | cons v rest ih =>
    intro st hge hsorted
    have hv : st.currClust ≤ v.votePos := hge v (List.mem_cons_self _ _)
    rw [List.pairwise_cons] at hsorted
    rw [List.foldl_cons]
    have hge' : ∀ u ∈ rest, (voteStep st v).currClust ≤ u.votePos := by
      intro u hu
      rcases voteStep_currClust st v hv with hc | hc
      · rw [hc]; exact hge u (List.mem_cons_of_mem _ hu)
      · rw [hc]; exact hsorted.1 u hu
    rcases ih (voteStep st v) hge' hsorted.2 with h1 | ⟨u, hu, h1⟩
    · rcases voteStep_currClust st v hv with hc | hc
      · exact Or.inl (by rw [h1, hc])
      · exact Or.inr ⟨v, List.mem_cons_self _ _, by rw [h1, hc]⟩
    · exact Or.inr ⟨u, List.mem_cons_of_mem _ hu, h1⟩

/-- The initial cluster start is not above any vote of a sorted list. -/
theorem initLoop_le (vs : List KmerVote)
    (hsorted : vs.Pairwise (fun a b => a.votePos ≤ b.votePos)) :
    ∀ v ∈ vs, (initLoop vs).currClust ≤ v.votePos := by
  cases vs with
  | nil => intro v hv; cases hv
  | cons a rest =>
    intro v hv
    rw [List.pairwise_cons] at hsorted
    show a.votePos ≤ v.votePos
    rcases List.mem_cons.1 hv with h | h
    · rw [h]
    · exact hsorted.1 v h

/-- C21.  In `computeBestHit` the defensive branch that prints "CHA?!?" (a vote
whose position is below the current cluster start) is unreachable: for every
non-empty vote list, one call prints "CHA?!?" zero times, and every vote `v`
the loop processes after the sort, whatever the votes `pre` before it, meets
`votePos ≥ currClust`, because the cluster start is then the position of one
of the votes up to and including `v` in the sorted order.  (`currClust` is an
`int32_t` that is compared with and assigned from `uint32_t` values; the
comparisons are the unsigned ones, on which the embedding works.) -/
theorem cha_branch_unreachable (h : TranscriptHitList) (hne : h.votes ≠ []) :
    sortVotes h.votes ≠ [] ∧
    computeBestHitChas h = 0 ∧
    ∀ pre v post, sortVotes h.votes = pre ++ v :: post →
      (pre.foldl voteStep (initLoop (sortVotes h.votes))).currClust ≤ v.votePos ∧
      ∃ u ∈ pre ++ [v],
        (pre.foldl voteStep (initLoop (sortVotes h.votes))).currClust = u.votePos := by
  have hsorted := sortVotes_pairwise h.votes
  have hinit := initLoop_le (sortVotes h.votes) hsorted
  refine ⟨?_, chaCount_sorted _ _ hinit hsorted, ?_⟩
  · intro hnil
    have hlen := sortVotes_length h.votes
    rw [hnil] at hlen
    exact hne (List.length_eq_zero.1 hlen.symm)
  · intro pre v post hsplit
    rw [hsplit] at hsorted hinit
    rw [hsplit]
    have hpre : pre.Pairwise (fun a b => a.votePos ≤ b.votePos) :=
      (List.pairwise_append.1 hsorted).1
    have hcross : ∀ a ∈ pre, a.votePos ≤ v.votePos := fun a ha =>
      (List.pairwise_append.1 hsorted).2.2 a ha v (List.mem_cons_self _ _)
    have hhead : ∃ u ∈ pre ++ [v], (initLoop (pre ++ v :: post)).currClust = u.votePos := by
      cases pre with
      | nil => exact ⟨v, by simp, rfl⟩
      | cons a rest => exact ⟨a, by simp, rfl⟩
    rcases foldl_currClust pre (initLoop (pre ++ v :: post))
        (fun u hu => hinit u (List.mem_append_left _ hu)) hpre with h1 | ⟨u, hu, h1⟩
    · rw [h1]
      exact ⟨hinit v (by simp), hhead⟩
    · rw [h1]
      exact ⟨hcross u hu, u, List.mem_append_left _ hu, rfl⟩

theorem cha_branch_unreachable_witness :
    (⟨0, 0, [⟨30, 2⟩, ⟨5, 1⟩, ⟨12, 0⟩, ⟨5, 0⟩]⟩ : TranscriptHitList).votes ≠ [] ∧
    sortVotes [⟨30, 2⟩, ⟨5, 1⟩, ⟨12, 0⟩, ⟨5, 0⟩] = [⟨5, 0⟩, ⟨5, 1⟩, ⟨12, 0⟩, ⟨30, 2⟩] ∧
    computeBestHitChas ⟨0, 0, [⟨30, 2⟩, ⟨5, 1⟩, ⟨12, 0⟩, ⟨5, 0⟩]⟩ = 0 :=
  ⟨by decide, by decide,
    (cha_branch_unreachable ⟨0, 0, [⟨30, 2⟩, ⟨5, 1⟩, ⟨12, 0⟩, ⟨5, 0⟩]⟩ (by decide)).2.1⟩

/-- Without the sort the branch is reached: on the same votes in the order
they were added the loop prints "CHA?!?" once (at the vote at position 5
that follows the one at position 30). -/
theorem cha_branch_reached_unsorted :
    chaCount [⟨30, 2⟩, ⟨5, 1⟩, ⟨12, 0⟩, ⟨5, 0⟩]
      (initLoop [⟨30, 2⟩, ⟨5, 1⟩, ⟨12, 0⟩, ⟨5, 0⟩]) = 1 := by
  decide!

/-! ## Theorems: the candidates of a read pair -/

section Candidates
variable {K : Type} [LinearOrderedSemifield K]

/-- A candidate carries the key of the right hit list it was made from. -/
theorem scoreRight_transcriptID (leftHits : HitMap) (L R : Nat)
    (e : Nat × TranscriptHitList) (a : Alignment K)
    (h : scoreRight leftHits L R e = some a) : a.transcriptID = u32 e.1 := by
  obtain ⟨it, _, _, _, ha⟩ := (scoreRight_eq_some leftHits L R e a).1 h
  rw [ha]
  rfl

/-- The transcript ids of the candidates are, in order, among the keys of the
right hit map. -/
theorem candidates_sublist (leftHits : HitMap) (L R : Nat) (rightHits : HitMap)
    (hkey : ∀ e ∈ rightHits, e.1 < 2 ^ 32) :
    ((rightHits.filterMap (scoreRight (K := K) leftHits L R)).map
      (fun a => a.transcriptID)).Sublist (rightHits.map Prod.fst) := by
  induction rightHits with
  | nil => exact List.Sublist.slnil
  | cons e rest ih =>
    have ih' := ih (fun x hx => hkey x (List.mem_cons_of_mem _ hx))
    cases hs : scoreRight (K := K) leftHits L R e with
    | none =>
      rw [List.filterMap_cons_none hs, List.map_cons]
      exact List.Sublist.cons _ ih'
    | some a =>
      rw [List.filterMap_cons_some hs, List.map_cons, List.map_cons]
      have hid : a.transcriptID = e.1 := by
        rw [scoreRight_transcriptID leftHits L R e a hs]
        exact Nat.mod_eq_of_lt (hkey e (List.mem_cons_self _ _))
      rw [hid]
      exact List.Sublist.cons₂ _ ih'

theorem scoringBlock_nodup (leftHits rightHits : HitMap) (L R : Nat) (hr : rightHits.WF) :
    ((scoringBlock (K := K) leftHits rightHits L R).map (fun a => a.transcriptID)).Nodup :=
  (candidates_sublist _ L R rightHits hr.2.2).nodup hr.1

theorem ambiguityGate_nodup (hitList : List (Alignment K))
    (h : (hitList.map (fun a => a.transcriptID)).Nodup) :
    ((ambiguityGate hitList).map (fun a => a.transcriptID)).Nodup := by
  unfold ambiguityGate
  split
  · exact List.nodup_nil
  · exact h

/-- On a non-empty list that names no transcript twice, all alignments name
the transcript of the first one exactly when the list has one alignment. -/
theorem allSame_iff_length_one (g : List (Alignment K)) (hne : g ≠ [])
    (hnd : (g.map (fun a => a.transcriptID)).Nodup) :
    allSame g = true ↔ g.length = 1 := by
  cases g with
  | nil => exact absurd rfl hne
  | cons a rest =>
    rw [List.map_cons, List.nodup_cons] at hnd
    constructor
    · intro hall
      cases rest with
      | nil => rfl
      | cons b rest' =>
        exfalso
        unfold allSame at hall
        rw [List.all_eq_true] at hall
        have hb := hall b (by simp)
        have hb' : b.transcriptID = a.transcriptID := by simpa [firstID] using hb
        exact hnd.1 (by rw [← hb']; simp)
    · intro hlen
      have hrest : rest = [] := by
        cases rest with
        | nil => rfl
        | cons b rest' => simp at hlen
      rw [hrest]
      simp [allSame, firstID]

/-- The candidate list left for the EM step from the right-end hit map that
the scan of a read end builds names no transcript twice. -/
theorem scanned_candidates_nodup {M : Type} (ops : MerOps M) (phi : PerfectHashIndex)
    (offsets kmerLocs : List Nat) (kmer rkmer : M) (seq : List Char) (right : ScanState M)
    (h : scanRight ops phi offsets kmerLocs kmer rkmer seq = some right)
    (leftHits : HitMap) (L R : Nat) (ts : TranscriptTable K) :
    ((mapReadPair leftHits right.hits L R ts).1.map (fun a => a.transcriptID)).Nodup :=
  ambiguityGate_nodup _
    (scoringBlock_nodup leftHits right.hits L R
      (scanLoop_WF ops phi offsets kmerLocs _ _ right HitMap.WF_nil h))

/-- C22.  The candidate list the mapper builds for a read pair names each
transcript at most once: from a right-end hit map as the read scan builds it
(distinct 32-bit keys), the scoring block draws its candidates from the keys
of that map, and the ambiguity gate keeps the list or empties it.  So for
every such list the test "all alignments share the transcript of the first
one" is made by the E-step (the list is not empty) and comes out true exactly
when the list has length 1. -/
theorem candidates_named_once (leftHits rightHits : HitMap) (L R : Nat)
    (ts ts' : TranscriptTable K) (hr : rightHits.WF) :
    ((scoringBlock (K := K) leftHits rightHits L R).map (fun a => a.transcriptID)).Nodup ∧
    ((mapReadPair leftHits rightHits L R ts).1.map (fun a => a.transcriptID)).Nodup ∧
    (((mapReadPair leftHits rightHits L R ts).1 ≠ [] ∧
        (alnLoop ts' (mapReadPair leftHits rightHits L R ts).1).transcriptUnique = true) ↔
      (mapReadPair leftHits rightHits L R ts).1.length = 1) := by
  have h1 := scoringBlock_nodup (K := K) leftHits rightHits L R hr
  have h2 : ((mapReadPair leftHits rightHits L R ts).1.map (fun a => a.transcriptID)).Nodup :=
    ambiguityGate_nodup _ h1
  refine ⟨h1, h2, ?_⟩
  rw [(alnLoop_spec ts' _).2.2.2.2.2]
  constructor
  · rintro ⟨hne, hall⟩
    exact (allSame_iff_length_one _ hne h2).1 hall
  · intro hlen
    have hne : (mapReadPair leftHits rightHits L R ts).1 ≠ [] := by
      intro hnil
      rw [hnil] at hlen
      cases hlen
    exact ⟨hne, (allSame_iff_length_one _ hne h2).2 hlen⟩

end Candidates

theorem candidates_named_once_witness :
    s4RightHits.WF ∧
    (mapReadPair s4LeftHits s4RightHits 25 30 unitTable).1 = [Alignment.new 0 55] ∧
    (((mapReadPair s4LeftHits s4RightHits 25 30 unitTable).1 ≠ [] ∧
        (alnLoop unitTable
          (mapReadPair s4LeftHits s4RightHits 25 30 unitTable).1).transcriptUnique = true) ↔
      (mapReadPair s4LeftHits s4RightHits 25 30 unitTable).1.length = 1) :=
  ⟨⟨by decide, by decide, by decide⟩, by decide!,
    (candidates_named_once s4LeftHits s4RightHits 25 30 unitTable unitTable
      ⟨by decide, by decide, by decide⟩).2.2⟩

/-- A read pair with one k-mer hit in each of the transcripts 0 and 1 at both
ends leaves two candidates, one per transcript, and the test of the E-step
comes out false. -/
theorem two_candidates_not_unique :
    (mapReadPair (oneHitEach 2) (oneHitEach 2) 20 20 unitTable).1
      = [Alignment.new 0 40, Alignment.new 1 40] ∧
    (alnLoop unitTable
      (mapReadPair (oneHitEach 2) (oneHitEach 2) 20 20 unitTable).1).transcriptUnique
        = false := by
  decide!

/-! ## Theorems: what the mapper hands to the EM step -/

section MapperOutput
variable {K : Type} [LinearOrderedSemifield K]

theorem mem_ambiguityGate (hitList : List (Alignment K)) (a : Alignment K)
    (h : a ∈ ambiguityGate hitList) : a ∈ hitList := by
  unfold ambiguityGate at h
  split at h
  · cases h
  · exact h

/-- Every alignment the scoring block emits has a positive `kmerCount`: the
left score is at least four fifths of the left read length, which is positive
unless the left read has no characters (and then no hit), and the 32-bit sum of
the two scores does not wrap when each hit list holds fewer than
`2 ^ 31 / 20` votes. -/
theorem scoringBlock_kmerCount_pos (leftHits rightHits : HitMap) (L R : Nat)
    (hl : leftHits.WF) (hr : rightHits.WF) (hL : L < 2 ^ 32)
    (hL0 : 0 < L ∨ leftHits = [])
    (hlv : ∀ e ∈ leftHits, 20 * e.2.votes.length < 2 ^ 31)
    (hrv : ∀ e ∈ rightHits, 20 * e.2.votes.length < 2 ^ 31) :
    ∀ a ∈ scoringBlock (K := K) leftHits rightHits L R, 0 < a.kmerCount := by
  intro a ha
  obtain ⟨lh, rh, hlm, hrm, h1, _, heq⟩ :=
    (mem_scoringBlock leftHits rightHits L R hl hr a).1 ha
  have hLpos : 0 < L := by
    rcases hL0 with h | h
    · exact h
    · rw [h] at hlm; cases hlm
  have hcut := (meetsCutoff_exact _ _ hL).1 h1
  have hlb := bestHitScore_le lh (by have := hlv _ hlm; simp only at this; omega)
  have hrb := bestHitScore_le rh (by have := hrv _ hrm; simp only at this; omega)
  have hl31 := hlv _ hlm
  have hr31 := hrv _ hrm
  simp only at hl31 hr31
  have hk : a.kmerCount
      = u32 ((computeBestHit lh).bestHitScore + (computeBestHit rh).bestHitScore) := by
    rw [heq]; rfl
  rw [hk, show u32 ((computeBestHit lh).bestHitScore + (computeBestHit rh).bestHitScore)
      = (computeBestHit lh).bestHitScore + (computeBestHit rh).bestHitScore from
    Nat.mod_eq_of_lt (by omega)]
  omega

/-- Every alignment of the list that one iteration of the read loop of
`add_sizes` leaves for the EM step has a positive `kmerCount`. -/
theorem mapper_kmerCount_pos (leftHits rightHits : HitMap) (L R : Nat)
    (ts : TranscriptTable K)
    (hl : leftHits.WF) (hr : rightHits.WF) (hL : L < 2 ^ 32)
    (hL0 : 0 < L ∨ leftHits = [])
    (hlv : ∀ e ∈ leftHits, 20 * e.2.votes.length < 2 ^ 31)
    (hrv : ∀ e ∈ rightHits, 20 * e.2.votes.length < 2 ^ 31) :
    ∀ a ∈ (mapReadPair leftHits rightHits L R ts).1, 0 < a.kmerCount := by
  intro a ha
  exact scoringBlock_kmerCount_pos leftHits rightHits L R hl hr hL hL0 hlv hrv a
    (mem_ambiguityGate _ a ha)

/-- The same for the hit maps that the scans of the two read ends build, with
the read lengths `leftReadLength` and `rightReadLength` the scans record. -/
theorem scanned_kmerCount_pos {M : Type} (ops : MerOps M) (phi : PerfectHashIndex)
    (offsets kmerLocs : List Nat) (kmer rkmer kmer' rkmer' : M)
    (leftSeq rightSeq : List Char) (left right : ScanState M)
    (hleft : scanLeft ops phi offsets kmerLocs kmer rkmer leftSeq = some left)
    (hright : scanRight ops phi offsets kmerLocs kmer' rkmer' rightSeq = some right)
    (hlv : ∀ e ∈ left.hits, 20 * e.2.votes.length < 2 ^ 31)
    (hrv : ∀ e ∈ right.hits, 20 * e.2.votes.length < 2 ^ 31)
    (ts : TranscriptTable K) :
    ∀ a ∈ (mapReadPair left.hits right.hits (u32 leftSeq.length) (u32 rightSeq.length)
        ts).1, 0 < a.kmerCount := by
  apply mapper_kmerCount_pos _ _ _ _ ts
    (scanLoop_WF ops phi offsets kmerLocs _ _ left HitMap.WF_nil hleft)
    (scanLoop_WF ops phi offsets kmerLocs _ _ right HitMap.WF_nil hright)
    (Nat.mod_lt _ (by norm_num)) ?_ hlv hrv
  by_cases h0 : u32 leftSeq.length = 0
  · right
    unfold scanLeft at hleft
    simp only [h0, List.take_zero, scanLoop, Option.some.injEq] at hleft
    rw [← hleft]
  · left
    exact Nat.pos_of_ne_zero h0

end MapperOutput

end Sailfish
